import Mathlib

/-!
Verification of the booru-db tag-search engine (shallow embedding).

The Rust source is embedded as executable Lean definitions:
  * machine words (`u64`, called `Packed` in the source) are `Nat` together
    with explicit `2 ^ 64` bounds where they matter;
  * `Vec<u64>` bitmaps are `List Nat`;
  * the borrowed/owned pairs `Queryable::Checks / ChecksOwned` and
    `Queryable::IDs / IDsOwned` are merged into one constructor each, because
    the source duplicates textually identical code for the two variants;
  * in-place mutation becomes explicit state passing.
-/

/-- PACKED_SIZE in src/lib.rs: bits per word. -/
def PACKED_SIZE : Nat := 64

/-- `u64::MAX`, the all-ones word. -/
def packedMax : Nat := 2 ^ 64 - 1

/-- Rust `!m` on a `u64`: complement within 64 bits. -/
def not64 (m : Nat) : Nat := packedMax ^^^ m

/-- `bit_checks` from src/query/run.rs specialised to a word-wise operator:
`a.iter_mut().zip(b.iter())` mutates only the first `min |a| |b|` words of `a`
and leaves the tail of `a` untouched. -/
def bitChecks (f : Nat → Nat → Nat) (a b : List Nat) : List Nat :=
  (List.zipWith f a b) ++ a.drop b.length

/-- `and_checks` from src/query/run.rs. -/
def andChecks (a b : List Nat) : List Nat :=
  bitChecks (fun x y => x &&& y) a b

/-- `and_not_checks` from src/query/run.rs. -/
def andNotChecks (a b : List Nat) : List Nat :=
  bitChecks (fun x y => x &&& not64 y) a b

/-- `or_checks` from src/query/run.rs. -/
def orChecks (a b : List Nat) : List Nat :=
  bitChecks (fun x y => x ||| y) a b

/-- One step of `apply_ids` (src/query/queryable.rs): combine the word holding
bit `id` with `1 << (id % 64)` using `op`, skipping out-of-range ids.  The
source works on a byte-aliased view of the word array; on the little-endian
targets the crate runs on this is the same as operating on the words. -/
def applyId (op : Nat → Nat → Nat) (ws : List Nat) (id : Nat) : List Nat :=
  if id / 64 < ws.length then
    ws.set (id / 64) (op (ws.getD (id / 64) 0) (1 <<< (id % 64)))
  else ws

/-- `apply_ids` from src/query/queryable.rs: fill with zeros (or all-ones when
`inverse`) and then set (respectively toggle) the bit of every id. -/
def applyIds (ids : List Nat) (len : Nat) (inverse : Bool) : List Nat :=
  if inverse then
    ids.foldl (applyId (fun w b => w ^^^ b)) (List.replicate len packedMax)
  else
    ids.foldl (applyId (fun w b => w ||| b)) (List.replicate len 0)

/-- `Queryable` from src/query/queryable.rs.  `checks` covers the
`Checks`/`ChecksOwned` variants, `ids` covers `IDs`/`IDsOwned`; the source's
operations on the borrowed and owned variant of a pair are identical. -/
inductive Queryable : Type where
  | checks (ws : List Nat)
  | ids (l : List Nat)
  deriving DecidableEq, Repr

/-- `Queryable::and` from src/query/queryable.rs. -/
def Queryable.and (q : Queryable) (checks : List Nat) (inverse : Bool) : List Nat :=
  match q with
  | .checks mask =>
    if inverse then bitChecks (fun c m => c &&& not64 m) checks mask
    else bitChecks (fun c m => c &&& m) checks mask
  | .ids l =>
    let mask := applyIds l checks.length inverse
    List.zipWith (fun c m => c &&& m) checks mask

/-- `Queryable::or` from src/query/queryable.rs.  For an inverted bitmap mask
shorter than `checks`, the trailing words of `checks` are set to all ones; for
a non-inverted id list the bits are set directly into `checks`. -/
def Queryable.or (q : Queryable) (checks : List Nat) (inverse : Bool) : List Nat :=
  match q with
  | .checks mask =>
    if inverse then
      (List.zipWith (fun c m => c ||| not64 m) checks mask) ++
        (checks.drop mask.length).map (fun _ => packedMax)
    else bitChecks (fun c m => c ||| m) checks mask
  | .ids l =>
    if inverse then
      let mask := applyIds l checks.length true
      List.zipWith (fun c m => c ||| m) checks mask
    else
      l.foldl (applyId (fun w b => w ||| b)) checks

/-- The query AST (src/query/mod.rs).  The source separates `struct Query
{ item, inverse }` from `enum Item`; here each constructor carries the node's
`inverse` flag directly. -/
inductive Query (T : Type) : Type where
  | andChain (children : List (Query T)) (inverse : Bool)
  | orChain (children : List (Query T)) (inverse : Bool)
  | single (t : T) (inverse : Bool)
  deriving Repr

/-- The `inverse` field of a node. -/
def Query.inverse : Query T → Bool
  | .andChain _ i => i
  | .orChain _ i => i
  | .single _ i => i

mutual

/-- Structural decidable equality on the AST (the `Eq` derive of the source). -/
def queryDecEq {T : Type} [DecidableEq T] : (a b : Query T) → Decidable (a = b)
  | .andChain l1 i1, .andChain l2 i2 =>
    match queryListDecEq l1 l2, decEq i1 i2 with
    | isTrue h1, isTrue h2 => isTrue (by rw [h1, h2])
    | isFalse h1, _ => isFalse (fun h => by cases h; exact h1 rfl)
    | _, isFalse h2 => isFalse (fun h => by cases h; exact h2 rfl)
  | .orChain l1 i1, .orChain l2 i2 =>
    match queryListDecEq l1 l2, decEq i1 i2 with
    | isTrue h1, isTrue h2 => isTrue (by rw [h1, h2])
    | isFalse h1, _ => isFalse (fun h => by cases h; exact h1 rfl)
    | _, isFalse h2 => isFalse (fun h => by cases h; exact h2 rfl)
  | .single t1 i1, .single t2 i2 =>
    match decEq t1 t2, decEq i1 i2 with
    | isTrue h1, isTrue h2 => isTrue (by rw [h1, h2])
    | isFalse h1, _ => isFalse (fun h => by cases h; exact h1 rfl)
    | _, isFalse h2 => isFalse (fun h => by cases h; exact h2 rfl)
  | .andChain _ _, .orChain _ _ => isFalse (fun h => by cases h)
  | .andChain _ _, .single _ _ => isFalse (fun h => by cases h)
  | .orChain _ _, .andChain _ _ => isFalse (fun h => by cases h)
  | .orChain _ _, .single _ _ => isFalse (fun h => by cases h)
  | .single _ _, .andChain _ _ => isFalse (fun h => by cases h)
  | .single _ _, .orChain _ _ => isFalse (fun h => by cases h)

/-- Decidable equality on lists of AST nodes. -/
def queryListDecEq {T : Type} [DecidableEq T] : (a b : List (Query T)) → Decidable (a = b)
  | [], [] => isTrue rfl
  | [], _ :: _ => isFalse (fun h => by cases h)
  | _ :: _, [] => isFalse (fun h => by cases h)
  | a :: as, b :: bs =>
    match queryDecEq a b, queryListDecEq as bs with
    | isTrue h1, isTrue h2 => isTrue (by rw [h1, h2])
    | isFalse h1, _ => isFalse (fun h => by cases h; exact h1 rfl)
    | _, isFalse h2 => isFalse (fun h => by cases h; exact h2 rfl)

end

instance {T : Type} [DecidableEq T] : DecidableEq (Query T) := queryDecEq

mutual

/-- `Query::<Queryable>::inner_run` from src/query/run.rs.  The `inverse`
parameter is the flag accumulated by the caller; note that the `orChain`
branch ignores it and uses the node's own flag (`self.inverse`), exactly as
the source does. -/
def innerRun (q : Query Queryable) (checks : List Nat) (inverse : Bool) : List Nat :=
  match q with
  | .andChain items _ => innerRunAnd items checks inverse
  | .orChain items selfInverse =>
    let checks2 := innerRunOr items (List.replicate checks.length 0) checks.length
    if selfInverse then andNotChecks checks checks2 else andChecks checks checks2
  | .single t _ => t.and checks inverse

/-- The `Item::AndChain` loop of `inner_run`: each child runs in sequence with
its own inverse XORed into the accumulated one. -/
def innerRunAnd (items : List (Query Queryable)) (checks : List Nat) (inverse : Bool) :
    List Nat :=
  match items with
  | [] => checks
  | item :: rest =>
    innerRunAnd rest (innerRun item checks (item.inverse ^^ inverse)) inverse

/-- The `Item::OrChain` loop of `inner_run`: a `Single` child is ORed into the
accumulator with its own inverse; any other child is evaluated into a buffer
refilled with all-ones and the buffer is ORed in. -/
def innerRunOr (items : List (Query Queryable)) (checks2 : List Nat) (len : Nat) :
    List Nat :=
  match items with
  | [] => checks2
  | item :: rest =>
    match item with
    | .single t selfInverse => innerRunOr rest (t.or checks2 selfInverse) len
    | other =>
      let checks3 := innerRun other (List.replicate len packedMax) other.inverse
      innerRunOr rest (orChecks checks2 checks3) len

end

/-- `Query::<Queryable>::run` from src/query/run.rs: clone the base alive-set;
a root `Single` is ANDed straight in, anything else runs `inner_run` and is
then ANDed with the base again. -/
def Query.run (q : Query Queryable) (baseChecks : List Nat) : List Nat :=
  match q with
  | .single t selfInverse => t.and baseChecks selfInverse
  | _ => andChecks (innerRun q baseChecks q.inverse) baseChecks

/-- `QueryResult::contains` from src/query/result.rs, as a function of the
result's word list. -/
def queryResultContains (checks : List Nat) (id : Nat) : Bool :=
  if h : id / PACKED_SIZE < checks.length then
    decide ((checks.get ⟨id / PACKED_SIZE, h⟩ &&& (1 <<< (id % PACKED_SIZE))) ≠ 0)
  else false

/-- End-of-loop flush of `parse_item` (src/query/parse.rs): a pending or-chain
is pushed onto the and-chain. -/
def finalizeChains (ac oc : List (Query String)) : List (Query String) :=
  if oc = [] then ac else ac ++ [Query.orChain oc false]

/-- The body of `parse_item`'s `if let Some(item) = item` branch: decide
whether the new item joins the pending or-chain or the and-chain, flushing the
or-chain as the source does.  `next` is the token one past the item
(`input[index + 1]`). -/
def pushParsedItem (ac oc : List (Query String)) (wasOr : Bool) (next : Option String)
    (it : Query String) : List (Query String) × List (Query String) :=
  let (ac1, oc1) :=
    if ¬wasOr ∧ oc ≠ [] then (ac ++ [Query.orChain oc false], ([] : List (Query String)))
    else (ac, oc)
  if wasOr ∨ (oc1 = [] ∧ next = some "or") then (ac1, oc1 ++ [it])
  else
    let (ac2, oc2) :=
      if oc1 ≠ [] then (ac1 ++ [Query.orChain oc1 false], ([] : List (Query String)))
      else (ac1, oc1)
    (ac2 ++ [it], oc2)

mutual

/-- `parse_item` from src/query/parse.rs, returning how many tokens were
consumed and the children of the resulting `Item::AndChain`.  The `fuel`
argument makes the recursion structural; `fuel > input.length` always
suffices (each loop iteration consumes at least one token). -/
def parseItemF (fuel : Nat) (input : List String) : Nat × List (Query String) :=
  match fuel with
  | 0 => (0, [])
  | fuel + 1 => parseLoopF fuel input [] [] false

/-- The `while index < input.len()` loop of `parse_item`, recursing on the
unconsumed suffix with the `and_chain` / `or_chain` / `was_or` state. -/
def parseLoopF (fuel : Nat) (input : List String) (ac oc : List (Query String))
    (wasOr : Bool) : Nat × List (Query String) :=
  match fuel with
  | 0 => (0, finalizeChains ac oc)
  | fuel + 1 =>
    match input with
    | [] => (0, finalizeChains ac oc)
    | t :: rest =>
      if t = ")" then (1, finalizeChains ac oc)
      else if t = "-" ∨ t = "()" ∨ t = "or" then
        let isOr := t = "or"
        let (ac1, oc1) :=
          if ¬isOr ∧ oc ≠ [] then (ac ++ [Query.orChain oc false], ([] : List (Query String)))
          else (ac, oc)
        let (n, r) := parseLoopF fuel rest ac1 oc1 isOr
        (n + 1, r)
      else if t = "(" ∨ t = "-(" then
        let (i, inner) := parseItemF fuel rest
        let it := Query.andChain inner (t = "-(")
        let rest2 := rest.drop i
        let (ac1, oc1) := pushParsedItem ac oc wasOr rest2.head? it
        let (n, r) := parseLoopF fuel rest2 ac1 oc1 false
        (i + n + 1, r)
      else
        let inv := t.data.head? = some '-'
        let tag := if inv then t.drop 1 else t
        let it := Query.single tag inv
        let (ac1, oc1) := pushParsedItem ac oc wasOr rest.head? it
        let (n, r) := parseLoopF fuel rest ac1 oc1 false
        (n + 1, r)

end

/-- `Query::parse` from src/query/parse.rs on a whitespace-tokenised input:
parse an item and fail if tokens were left unconsumed.  The fuel
`2 * length + 2` dominates the source's recursion depth (each consumed token
costs one loop step plus at most one `parse_item` entry). -/
def queryParse (tokens : List String) : Option (Query String) :=
  let (n, items) := parseItemF (2 * tokens.length + 2) tokens
  if n = tokens.length then some (Query.andChain items false) else none

mutual

/-- `Query::inner_try_map` from src/query/util.rs.  `inverse` is the caller's
accumulated flag; the function XORs the node's own flag into it on entry.  An
`AndChain` fails if any child fails; an `OrChain` drops failing children
unless all of a non-empty chain fail; an unresolved `Single` on a negated
path contributes no missing tag. -/
def innerTryMap (f : String → Bool → Option (Query Queryable)) (q : Query String)
    (inverse : Bool) : Except (List String) (Query Queryable) :=
  match q with
  | .andChain items selfInverse =>
    let (mapped, missing) := tryMapChildren f items (inverse ^^ selfInverse)
    if missing = [] then .ok (Query.andChain mapped selfInverse)
    else .error missing
  | .orChain items selfInverse =>
    let (mapped, missing) := tryMapChildren f items (inverse ^^ selfInverse)
    if mapped = [] ∧ items.length ≠ 0 then .error missing
    else .ok (Query.orChain mapped selfInverse)
  | .single tag selfInverse =>
    match f tag selfInverse with
    | some item => .ok item
    | none => if inverse ^^ selfInverse then .error [] else .error [tag]

/-- The `filter_map` over children in `inner_try_map`, collecting mapped
children and missing tags. -/
def tryMapChildren (f : String → Bool → Option (Query Queryable))
    (items : List (Query String)) (inverse : Bool) :
    List (Query Queryable) × List String :=
  match items with
  | [] => ([], [])
  | item :: rest =>
    let (mapped, missing) := tryMapChildren f rest inverse
    match innerTryMap f item inverse with
    | .ok m => (m :: mapped, missing)
    | .error miss => (mapped, miss ++ missing)

end

/-- `Query::try_map` from src/query/util.rs: the root's own inverse is passed
in as the initial accumulated flag (and XORed again on entry, as in the
source). -/
def Query.tryMap (q : Query String) (f : String → Bool → Option (Query Queryable)) :
    Except (List String) (Query Queryable) :=
  innerTryMap f q q.inverse

/-- `Db::query` from the `db!` macro in src/lib.rs for a Db whose only
registered index is the default one, composed with `Query::parse`: for such a
Db the identifier map holds only the `None` key, so the `split_once(':')`
routing always falls back to the default index, whose `query` callback (as in
the repository's `TagIndex` example) wraps the looked-up `Queryable` in a
`Single` with the requested inverse. -/
def dbQuery (tags : String → Option Queryable) (base : List Nat)
    (tokens : List String) : Option (List Nat) :=
  match queryParse tokens with
  | none => none
  | some q =>
    match q.tryMap (fun text inv => (tags text).map (fun t => Query.single t inv)) with
    | .error _ => none
    | .ok mq => some (mq.run base)

/-! ### Pointwise word lemmas -/

/-- Word `i` of a word list, with zero for out-of-range indices. -/
def wordAt (ws : List Nat) (i : Nat) : Nat := ws.getD i 0

theorem wordAt_nil (i : Nat) : wordAt [] i = 0 := by
  simp [wordAt]

theorem wordAt_cons (w : Nat) (ws : List Nat) (i : Nat) :
    wordAt (w :: ws) i = match i with | 0 => w | i + 1 => wordAt ws i := by
  cases i <;> simp [wordAt]

theorem wordAt_replicate (n : Nat) (x : Nat) (i : Nat) :
    wordAt (List.replicate n x) i = if i < n then x else 0 := by
  induction n generalizing i with
  | zero => simp [wordAt]
  | succ n ih =>
    cases i with
    | zero => simp [List.replicate, wordAt]
    | succ i =>
      simp only [List.replicate, wordAt_cons, ih]
      exact if_congr (by omega) rfl rfl

theorem wordAt_zipWith (f : Nat → Nat → Nat) (a b : List Nat) (i : Nat) :
    wordAt (List.zipWith f a b) i =
      if i < a.length ∧ i < b.length then f (wordAt a i) (wordAt b i) else 0 := by
  induction a generalizing b i with
  | nil => simp [wordAt]
  | cons x a ih =>
    cases b with
    | nil => simp [wordAt]
    | cons y b =>
      cases i with
      | zero => simp [wordAt]
      | succ i =>
        simp only [List.zipWith, wordAt_cons, ih, List.length_cons]
        exact if_congr (by omega) rfl rfl

theorem wordAt_of_le (ws : List Nat) (i : Nat) (h : ws.length ≤ i) : wordAt ws i = 0 := by
  simp [wordAt, List.getD_eq_getElem?_getD, List.getElem?_eq_none h]

theorem bitChecks_nil (f : Nat → Nat → Nat) (b : List Nat) : bitChecks f [] b = [] := by
  simp [bitChecks]

theorem bitChecks_cons (f : Nat → Nat → Nat) (x y : Nat) (a b : List Nat) :
    bitChecks f (x :: a) (y :: b) = f x y :: bitChecks f a b := by
  simp [bitChecks]

theorem wordAt_bitChecks (f : Nat → Nat → Nat) (a b : List Nat) (i : Nat) :
    wordAt (bitChecks f a b) i =
      if i < a.length then
        (if i < b.length then f (wordAt a i) (wordAt b i) else wordAt a i)
      else 0 := by
  induction a generalizing b i with
  | nil => simp [bitChecks_nil, wordAt_nil]
  | cons x a ih =>
    cases b with
    | nil =>
      have hb : bitChecks f (x :: a) [] = x :: a := by simp [bitChecks]
      rw [hb]
      by_cases h : i < (x :: a).length
      · simp only [List.length_cons] at h ⊢
        simp [h]
      · rw [wordAt_of_le _ _ (by omega)]
        simp only [List.length_cons] at h ⊢
        simp [h]
    | cons y b =>
      rw [bitChecks_cons]
      cases i with
      | zero => simp [wordAt_cons]
      | succ i =>
        simp only [wordAt_cons, ih, List.length_cons]
        by_cases h1 : i < a.length
        · simp only [if_pos h1, if_pos (by omega : i + 1 < a.length + 1)]
          exact if_congr (by omega) rfl rfl
        · simp [h1, (by omega : ¬(i + 1 < a.length + 1))]

theorem length_bitChecks (f : Nat → Nat → Nat) (a b : List Nat) :
    (bitChecks f a b).length = a.length := by
  simp [bitChecks]
  omega

theorem queryResultContains_eq_testBit (ws : List Nat) (id : Nat) :
    queryResultContains ws id = (wordAt ws (id / 64)).testBit (id % 64) := by
  have hsh : (1 <<< (id % 64)) = 2 ^ (id % 64) := by
    rw [Nat.shiftLeft_eq, Nat.one_mul]
  simp only [queryResultContains, PACKED_SIZE]
  split
  · rename_i h
    have hg : ws.get ⟨id / 64, h⟩ = wordAt ws (id / 64) := by
      simp [wordAt, List.getD_eq_getElem?_getD, List.getElem?_eq_getElem h]
    simp only [hg, hsh, Nat.and_two_pow]
    cases hbit : (wordAt ws (id / 64)).testBit (id % 64) <;>
      simp [hbit, (Nat.two_pow_pos (id % 64)).ne']
  · rename_i h
    rw [wordAt_of_le _ _ (by omega), Nat.zero_testBit]

/-! ### The alive-set mask (claim C3) -/

theorem contains_land_mono (g : Nat → Nat) (a b : List Nat) (id : Nat)
    (h : queryResultContains (bitChecks (fun x y => x &&& g y) a b) id = true) :
    queryResultContains a id = true := by
  rw [queryResultContains_eq_testBit] at h ⊢
  rw [wordAt_bitChecks] at h
  by_cases h1 : id / 64 < a.length
  · rw [if_pos h1] at h
    by_cases h2 : id / 64 < b.length
    · rw [if_pos h2, Nat.testBit_land] at h
      exact (Bool.and_eq_true_iff.mp h).1
    · rwa [if_neg h2] at h
  · rw [if_neg h1, Nat.zero_testBit] at h
    exact absurd h (by simp)

theorem contains_zip_land_mono (a b : List Nat) (id : Nat)
    (h : queryResultContains (List.zipWith (fun c m => c &&& m) a b) id = true) :
    queryResultContains a id = true := by
  rw [queryResultContains_eq_testBit] at h ⊢
  rw [wordAt_zipWith] at h
  by_cases h1 : id / 64 < a.length ∧ id / 64 < b.length
  · rw [if_pos h1, Nat.testBit_land] at h
    exact (Bool.and_eq_true_iff.mp h).1
  · rw [if_neg h1, Nat.zero_testBit] at h
    exact absurd h (by simp)

theorem queryableAnd_contains_mono (q : Queryable) (checks : List Nat) (inverse : Bool)
    (id : Nat) (h : queryResultContains (q.and checks inverse) id = true) :
    queryResultContains checks id = true := by
  match q with
  | .checks mask =>
    rw [Queryable.and] at h
    cases inverse with
    | true => exact contains_land_mono not64 checks mask id (by simpa using h)
    | false => exact contains_land_mono (fun m => m) checks mask id (by simpa using h)
  | .ids l =>
    rw [Queryable.and] at h
    exact contains_zip_land_mono checks _ id h

mutual

theorem innerRun_contains_mono (q : Query Queryable) (checks : List Nat) (inverse : Bool)
    (id : Nat) (h : queryResultContains (innerRun q checks inverse) id = true) :
    queryResultContains checks id = true :=
  match q with
  | .andChain items _ =>
    innerRunAnd_contains_mono items checks inverse id (by simpa only [innerRun] using h)
  | .orChain items selfInverse => by
    rw [innerRun] at h
    cases selfInverse with
    | true => exact contains_land_mono not64 checks _ id (by simpa [andNotChecks] using h)
    | false =>
      exact contains_land_mono (fun m => m) checks _ id (by simpa [andChecks] using h)
  | .single t selfInverse =>
    queryableAnd_contains_mono t checks inverse id (by simpa only [innerRun] using h)

theorem innerRunAnd_contains_mono (items : List (Query Queryable)) (checks : List Nat)
    (inverse : Bool) (id : Nat)
    (h : queryResultContains (innerRunAnd items checks inverse) id = true) :
    queryResultContains checks id = true :=
  match items with
  | [] => by simpa only [innerRunAnd] using h
  | item :: rest =>
    innerRun_contains_mono item checks (item.inverse ^^ inverse) id
      (innerRunAnd_contains_mono rest _ inverse id (by simpa only [innerRunAnd] using h))

end

/-- C3.  For every mapped query and every base alive-set, any ID whose
alive-set bit is clear (in particular any ID at or beyond the bitmap's
extent) is absent from the result of `Query::run`: inverted sub-queries never
leak non-existent IDs into the final bitmap. -/
theorem c3_alive_mask_idempotent (q : Query Queryable) (base : List Nat) (id : Nat)
    (h : queryResultContains base id = false) :
    queryResultContains (Query.run q base) id = false := by
  by_contra hc
  have hc2 : queryResultContains (Query.run q base) id = true := by
    cases hres : queryResultContains (Query.run q base) id
    · exact absurd hres hc
    · rfl
  have hbase : queryResultContains base id = true := by
    match q with
    | .single t selfInverse =>
      exact queryableAnd_contains_mono t base selfInverse id (by simpa only [Query.run] using hc2)
    | .andChain items i =>
      have h1 : queryResultContains (innerRun (Query.andChain items i) base
          (Query.andChain items i).inverse) id = true :=
        contains_land_mono (fun m => m) _ base id (by simpa only [Query.run, andChecks] using hc2)
      exact innerRun_contains_mono _ base _ id h1
    | .orChain items i =>
      have h1 : queryResultContains (innerRun (Query.orChain items i) base
          (Query.orChain items i).inverse) id = true :=
        contains_land_mono (fun m => m) _ base id (by simpa only [Query.run, andChecks] using hc2)
      exact innerRun_contains_mono _ base _ id h1
  rw [h] at hbase
  exact absurd hbase (by simp)

/-- C3 witness: a concrete inverted query over a one-word base never contains
ID 64, which lies outside the alive-set. -/
theorem c3_alive_mask_idempotent_witness :
    queryResultContains [1] 64 = false ∧
      queryResultContains
        (Query.run (Query.andChain [Query.single (Queryable.ids [5]) true] false) [1]) 64 =
        false :=
  ⟨by decide, c3_alive_mask_idempotent _ [1] 64 (by decide)⟩

/-! ### De Morgan (claim C1) -/

/-- A two-tag default index: token `A` holds record 0, token `B` holds
record 1.  The alive-set `[3]` holds records 0 and 1. -/
def c1TagMap : String → Option Queryable := fun s =>
  if s = "A" then some (Queryable.ids [0])
  else if s = "B" then some (Queryable.ids [1])
  else none

/-- C1 counterexample.  Over a 2-record database where tag `A` marks record 0
and tag `B` marks record 1, the full parse/map/run pipeline evaluates
`-( A B )` to the empty bitmap but `-A or -B` to `{0, 1}`, and it evaluates
`-( A or B )` to `{0, 1}` but `-A -B` to the empty bitmap: both halves of the
claimed De Morgan laws fail bit-for-bit. -/
theorem c1_demorgan_counterexample :
    dbQuery c1TagMap [3] ["-(", "A", "B", ")"] = some [0] ∧
      dbQuery c1TagMap [3] ["-A", "or", "-B"] = some [3] ∧
      dbQuery c1TagMap [3] ["-(", "A", "or", "B", ")"] = some [3] ∧
      dbQuery c1TagMap [3] ["-A", "-B"] = some [0] := by
  refine ⟨by decide, by decide, by decide, by decide⟩

/-- C1 amended.  The evaluator does not apply De Morgan to negated groups:
for every database alive-set and all resolved tag queryables, the mapped AST
of `-( A B )` (a negated AndChain, nested under the parser's root AndChain)
evaluates bit-for-bit like `-A -B` — the negation distributes onto the
children while the chain stays conjunctive — and the mapped AST of
`-( A or B )` evaluates bit-for-bit like the un-negated `A or B`, because the
OrChain branch of `inner_run` ignores the inverse flag accumulated from its
ancestors. -/
theorem c1_demorgan_amended (qa qb : Queryable) (base : List Nat) :
    (Query.run (Query.andChain [Query.andChain
        [Query.single qa false, Query.single qb false] true] false) base =
      Query.run (Query.andChain
        [Query.single qa true, Query.single qb true] false) base) ∧
    (Query.run (Query.andChain [Query.andChain [Query.orChain
        [Query.single qa false, Query.single qb false] false] true] false) base =
      Query.run (Query.andChain [Query.orChain
        [Query.single qa false, Query.single qb false] false] false) base) :=
  ⟨rfl, rfl⟩

/-! ### Negation inversion (claim C9) -/

theorem eq_of_wordAt_eq (a b : List Nat) (hlen : a.length = b.length)
    (h : ∀ i, wordAt a i = wordAt b i) : a = b := by
  refine List.ext_getElem hlen (fun i h1 h2 => ?_)
  have hw := h i
  simpa [wordAt, List.getD_eq_getElem?_getD, List.getElem?_eq_getElem h1,
    List.getElem?_eq_getElem h2] using hw

theorem length_applyId (op : Nat → Nat → Nat) (ws : List Nat) (id : Nat) :
    (applyId op ws id).length = ws.length := by
  simp only [applyId]
  split <;> simp

theorem length_foldl_applyId (op : Nat → Nat → Nat) (l : List Nat) (ws : List Nat) :
    (l.foldl (applyId op) ws).length = ws.length := by
  induction l generalizing ws with
  | nil => rfl
  | cons id rest ih => rw [List.foldl_cons, ih, length_applyId]

theorem length_applyIds (l : List Nat) (len : Nat) (inverse : Bool) :
    (applyIds l len inverse).length = len := by
  cases inverse <;> simp [applyIds, length_foldl_applyId]

theorem wordAt_set (ws : List Nat) (j v i : Nat) :
    wordAt (ws.set j v) i = if j = i ∧ j < ws.length then v else wordAt ws i := by
  simp only [wordAt, List.getD_eq_getElem?_getD, List.getElem?_set]
  by_cases h1 : j = i
  · subst h1
    by_cases h2 : j < ws.length
    · simp [h2]
    · simp only [if_pos rfl, if_neg h2,
        List.getElem?_eq_none (by omega : ws.length ≤ j)]
      simp [h2]
  · simp [h1]

theorem shiftLeft_one_eq (k : Nat) : (1 <<< k : Nat) = 2 ^ k := by
  rw [Nat.shiftLeft_eq, Nat.one_mul]

theorem wordAt_applyId (op : Nat → Nat → Nat) (ws : List Nat) (id i : Nat) :
    wordAt (applyId op ws id) i =
      if id / 64 < ws.length ∧ i = id / 64 then
        op (wordAt ws (id / 64)) (1 <<< (id % 64))
      else wordAt ws i := by
  simp only [applyId]
  split
  · rename_i hlt
    rw [wordAt_set]
    by_cases h1 : i = id / 64
    · subst h1
      simp [hlt, wordAt]
    · rw [if_neg (fun hc => h1 hc.1.symm), if_neg (fun hc => h1 hc.2)]
  · rename_i hge
    rw [if_neg (fun h => hge h.1)]

theorem wordAt_map_not64 (ws : List Nat) (i : Nat) :
    wordAt (ws.map not64) i = if i < ws.length then not64 (wordAt ws i) else 0 := by
  simp only [wordAt, List.getD_eq_getElem?_getD, List.getElem?_map]
  by_cases h : i < ws.length
  · simp [List.getElem?_eq_getElem, h]
  · simp [List.getElem?_eq_none (by omega : ws.length ≤ i), h]

theorem not64_xor_pow (x j : Nat) (hx : x.testBit j = false) :
    not64 x ^^^ (1 <<< j) = not64 (x ||| (1 <<< j)) := by
  rw [shiftLeft_one_eq]
  apply Nat.eq_of_testBit_eq
  intro k
  simp only [not64, Nat.testBit_xor, Nat.testBit_lor]
  by_cases hk : j = k
  · subst hk
    simp [Nat.testBit_two_pow_self, hx]
  · simp [Nat.testBit_two_pow_of_ne hk]

theorem foldl_xor_map_not64 (l : List Nat) (ws : List Nat)
    (hbits : ∀ id ∈ l, (wordAt ws (id / 64)).testBit (id % 64) = false)
    (hnd : l.Nodup) :
    l.foldl (applyId (fun w b => w ^^^ b)) (ws.map not64) =
      (l.foldl (applyId (fun w b => w ||| b)) ws).map not64 := by
  induction l generalizing ws with
  | nil => rfl
  | cons id rest ih =>
    have hstep : applyId (fun w b => w ^^^ b) (ws.map not64) id =
        (applyId (fun w b => w ||| b) ws id).map not64 := by
      refine eq_of_wordAt_eq _ _ (by simp [length_applyId]) (fun i => ?_)
      rw [wordAt_applyId (fun w b => w ^^^ b) (ws.map not64) id i,
        wordAt_map_not64 (applyId (fun w b => w ||| b) ws id) i,
        wordAt_applyId (fun w b => w ||| b) ws id i,
        length_applyId]
      simp only [List.length_map]
      by_cases h1 : id / 64 < ws.length ∧ i = id / 64
      · rw [if_pos h1, if_pos h1]
        have hi : i < ws.length := by rw [h1.2]; exact h1.1
        rw [if_pos hi, wordAt_map_not64, if_pos h1.1]
        exact not64_xor_pow _ _ (hbits id (by simp))
      · rw [if_neg h1, if_neg h1, wordAt_map_not64]
    rw [List.foldl_cons, List.foldl_cons, hstep]
    refine ih (applyId (fun w b => w ||| b) ws id) (fun id2 hid2 => ?_)
      (List.Nodup.of_cons hnd)
    rw [wordAt_applyId]
    by_cases h2 : id / 64 < ws.length ∧ id2 / 64 = id / 64
    · rw [if_pos h2, shiftLeft_one_eq, Nat.testBit_lor]
      have hb1 : (wordAt ws (id / 64)).testBit (id2 % 64) = false := by
        rw [← h2.2]
        exact hbits id2 (by simp [hid2])
      have hne : id % 64 ≠ id2 % 64 := by
        intro hmod
        have hquot := h2.2
        have heq : id = id2 := by omega
        exact (List.nodup_cons.mp hnd).1 (heq ▸ hid2)
      rw [hb1, Nat.testBit_two_pow_of_ne hne]
      rfl
    · rw [if_neg h2]
      exact hbits id2 (by simp [hid2])

theorem applyIds_true_eq_map_not64 (l : List Nat) (len : Nat) (hnd : l.Nodup) :
    applyIds l len true = (applyIds l len false).map not64 := by
  have h1 : applyIds l len true =
      l.foldl (applyId (fun w b => w ^^^ b)) (List.replicate len packedMax) := rfl
  have h2 : applyIds l len false =
      l.foldl (applyId (fun w b => w ||| b)) (List.replicate len 0) := rfl
  rw [h1, h2]
  have hrep : (List.replicate len packedMax : List Nat) =
      (List.replicate len 0).map not64 := by
    rw [List.map_replicate]
    simp [not64]
  rw [hrep]
  refine foldl_xor_map_not64 l _ (fun id _ => ?_) hnd
  rw [wordAt_replicate]
  split <;> simp [Nat.zero_testBit]

theorem testBit_packedMax (k : Nat) : packedMax.testBit k = decide (k < 64) :=
  Nat.testBit_two_pow_sub_one 64 k

theorem testBit_not64 (m k : Nat) :
    (not64 m).testBit k = ((decide (k < 64)) ^^ m.testBit k) := by
  rw [not64, Nat.testBit_xor, testBit_packedMax]

theorem word_union_partition (b m : Nat) (hb : b < 2 ^ 64) :
    (((b &&& m) &&& b) ||| ((b &&& not64 m) &&& b)) = b := by
  apply Nat.eq_of_testBit_eq
  intro k
  simp only [Nat.testBit_lor, Nat.testBit_land, testBit_not64]
  by_cases hk : k < 64
  · have hd : decide (k < 64) = true := by simpa using hk
    rw [hd]
    cases b.testBit k <;> cases m.testBit k <;> rfl
  · have hbk : b.testBit k = false :=
      Nat.testBit_lt_two_pow
        (lt_of_lt_of_le hb (Nat.pow_le_pow_right (by norm_num) (by omega)))
    simp [hbk]

theorem word_inter_partition (b m : Nat) (hb : b < 2 ^ 64) :
    (((b &&& m) &&& b) &&& ((b &&& not64 m) &&& b)) = 0 := by
  apply Nat.eq_of_testBit_eq
  intro k
  simp only [Nat.testBit_land, testBit_not64, Nat.zero_testBit]
  by_cases hk : k < 64
  · have hd : decide (k < 64) = true := by simpa using hk
    rw [hd]
    cases b.testBit k <;> cases m.testBit k <;> rfl
  · have hbk : b.testBit k = false :=
      Nat.testBit_lt_two_pow
        (lt_of_lt_of_le hb (Nat.pow_le_pow_right (by norm_num) (by omega)))
    simp [hbk]

theorem length_queryableAnd (q : Queryable) (base : List Nat) (inverse : Bool) :
    (q.and base inverse).length = base.length := by
  match q with
  | .checks ws =>
    cases inverse <;> simp [Queryable.and, length_bitChecks]
  | .ids l =>
    simp [Queryable.and, length_applyIds]

/-- `run` of a one-`Single` root AndChain is the tag ANDed into the base and
then the base ANDed again. -/
theorem run_single_chain (q : Queryable) (inv : Bool) (base : List Nat) :
    Query.run (Query.andChain [Query.single q inv] false) base =
      andChecks (q.and base inv) base := by
  simp [Query.run, innerRun, innerRunAnd, Query.inverse]

/-- The side condition under which the amended C9 holds: a bitmap tag must
span at least the alive-set's words, an id-list tag must hold distinct ids. -/
def queryableWellFormed (q : Queryable) (len : Nat) : Prop :=
  match q with
  | .checks ws => len ≤ ws.length
  | .ids l => l.Nodup

/-- C9 amended.  Querying a default-index token `T` and its negation `-T`
partitions the alive-set — the bitwise union of the two `run` results is the
alive-set and their intersection is empty — provided the tag's stored
bitmap covers at least as many words as the alive-set (or the tag is stored
as a duplicate-free id list).  The unamended claim fails when a tag's
`Checks` bitmap is shorter than the alive-set, because `Queryable::and`
leaves the trailing alive words untouched for both `T` and `-T`. -/
theorem c9_negation_inversion_amended (q : Queryable) (base : List Nat)
    (hbase : ∀ w ∈ base, w < 2 ^ 64) (hq : queryableWellFormed q base.length) :
    List.zipWith (fun x y => x ||| y)
        (Query.run (Query.andChain [Query.single q false] false) base)
        (Query.run (Query.andChain [Query.single q true] false) base) = base ∧
      List.zipWith (fun x y => x &&& y)
        (Query.run (Query.andChain [Query.single q false] false) base)
        (Query.run (Query.andChain [Query.single q true] false) base) =
        List.replicate base.length 0 := by
  obtain ⟨m, hA, hB⟩ : ∃ m : Nat → Nat,
      (∀ i, i < base.length → wordAt (q.and base false) i = wordAt base i &&& m i) ∧
        (∀ i, i < base.length →
          wordAt (q.and base true) i = wordAt base i &&& not64 (m i)) := by
    match q with
    | .checks ws =>
      have hlen : base.length ≤ ws.length := hq
      refine ⟨fun i => wordAt ws i, fun i hi => ?_, fun i hi => ?_⟩
      · simp only [Queryable.and, Bool.false_eq_true, if_neg, reduceIte]
        rw [wordAt_bitChecks, if_pos hi, if_pos (by omega)]
      · simp only [Queryable.and, reduceIte]
        rw [wordAt_bitChecks, if_pos hi, if_pos (by omega)]
    | .ids l =>
      refine ⟨fun i => wordAt (applyIds l base.length false) i,
        fun i hi => ?_, fun i hi => ?_⟩
      · simp only [Queryable.and]
        rw [wordAt_zipWith, if_pos ⟨hi, by rw [length_applyIds]; exact hi⟩]
      · simp only [Queryable.and]
        rw [applyIds_true_eq_map_not64 l base.length hq, wordAt_zipWith,
          if_pos ⟨hi, by rw [List.length_map, length_applyIds]; exact hi⟩,
          wordAt_map_not64, if_pos (by rw [length_applyIds]; exact hi)]
  rw [run_single_chain, run_single_chain]
  have hlenA : (andChecks (q.and base false) base).length = base.length := by
    rw [andChecks, length_bitChecks, length_queryableAnd]
  have hlenB : (andChecks (q.and base true) base).length = base.length := by
    rw [andChecks, length_bitChecks, length_queryableAnd]
  have hwA : ∀ i, i < base.length →
      wordAt (andChecks (q.and base false) base) i =
        (wordAt base i &&& m i) &&& wordAt base i := by
    intro i hi
    rw [andChecks, wordAt_bitChecks, length_queryableAnd,
      if_pos hi, if_pos hi, hA i hi]
  have hwB : ∀ i, i < base.length →
      wordAt (andChecks (q.and base true) base) i =
        (wordAt base i &&& not64 (m i)) &&& wordAt base i := by
    intro i hi
    rw [andChecks, wordAt_bitChecks, length_queryableAnd,
      if_pos hi, if_pos hi, hB i hi]
  have hmem : ∀ i, i < base.length → wordAt base i < 2 ^ 64 := by
    intro i hi
    have : wordAt base i ∈ base := by
      simp only [wordAt, List.getD_eq_getElem?_getD, List.getElem?_eq_getElem hi,
        Option.getD_some]
      exact List.getElem_mem hi
    exact hbase _ this
  constructor
  · refine eq_of_wordAt_eq _ _ (by simp [hlenA, hlenB]) (fun i => ?_)
    rw [wordAt_zipWith]
    by_cases hi : i < base.length
    · rw [if_pos ⟨by omega, by omega⟩, hwA i hi, hwB i hi,
        word_union_partition _ _ (hmem i hi)]
    · rw [if_neg (by omega), wordAt_of_le _ _ (by omega)]
  · refine eq_of_wordAt_eq _ _ (by simp [hlenA, hlenB]) (fun i => ?_)
    rw [wordAt_zipWith, wordAt_replicate]
    by_cases hi : i < base.length
    · rw [if_pos ⟨by omega, by omega⟩, hwA i hi, hwB i hi,
        word_inter_partition _ _ (hmem i hi), if_pos hi]
    · rw [if_neg (by omega), if_neg hi]

/-- C9 witness: for the id-list tag `{0}` over the one-word alive-set `{0, 1}`
the amended partition theorem applies and yields `{0} ∪ {1} = {0, 1}` and
`{0} ∩ {1} = ∅`. -/
theorem c9_negation_inversion_amended_witness :
    (∀ w ∈ [(3 : Nat)], w < 2 ^ 64) ∧
      queryableWellFormed (Queryable.ids [0]) 1 ∧
      (List.zipWith (fun x y => x ||| y)
          (Query.run (Query.andChain [Query.single (Queryable.ids [0]) false] false) [3])
          (Query.run (Query.andChain [Query.single (Queryable.ids [0]) true] false) [3]) =
        [3] ∧
        List.zipWith (fun x y => x &&& y)
          (Query.run (Query.andChain [Query.single (Queryable.ids [0]) false] false) [3])
          (Query.run (Query.andChain [Query.single (Queryable.ids [0]) true] false) [3]) =
          List.replicate 1 0) :=
  ⟨by decide, by simp [queryableWellFormed],
    c9_negation_inversion_amended (Queryable.ids [0]) [3] (by decide)
      (by simp [queryableWellFormed])⟩

/-- One dense tag stored as a one-word bitmap. -/
def c9TagMap : String → Option Queryable := fun s =>
  if s = "T" then some (Queryable.checks [1]) else none

/-- C9 counterexample.  With a 65-record alive-set `[3, 1]` (records 0, 1
and 64) and the tag `T` stored as the one-word bitmap `[1]`, both `T` and
`-T` keep the whole second alive word, so their intersection contains record
64: the partition claim fails bit-for-bit. -/
theorem c9_negation_inversion_counterexample :
    dbQuery c9TagMap [3, 1] ["T"] = some [1, 1] ∧
      dbQuery c9TagMap [3, 1] ["-T"] = some [2, 1] ∧
      List.zipWith (fun x y => x &&& y) [1, 1] [2, 1] ≠
        List.replicate 2 (0 : Nat) :=
  ⟨by decide, by decide, by decide⟩

/-! ### TextQuery parsing (claim C6) -/

/-- `TextQuery` from src/index/text.rs, over the characters of the token.
Rust measures `s.len()` in bytes; since the only characters the parser
inspects are the one-byte `'*'`, the `len > 1` byte tests and the character
tests decide every branch identically, so the character-level embedding is
faithful. -/
inductive TextQuery : Type where
  | startsWith (text : List Char)
  | contains (text : List Char)
  | endsWith (text : List Char)
  deriving DecidableEq, Repr

/-- `impl FromStr for TextQuery` (src/index/text.rs): strip a trailing `*`
when the token is longer than one, then a leading `*` when the rest is still
longer than one; exactly one stripped star selects StartsWith/EndsWith,
otherwise the result is Contains. -/
def textQueryFromStr (s : List Char) : TextQuery :=
  let sw := decide (s.length > 1) && decide (s.getLast? = some '*')
  let s1 := if sw then s.dropLast else s
  let ew := decide (s1.length > 1) && decide (s1.head? = some '*')
  let s2 := if ew then s1.drop 1 else s1
  if (sw ^^ ew) = false then TextQuery.contains s2
  else if sw then TextQuery.startsWith s2
  else TextQuery.endsWith s2

/-- C6 counterexample: the token `**` parses to `StartsWith("*")`, not to
`Contains("")` — the trailing star is stripped first, after which the
remaining `*` is too short for the leading-star test. -/
theorem c6_textquery_counterexample :
    textQueryFromStr ['*', '*'] = TextQuery.startsWith ['*'] ∧
      textQueryFromStr ['*', '*'] ≠ TextQuery.contains [] :=
  ⟨by decide, by decide⟩

theorem getLast?_cons_of_ne (a : Char) (l : List Char) (h : l ≠ []) :
    (a :: l).getLast? = l.getLast? := by
  cases l with
  | nil => exact absurd rfl h
  | cons b t => simp [List.getLast?_cons_cons]

/-- C6 amended.  For every star-free core `s` (non-empty, first and last
characters not `*`): a plain token `s` and `*s*` parse to `Contains(s)`,
`s*` to `StartsWith(s)`, `*s` to `EndsWith(s)`; the empty token parses to
`Contains("")`, but the token `**` parses to `StartsWith("*")` (not
`Contains("")` as claimed). -/
theorem c6_textquery_amended (s : List Char) (hne : s ≠ [])
    (hhead : s.head? ≠ some '*') (hlast : s.getLast? ≠ some '*') :
    textQueryFromStr s = TextQuery.contains s ∧
      textQueryFromStr (s ++ ['*']) = TextQuery.startsWith s ∧
      textQueryFromStr ('*' :: s) = TextQuery.endsWith s ∧
      textQueryFromStr ('*' :: (s ++ ['*'])) = TextQuery.contains s ∧
      textQueryFromStr [] = TextQuery.contains [] ∧
      textQueryFromStr ['*', '*'] = TextQuery.startsWith ['*'] := by
  have hlen : 1 ≤ s.length := by
    cases s with
    | nil => exact absurd rfl hne
    | cons a t => simp
  have hlastBool : decide (s.getLast? = some '*') = false := by
    simpa using hlast
  have hheadBool : decide (s.head? = some '*') = false := by
    simpa using hhead
  refine ⟨?_, ?_, ?_, ?_, by decide, by decide⟩
  · simp [textQueryFromStr, hlastBool, hheadBool]
  · have h1 : decide ((s ++ ['*']).length > 1) = true := by
      simp only [List.length_append, List.length_cons, List.length_nil]
      simpa using by omega
    simp only [textQueryFromStr, h1, List.getLast?_concat, List.dropLast_concat,
      decide_eq_true_eq, Bool.true_and, reduceIte, hheadBool, Bool.and_false]
    simp
  · have h1 : ('*' :: s).getLast? = s.getLast? := getLast?_cons_of_ne _ _ hne
    have h2 : decide (('*' :: s).length > 1) = true := by
      simp only [List.length_cons]
      simpa using by omega
    simp only [textQueryFromStr, h1, hlastBool, Bool.and_false, reduceIte, h2,
      List.head?_cons, Bool.true_and]
    have h0 : 0 < s.length := by omega
    simp [hne, h0]
  · have h1 : ('*' :: (s ++ ['*'])).getLast? = some '*' := by
      rw [getLast?_cons_of_ne _ _ (by simp), List.getLast?_concat]
    have h2 : decide (('*' :: (s ++ ['*'])).length > 1) = true := by
      simp only [List.length_cons, List.length_append, List.length_nil]
      simpa using by omega
    have h3 : ('*' :: (s ++ ['*'])).dropLast = '*' :: s := by
      rw [show ('*' :: (s ++ ['*'])) = ('*' :: s) ++ ['*'] from by simp,
        List.dropLast_concat]
    have h4 : decide (('*' :: s).length > 1) = true := by
      simp only [List.length_cons]
      simpa using by omega
    simp only [textQueryFromStr, h1, h2, h3, h4, List.head?_cons, decide_eq_true_eq,
      Bool.true_and, Bool.and_true, reduceIte]
    simp

/-- C6 amended witness: the amended statement instantiated at the core
token `ab`. -/
theorem c6_textquery_amended_witness :
    (['a', 'b'] : List Char) ≠ [] ∧
      textQueryFromStr ['a', 'b'] = TextQuery.contains ['a', 'b'] ∧
      textQueryFromStr ['a', 'b', '*'] = TextQuery.startsWith ['a', 'b'] ∧
      textQueryFromStr ['*', 'a', 'b'] = TextQuery.endsWith ['a', 'b'] ∧
      textQueryFromStr ['*', 'a', 'b', '*'] = TextQuery.contains ['a', 'b'] := by
  have h := c6_textquery_amended ['a', 'b'] (by decide) (by decide) (by decide)
  exact ⟨by decide, h.1, h.2.1, h.2.2.1, h.2.2.2.1⟩

/-! ### Parse errors (claim C7) -/

/-- Depth scan of the grouping tokens: the position of the first `)` that
closes more groups than `(` / `-(` have opened (starting from depth `d`). -/
def firstUnmatchedClose : List String → Nat → Option Nat
  | [], _ => none
  | t :: rest, d =>
    if t = ")" then
      if d = 0 then some 0 else (firstUnmatchedClose rest (d - 1)).map (fun k => k + 1)
    else if t = "(" ∨ t = "-(" then
      (firstUnmatchedClose rest (d + 1)).map (fun k => k + 1)
    else (firstUnmatchedClose rest d).map (fun k => k + 1)

theorem firstUnmatchedClose_lt_length (l : List String) (d j : Nat)
    (h : firstUnmatchedClose l d = some j) : j < l.length := by
  induction l generalizing d j with
  | nil => simp [firstUnmatchedClose] at h
  | cons t rest ih =>
    rw [firstUnmatchedClose] at h
    by_cases h1 : t = ")"
    · rw [if_pos h1] at h
      by_cases h2 : d = 0
      · rw [if_pos h2] at h
        cases h
        simp
      · rw [if_neg h2, Option.map_eq_some'] at h
        obtain ⟨k, hk, rfl⟩ := h
        have := ih (d - 1) k hk
        simp only [List.length_cons]
        omega
    · rw [if_neg h1] at h
      by_cases h2 : t = "(" ∨ t = "-("
      · rw [if_pos h2, Option.map_eq_some'] at h
        obtain ⟨k, hk, rfl⟩ := h
        have := ih (d + 1) k hk
        simp only [List.length_cons]
        omega
      · rw [if_neg h2, Option.map_eq_some'] at h
        obtain ⟨k, hk, rfl⟩ := h
        have := ih d k hk
        simp only [List.length_cons]
        omega

theorem firstUnmatchedClose_none_mono (l : List String) (d e : Nat)
    (h : firstUnmatchedClose l d = none) (hde : d ≤ e) :
    firstUnmatchedClose l e = none := by
  induction l generalizing d e with
  | nil => rfl
  | cons t rest ih =>
    rw [firstUnmatchedClose] at h ⊢
    by_cases h1 : t = ")"
    · rw [if_pos h1] at h ⊢
      by_cases h2 : d = 0
      · rw [if_pos h2] at h
        cases h
      · rw [if_neg h2, Option.map_eq_none'] at h
        by_cases h3 : e = 0
        · omega
        · rw [if_neg h3, Option.map_eq_none']
          exact ih (d - 1) (e - 1) h (by omega)
    · rw [if_neg h1] at h ⊢
      by_cases h2 : t = "(" ∨ t = "-("
      · rw [if_pos h2, Option.map_eq_none'] at h ⊢
        exact ih (d + 1) (e + 1) h (by omega)
      · rw [if_neg h2, Option.map_eq_none'] at h ⊢
        exact ih d e h hde

theorem firstUnmatchedClose_succ (n : Nat) :
    ∀ (l : List String), l.length ≤ n → ∀ d,
      firstUnmatchedClose l (d + 1) =
        match firstUnmatchedClose l 0 with
        | none => none
        | some j =>
          (firstUnmatchedClose (l.drop (j + 1)) d).map (fun k => j + 1 + k) := by
  induction n with
  | zero =>
    intro l hl d
    have : l = [] := List.length_eq_zero.mp (by omega)
    subst this
    rfl
  | succ n ih =>
    intro l hl d
    match l with
    | [] => rfl
    | t :: rest =>
      have hrest : rest.length ≤ n := by
        simp only [List.length_cons] at hl
        omega
      rw [firstUnmatchedClose, firstUnmatchedClose]
      by_cases h1 : t = ")"
      · rw [if_pos h1, if_pos h1, if_neg (by omega : ¬d + 1 = 0), if_pos rfl]
        simp only [List.drop_succ_cons, List.drop_zero, Nat.add_sub_cancel]
        cases firstUnmatchedClose rest d <;> simp [Nat.add_comm]
      · by_cases h2 : t = "(" ∨ t = "-("
        · rw [if_neg h1, if_neg h1, if_pos h2, if_pos h2]
          cases h0 : firstUnmatchedClose rest 0 with
          | none =>
            have hnone1 : firstUnmatchedClose rest 1 = none :=
              firstUnmatchedClose_none_mono rest 0 1 h0 (by omega)
            have hnone2 : firstUnmatchedClose rest (d + 1 + 1) = none :=
              firstUnmatchedClose_none_mono rest 0 (d + 1 + 1) h0 (by omega)
            rw [hnone1, hnone2]
            rfl
          | some j =>
            have hm : (rest.drop (j + 1)).length ≤ n := by
              have := List.length_drop (j + 1) rest
              omega
            have hrest1 : firstUnmatchedClose rest 1 =
                (firstUnmatchedClose (rest.drop (j + 1)) 0).map (fun k => j + 1 + k) := by
              have := ih rest hrest 0
              rw [h0] at this
              simpa using this
            have hrestd : firstUnmatchedClose rest (d + 1 + 1) =
                (firstUnmatchedClose (rest.drop (j + 1)) (d + 1)).map
                  (fun k => j + 1 + k) := by
              have := ih rest hrest (d + 1)
              rw [h0] at this
              simpa using this
            rw [hrest1, hrestd]
            cases hm0 : firstUnmatchedClose (rest.drop (j + 1)) 0 with
            | none =>
              have : firstUnmatchedClose (rest.drop (j + 1)) (d + 1) = none :=
                firstUnmatchedClose_none_mono _ 0 (d + 1) hm0 (by omega)
              rw [this]
              rfl
            | some k =>
              have hmd : firstUnmatchedClose (rest.drop (j + 1)) (d + 1) =
                  (firstUnmatchedClose ((rest.drop (j + 1)).drop (k + 1)) d).map
                    (fun x => k + 1 + x) := by
                have := ih (rest.drop (j + 1)) hm d
                rw [hm0] at this
                simpa using this
              rw [hmd]
              simp only [Option.map_map, Option.map_some']
              have hdrop : List.drop (j + 1 + k + 1 + 1) (t :: rest) =
                  List.drop (k + 1) (List.drop (j + 1) rest) := by
                rw [List.drop_drop, List.drop_succ_cons]
                congr 1 <;> omega
              rw [hdrop]
              cases firstUnmatchedClose (List.drop (k + 1) (List.drop (j + 1) rest)) d with
              | none => rfl
              | some v =>
                simp only [Option.map_some', Function.comp, Option.some.injEq]
                omega
        · rw [if_neg h1, if_neg h1, if_neg h2, if_neg h2]
          have hrd : firstUnmatchedClose rest (d + 1) =
              match firstUnmatchedClose rest 0 with
              | none => none
              | some j =>
                (firstUnmatchedClose (rest.drop (j + 1)) d).map (fun k => j + 1 + k) :=
            ih rest hrest d
          rw [hrd]
          cases h0 : firstUnmatchedClose rest 0 with
          | none => rfl
          | some j =>
            simp only [Option.map_map, Option.map_some', List.drop_succ_cons]
            cases firstUnmatchedClose (List.drop (j + 1) rest) d with
            | none => rfl
            | some v =>
              simp only [Option.map_some', Function.comp, Option.some.injEq]
              omega

theorem parseLoopF_consumed :
    ∀ (F : Nat) (input : List String) (ac oc : List (Query String)) (wasOr : Bool),
      2 * input.length + 1 ≤ F →
      (parseLoopF F input ac oc wasOr).1 =
        ((firstUnmatchedClose input 0).map (fun j => j + 1)).getD input.length := by
  intro F
  induction F using Nat.strong_induction_on with
  | _ F ih =>
    intro input ac oc wasOr hfuel
    match F, input with
    | 0, input =>
      exact absurd hfuel (by omega)
    | G + 1, [] =>
      simp [parseLoopF, firstUnmatchedClose]
    | G + 1, t :: rest =>
      have hlen : 2 * rest.length + 2 ≤ G := by
        simp only [List.length_cons] at hfuel
        omega
      simp only [parseLoopF]
      by_cases h1 : t = ")"
      · rw [if_pos h1]
        subst h1
        rw [firstUnmatchedClose]
        simp
      · rw [if_neg h1]
        by_cases h2 : t = "-" ∨ t = "()" ∨ t = "or"
        · rw [if_pos h2]
          have htne : ¬(t = "(" ∨ t = "-(") := by
            rcases h2 with rfl | rfl | rfl <;> decide
          have hih := ih G (by omega) rest
            (if ¬t = "or" ∧ oc ≠ [] then (ac ++ [Query.orChain oc false], []) else (ac, oc)).1
            (if ¬t = "or" ∧ oc ≠ [] then (ac ++ [Query.orChain oc false], []) else (ac, oc)).2
            (decide (t = "or")) (by omega)
          simp only [Prod.fst, hih]
          rw [firstUnmatchedClose, if_neg h1, if_neg htne]
          cases h0 : firstUnmatchedClose rest 0 <;> simp [h0]
        · rw [if_neg h2]
          by_cases h3 : t = "(" ∨ t = "-("
          · rw [if_pos h3]
            obtain ⟨G2, rfl⟩ : ∃ G2, G = G2 + 1 := ⟨G - 1, by omega⟩
            have hitem : parseItemF (G2 + 1) rest = parseLoopF G2 rest [] [] false := rfl
            have hi0 : (parseItemF (G2 + 1) rest).1 =
                ((firstUnmatchedClose rest 0).map (fun j => j + 1)).getD rest.length := by
              rw [hitem]
              exact ih G2 (by omega) rest [] [] false (by omega)
            have hsucc : firstUnmatchedClose rest 1 =
                match firstUnmatchedClose rest 0 with
                | none => none
                | some j =>
                  (firstUnmatchedClose (List.drop (j + 1) rest) 0).map
                    (fun k => j + 1 + k) := by
              have := firstUnmatchedClose_succ rest.length rest (le_refl _) 0
              simpa using this
            have hgoalR : firstUnmatchedClose (t :: rest) 0 =
                (firstUnmatchedClose rest 1).map (fun k => k + 1) := by
              rw [firstUnmatchedClose, if_neg h1, if_pos h3]
            rw [hgoalR]
            cases h0 : firstUnmatchedClose rest 0 with
            | none =>
              rw [h0] at hi0 hsucc
              simp only [Option.map_none', Option.getD_none] at hi0
              simp only at hsucc
              rw [hsucc]
              simp only [Prod.fst, hi0, List.drop_length]
              simp only [parseLoopF]
              simp [List.length_cons]
            | some j =>
              rw [h0] at hi0 hsucc
              simp only [Option.map_some', Option.getD_some] at hi0
              simp only at hsucc
              have hjlt : j < rest.length := firstUnmatchedClose_lt_length rest 0 j h0
              rw [hsucc, hi0]
              have hboundd : 2 * (List.drop (j + 1) rest).length + 1 ≤ G2 + 1 := by
                have := List.length_drop (j + 1) rest
                omega
              have hih2 := ih (G2 + 1) (by omega) (List.drop (j + 1) rest)
                (pushParsedItem ac oc wasOr (List.drop (j + 1) rest).head?
                    (Query.andChain (parseItemF (G2 + 1) rest).2 (decide (t = "-(")))).1
                (pushParsedItem ac oc wasOr (List.drop (j + 1) rest).head?
                    (Query.andChain (parseItemF (G2 + 1) rest).2 (decide (t = "-(")))).2
                false hboundd
              simp only [Prod.fst, hih2]
              cases hm0 : firstUnmatchedClose (List.drop (j + 1) rest) 0 with
              | none =>
                simp only [hm0, Option.map_none', Option.getD_none,
                  List.length_drop, List.length_cons]
                omega
              | some k =>
                simp only [hm0, Option.map_some', Option.getD_some, List.length_cons]
                omega
          · rw [if_neg h3]
            have hih := ih G (by omega) rest
              (pushParsedItem ac oc wasOr rest.head?
                  (Query.single (if t.data.head? = some '-' then t.drop 1 else t)
                    (decide (t.data.head? = some '-')))).1
              (pushParsedItem ac oc wasOr rest.head?
                  (Query.single (if t.data.head? = some '-' then t.drop 1 else t)
                    (decide (t.data.head? = some '-')))).2
              false (by omega)
            simp only [Prod.fst, hih]
            rw [firstUnmatchedClose, if_neg h1, if_neg h3]
            cases h0 : firstUnmatchedClose rest 0 <;> simp [h0]

/-- C7 amended.  `Query::parse` returns a parse error exactly when a `)`
token at zero grouping depth occurs strictly before the last token: the
parser consumes tokens up to and including the first top-level unmatched `)`
and errors only on leftovers.  In particular inputs whose only imbalance is
unclosed `(` / `-(` groups, or a single trailing top-level `)`, parse
successfully. -/
theorem c7_parse_error_amended (tokens : List String) :
    queryParse tokens = none ↔
      ∃ j, firstUnmatchedClose tokens 0 = some j ∧ j + 1 < tokens.length := by
  have hitem : parseItemF (2 * tokens.length + 2) tokens =
      parseLoopF (2 * tokens.length + 1) tokens [] [] false := rfl
  have hn : (parseItemF (2 * tokens.length + 2) tokens).1 =
      ((firstUnmatchedClose tokens 0).map (fun j => j + 1)).getD tokens.length := by
    rw [hitem]
    exact parseLoopF_consumed (2 * tokens.length + 1) tokens [] [] false (by omega)
  have hq : queryParse tokens = none ↔
      (parseItemF (2 * tokens.length + 2) tokens).1 ≠ tokens.length := by
    rw [queryParse]
    cases hpi : parseItemF (2 * tokens.length + 2) tokens with
    | mk n items =>
      by_cases heq : n = tokens.length <;> simp [hpi, heq]
  rw [hq, hn]
  cases h0 : firstUnmatchedClose tokens 0 with
  | none => simp
  | some j =>
    have hj : j < tokens.length := firstUnmatchedClose_lt_length tokens 0 j h0
    simp only [Option.map_some', Option.getD_some, Option.some.injEq]
    constructor
    · intro hne
      exact ⟨j, rfl, by omega⟩
    · rintro ⟨j2, rfl, hlt⟩
      omega

/-- C7 counterexample.  A lone `)` and a lone `(` are both unbalanced, yet
`Query::parse` accepts them (the `)` merely ends the top-level item with all
tokens consumed; the `(` opens a group that the end of input closes), so
parsing does not fail on every unbalanced token stream. -/
theorem c7_parse_error_counterexample :
    queryParse [")"] = some (Query.andChain [] false) ∧
      queryParse ["("] = some (Query.andChain [Query.andChain [] false] false) :=
  ⟨by decide, by decide⟩

/-! ### ChunkedVec (claims C5 and C4) -/

/-- `ChunkedVec` from src/index/range.rs: a vector of chunks plus the
constructor-supplied chunk size (the `new` constructor asserts
`chunk_size >= 2`; theorems carry that as a hypothesis). -/
structure ChunkedVec (α : Type) : Type where
  vecs : List (List α)
  chunkSize : Nat
  deriving Repr, DecidableEq

/-- `ChunkedVec::new`. -/
def ChunkedVec.new (α : Type) (chunkSize : Nat) : ChunkedVec α := ⟨[], chunkSize⟩

/-- `ChunkedVec::len`: total number of elements. -/
def ChunkedVec.len (cv : ChunkedVec α) : Nat := (cv.vecs.map List.length).sum

/-- The flattened logical sequence of a `ChunkedVec`. -/
def ChunkedVec.flat (cv : ChunkedVec α) : List α := cv.vecs.flatten

/-- `ChunkedVec::check_chunk` from src/index/range.rs: split a chunk that
reached `2 * chunk_size`, drop an emptied chunk, and merge a chunk that
shrank to `chunk_size / 2` into its left neighbour when the result stays
below `2 * chunk_size`. -/
def checkChunk (cs : Nat) (vecs : List (List α)) (i : Nat) : List (List α) :=
  let vec := vecs.getD i []
  if cs * 2 ≤ vec.length then
    List.insertIdx (i + 1) (vec.drop cs) (vecs.set i (vec.take cs))
  else if vec.length ≤ cs / 2 then
    if vec.length = 0 then vecs.eraseIdx i
    else if 0 < i ∧ (vecs.getD (i - 1) []).length + vec.length < cs * 2 then
      (vecs.set (i - 1) ((vecs.getD (i - 1) []) ++ vec)).eraseIdx i
    else vecs
  else vecs

/-- `ChunkedVec::push`: append to the last chunk and rebalance it. -/
def ChunkedVec.push (cv : ChunkedVec α) (x : α) : ChunkedVec α :=
  if cv.vecs.isEmpty then ⟨[[x]], cv.chunkSize⟩
  else
    let li := cv.vecs.length - 1
    let vecs2 := cv.vecs.set li ((cv.vecs.getD li []) ++ [x])
    ⟨checkChunk cv.chunkSize vecs2 li, cv.chunkSize⟩

/-- The chunk-location loop of `ChunkedVec::insert`: skip a chunk while
`vec.len() < index`. -/
def cvFindInsert : List (List α) → Nat → Option (Nat × Nat)
  | [], _ => none
  | v :: rest, idx =>
    if v.length < idx then (cvFindInsert rest (idx - v.length)).map (fun p => (p.1 + 1, p.2))
    else some (0, idx)

/-- The chunk-location loop of `ChunkedVec::remove` (and `get`): skip a chunk
while `vec.len() <= index`. -/
def cvFindRemove : List (List α) → Nat → Option (Nat × Nat)
  | [], _ => none
  | v :: rest, idx =>
    if v.length ≤ idx then (cvFindRemove rest (idx - v.length)).map (fun p => (p.1 + 1, p.2))
    else some (0, idx)

/-- `ChunkedVec::insert`: `none` models the `assert!(index <= self.len())`
panic; a loop that finds no chunk (impossible within bounds) leaves the
structure unchanged, as the source's fall-through does. -/
def ChunkedVec.insert (cv : ChunkedVec α) (index : Nat) (x : α) : Option (ChunkedVec α) :=
  if cv.len < index then none
  else if cv.vecs.isEmpty then some ⟨[[x]], cv.chunkSize⟩
  else
    match cvFindInsert cv.vecs index with
    | none => some cv
    | some (ci, li) =>
      let vecs2 := cv.vecs.set ci (List.insertIdx li x (cv.vecs.getD ci []))
      some ⟨checkChunk cv.chunkSize vecs2 ci, cv.chunkSize⟩

/-- `ChunkedVec::remove`: `none` models the assert panic; `remove(len)` falls
out of the loop and changes nothing. -/
def ChunkedVec.remove (cv : ChunkedVec α) (index : Nat) : Option (ChunkedVec α) :=
  if cv.len < index then none
  else
    match cvFindRemove cv.vecs index with
    | none => some cv
    | some (ci, li) =>
      let vecs2 := cv.vecs.set ci ((cv.vecs.getD ci []).eraseIdx li)
      some ⟨checkChunk cv.chunkSize vecs2 ci, cv.chunkSize⟩

/-- A mixed mutation on a `ChunkedVec`. -/
inductive CVOp (α : Type) : Type where
  | push (x : α)
  | insert (i : Nat) (x : α)
  | remove (i : Nat)
  deriving Repr

/-- Apply one operation (`none` = assertion failure). -/
def applyCVOp (cv : ChunkedVec α) : CVOp α → Option (ChunkedVec α)
  | .push x => some (cv.push x)
  | .insert i x => cv.insert i x
  | .remove i => cv.remove i

/-- Apply a sequence of operations. -/
def applyCVOps (cv : ChunkedVec α) (ops : List (CVOp α)) : Option (ChunkedVec α) :=
  ops.foldlM applyCVOp cv

/-- The invariant that actually holds: every chunk is non-empty and shorter
than `2 * chunk_size`. -/
def chunksOk (cs : Nat) (vecs : List (List α)) : Prop :=
  ∀ c ∈ vecs, 1 ≤ c.length ∧ c.length < cs * 2

theorem cvFindInsert_lt (vecs : List (List α)) (idx ci li : Nat)
    (h : cvFindInsert vecs idx = some (ci, li)) : ci < vecs.length := by
  induction vecs generalizing idx ci li with
  | nil => simp [cvFindInsert] at h
  | cons v rest ih =>
    rw [cvFindInsert] at h
    split at h
    · rw [Option.map_eq_some'] at h
      obtain ⟨⟨ci2, li2⟩, hp, he⟩ := h
      cases he
      have := ih _ _ _ hp
      simp only [List.length_cons]
      omega
    · cases h
      simp

theorem cvFindRemove_lt (vecs : List (List α)) (idx ci li : Nat)
    (h : cvFindRemove vecs idx = some (ci, li)) : ci < vecs.length := by
  induction vecs generalizing idx ci li with
  | nil => simp [cvFindRemove] at h
  | cons v rest ih =>
    rw [cvFindRemove] at h
    split at h
    · rw [Option.map_eq_some'] at h
      obtain ⟨⟨ci2, li2⟩, hp, he⟩ := h
      cases he
      have := ih _ _ _ hp
      simp only [List.length_cons]
      omega
    · cases h
      simp

theorem checkChunk_ok (cs : Nat) (hcs : 2 ≤ cs) (vecs : List (List α)) (i : Nat)
    (hi : i < vecs.length)
    (hothers : ∀ j (hj : j < vecs.length), j ≠ i →
      1 ≤ vecs[j].length ∧ vecs[j].length < cs * 2)
    (hself : (vecs.getD i []).length ≤ cs * 2) :
    chunksOk cs (checkChunk cs vecs i) := by
  intro c hc
  have hgd : vecs.getD i [] = vecs[i] := by
    simp [List.getD_eq_getElem?_getD, List.getElem?_eq_getElem hi]
  rw [checkChunk] at hc
  simp only [hgd] at hc hself
  by_cases hbig : cs * 2 ≤ vecs[i].length
  · rw [if_pos hbig] at hc
    have hlen2 : vecs[i].length = cs * 2 := by omega
    have hsetlen : (vecs.set i (vecs[i].take cs)).length = vecs.length :=
      List.length_set vecs i _
    rw [List.mem_insertIdx (by omega)] at hc
    rcases hc with rfl | hc
    · refine ⟨?_, ?_⟩ <;> simp only [List.length_drop] <;> omega
    · obtain ⟨j, hj, rfl⟩ := List.mem_iff_getElem.mp hc
      rw [List.getElem_set]
      split
      · rename_i hji
        refine ⟨?_, ?_⟩ <;> simp only [List.length_take] <;> omega
      · rename_i hji
        exact hothers j (by omega) (fun he => hji he.symm)
  · rw [if_neg hbig] at hc
    by_cases hsmall : vecs[i].length ≤ cs / 2
    · rw [if_pos hsmall] at hc
      by_cases hzero : vecs[i].length = 0
      · rw [if_pos hzero] at hc
        obtain ⟨j, hj, rfl⟩ := List.mem_iff_getElem.mp hc
        have hj2 : j < vecs.length - 1 := by
          rw [List.length_eraseIdx, if_pos hi] at hj
          exact hj
        rw [List.getElem_eraseIdx]
        split
        · exact hothers j (by omega) (by omega)
        · exact hothers (j + 1) (by omega) (by omega)
      · rw [if_neg hzero] at hc
        by_cases hmerge : 0 < i ∧ (vecs.getD (i - 1) []).length + vecs[i].length < cs * 2
        · rw [if_pos hmerge] at hc
          have hprev : vecs.getD (i - 1) [] = vecs[i - 1] := by
            simp [List.getD_eq_getElem?_getD,
              List.getElem?_eq_getElem (by omega : i - 1 < vecs.length)]
          rw [hprev] at hmerge hc
          obtain ⟨j, hj, rfl⟩ := List.mem_iff_getElem.mp hc
          have hslen : (vecs.set (i - 1) (vecs[i - 1] ++ vecs[i])).length = vecs.length :=
            List.length_set vecs _ _
          have hj2 : j < vecs.length - 1 := by
            rw [List.length_eraseIdx, hslen, if_pos hi] at hj
            exact hj
          rw [List.getElem_eraseIdx]
          split
          · rename_i hji
            rw [List.getElem_set]
            split
            · rename_i heq
              have hp := hothers (i - 1) (by omega) (by omega)
              refine ⟨?_, ?_⟩ <;> simp only [List.length_append] <;> omega
            · rename_i hne
              exact hothers j (by omega) (by omega)
          · rename_i hji
            rw [List.getElem_set]
            split
            · rename_i heq
              exact absurd heq (by omega)
            · rename_i hne
              exact hothers (j + 1) (by omega) (by omega)
        · rw [if_neg hmerge] at hc
          obtain ⟨j, hj, rfl⟩ := List.mem_iff_getElem.mp hc
          by_cases hji : j = i
          · subst hji
            exact ⟨by omega, by omega⟩
          · exact hothers j hj hji
    · rw [if_neg hsmall] at hc
      obtain ⟨j, hj, rfl⟩ := List.mem_iff_getElem.mp hc
      by_cases hji : j = i
      · subst hji
        exact ⟨by omega, by omega⟩
      · exact hothers j hj hji

theorem push_chunksOk (cv : ChunkedVec α) (x : α) (hcs : 2 ≤ cv.chunkSize)
    (h : chunksOk cv.chunkSize cv.vecs) :
    chunksOk cv.chunkSize (cv.push x).vecs ∧ (cv.push x).chunkSize = cv.chunkSize := by
  rw [ChunkedVec.push]
  by_cases hne : cv.vecs.isEmpty
  · rw [if_pos hne]
    refine ⟨fun c hc => ?_, rfl⟩
    rw [List.mem_singleton] at hc
    subst hc
    exact ⟨by simp, by simp; omega⟩
  · rw [if_neg hne]
    have hlen : 0 < cv.vecs.length := by
      cases hv : cv.vecs with
      | nil => rw [hv] at hne; simp at hne
      | cons a t => simp [hv]
    have hli : cv.vecs.length - 1 < cv.vecs.length := by omega
    have hgd : cv.vecs.getD (cv.vecs.length - 1) [] = cv.vecs[cv.vecs.length - 1] := by
      simp [List.getD_eq_getElem?_getD, List.getElem?_eq_getElem hli]
    refine ⟨checkChunk_ok _ hcs _ _ (by simpa using hli) (fun j hj hji => ?_) ?_, rfl⟩
    · rw [List.getElem_set (by simpa using hj)]
      rw [if_neg (fun he => hji he.symm)]
      exact h _ (List.getElem_mem (by simpa using hj))
    · have : (cv.vecs.set (cv.vecs.length - 1)
          ((cv.vecs.getD (cv.vecs.length - 1) []) ++ [x])).getD (cv.vecs.length - 1) [] =
          (cv.vecs.getD (cv.vecs.length - 1) []) ++ [x] := by
        simp [List.getD_eq_getElem?_getD, List.getElem?_set, hli]
      rw [this]
      have hb := h _ (hgd ▸ List.getElem_mem hli)
      simp only [List.length_append, List.length_cons, List.length_nil]
      omega

theorem insert_chunksOk (cv : ChunkedVec α) (index : Nat) (x : α) (cv2 : ChunkedVec α)
    (hcs : 2 ≤ cv.chunkSize) (h : chunksOk cv.chunkSize cv.vecs)
    (he : cv.insert index x = some cv2) :
    chunksOk cv.chunkSize cv2.vecs ∧ cv2.chunkSize = cv.chunkSize := by
  rw [ChunkedVec.insert] at he
  split at he
  · cases he
  · split at he
    · cases he
      refine ⟨fun c hc => ?_, rfl⟩
      rw [List.mem_singleton] at hc
      subst hc
      exact ⟨by simp, by simp; omega⟩
    · split at he
      · cases he
        exact ⟨h, rfl⟩
      · rename_i p ci li hfind
        cases he
        have hci : ci < cv.vecs.length := cvFindInsert_lt cv.vecs index ci li hfind
        have hgd : cv.vecs.getD ci [] = cv.vecs[ci] := by
          simp [List.getD_eq_getElem?_getD, List.getElem?_eq_getElem hci]
        refine ⟨checkChunk_ok _ hcs _ _ (by simpa using hci) (fun j hj hji => ?_) ?_, rfl⟩
        · rw [List.getElem_set (by simpa using hj)]
          rw [if_neg (fun heq => hji heq.symm)]
          exact h _ (List.getElem_mem (by simpa using hj))
        · have hset : (cv.vecs.set ci
              (List.insertIdx li x (cv.vecs.getD ci []))).getD ci [] =
              List.insertIdx li x (cv.vecs.getD ci []) := by
            simp [List.getD_eq_getElem?_getD, List.getElem?_set, hci]
          rw [hset]
          have hb := h _ (hgd ▸ List.getElem_mem hci)
          have hle := List.length_insertIdx_le_succ (cv.vecs.getD ci []) x li
          rw [hgd] at hle hb ⊢
          omega

theorem remove_chunksOk (cv : ChunkedVec α) (index : Nat) (cv2 : ChunkedVec α)
    (hcs : 2 ≤ cv.chunkSize) (h : chunksOk cv.chunkSize cv.vecs)
    (he : cv.remove index = some cv2) :
    chunksOk cv.chunkSize cv2.vecs ∧ cv2.chunkSize = cv.chunkSize := by
  rw [ChunkedVec.remove] at he
  split at he
  · cases he
  · split at he
    · cases he
      exact ⟨h, rfl⟩
    · rename_i p ci li hfind
      cases he
      have hci : ci < cv.vecs.length := cvFindRemove_lt cv.vecs index ci li hfind
      have hgd : cv.vecs.getD ci [] = cv.vecs[ci] := by
        simp [List.getD_eq_getElem?_getD, List.getElem?_eq_getElem hci]
      refine ⟨checkChunk_ok _ hcs _ _ (by simpa using hci) (fun j hj hji => ?_) ?_, rfl⟩
      · rw [List.getElem_set (by simpa using hj)]
        rw [if_neg (fun heq => hji heq.symm)]
        exact h _ (List.getElem_mem (by simpa using hj))
      · have hset : (cv.vecs.set ci
            ((cv.vecs.getD ci []).eraseIdx li)).getD ci [] =
            (cv.vecs.getD ci []).eraseIdx li := by
          simp [List.getD_eq_getElem?_getD, List.getElem?_set, hci]
        rw [hset]
        have hb := h _ (hgd ▸ List.getElem_mem hci)
        have hle : ((cv.vecs.getD ci []).eraseIdx li).length ≤ (cv.vecs.getD ci []).length := by
          rw [List.length_eraseIdx]
          split <;> omega
        rw [hgd] at hle hb ⊢
        omega

/-- C5 amended.  For every chunk size `C ≥ 2` and every sequence of `push` /
in-bounds `insert` / `remove` operations starting from `new(C)`, every chunk
(including the last) has length in `[1, 2C)`.  The claimed lower bound
`⌈C/2⌉ + 1` for non-last chunks does not hold: `check_chunk` merges a
shrunken chunk only into its left neighbour, so the first chunk can shrink
to a single element. -/
theorem c5_chunkedvec_invariant_amended (α : Type) (cs : Nat) (hcs : 2 ≤ cs)
    (ops : List (CVOp α)) (cv : ChunkedVec α)
    (h : applyCVOps (ChunkedVec.new α cs) ops = some cv) :
    ∀ c ∈ cv.vecs, 1 ≤ c.length ∧ c.length < cs * 2 := by
  suffices hgen : ∀ (ops : List (CVOp α)) (start final : ChunkedVec α),
      start.chunkSize = cs → chunksOk cs start.vecs →
      applyCVOps start ops = some final →
      chunksOk cs final.vecs ∧ final.chunkSize = cs by
    exact (hgen ops (ChunkedVec.new α cs) cv rfl (fun c hc => by
      simp [ChunkedVec.new] at hc) h).1
  intro ops
  induction ops with
  | nil =>
    intro start final hsz hok he
    rw [applyCVOps, List.foldlM_nil] at he
    cases he
    exact ⟨hok, hsz⟩
  | cons op rest ih =>
    intro start final hsz hok he
    rw [applyCVOps, List.foldlM_cons] at he
    rcases hbind : applyCVOp start op with _ | mid
    · rw [hbind] at he
      cases he
    · rw [hbind] at he
      have hmid : chunksOk cs mid.vecs ∧ mid.chunkSize = cs := by
        cases op with
        | push x =>
          rw [applyCVOp] at hbind
          cases hbind
          have := push_chunksOk start x (hsz ▸ hcs) (hsz ▸ hok)
          exact ⟨hsz ▸ this.1, hsz ▸ this.2⟩
        | insert i x =>
          rw [applyCVOp] at hbind
          have := insert_chunksOk start i x mid (hsz ▸ hcs) (hsz ▸ hok) hbind
          exact ⟨hsz ▸ this.1, hsz ▸ this.2⟩
        | remove i =>
          rw [applyCVOp] at hbind
          have := remove_chunksOk start i mid (hsz ▸ hcs) (hsz ▸ hok) hbind
          exact ⟨hsz ▸ this.1, hsz ▸ this.2⟩
      exact ih mid final hmid.2 hmid.1 he

/-- C5 amended witness: five pushes at `C = 2` give chunks `[1,2]` and
`[3,4,5]`, all with length in `[1, 4)`. -/
theorem c5_chunkedvec_invariant_amended_witness :
    2 ≤ 2 ∧
      applyCVOps (ChunkedVec.new Nat 2)
          [CVOp.push 1, CVOp.push 2, CVOp.push 3, CVOp.push 4, CVOp.push 5] =
        some ⟨[[1, 2], [3, 4, 5]], 2⟩ ∧
      ∀ c ∈ (ChunkedVec.mk [[1, 2], [3, 4, 5]] 2).vecs, 1 ≤ c.length ∧ c.length < 2 * 2 :=
  ⟨by decide, by decide,
    c5_chunkedvec_invariant_amended Nat 2 (by decide)
      [CVOp.push 1, CVOp.push 2, CVOp.push 3, CVOp.push 4, CVOp.push 5]
      ⟨[[1, 2], [3, 4, 5]], 2⟩ (by decide)⟩

/-- C5 counterexample.  With `C = 2`, pushing `1..5` and removing index 0
leaves chunks `[[2], [3, 4, 5]]`: the first chunk is not the last, yet its
length 1 is below the claimed lower bound `⌈C/2⌉ + 1 = 2` (`check_chunk`
cannot merge it into a left neighbour, and the right-hand merge the claim
would require does not exist). -/
theorem c5_chunkedvec_invariant_counterexample :
    (applyCVOps (ChunkedVec.new Nat 2)
        [CVOp.push 1, CVOp.push 2, CVOp.push 3, CVOp.push 4, CVOp.push 5,
          CVOp.remove 0]).map ChunkedVec.vecs = some [[2], [3, 4, 5]] ∧
      ([[2], [3, 4, 5]] : List (List Nat)).length = 2 ∧
      (([[2], [3, 4, 5]] : List (List Nat)).getD 0 []).length < 2 / 2 + 1 :=
  ⟨by decide, by decide, by decide⟩

/-! ### RangeIndex (claim C4) -/

/-- `std::ops::Bound<usize>`. -/
inductive RBound : Type where
  | included (n : Nat)
  | excluded (n : Nat)
  | unbounded
  deriving Repr, DecidableEq

/-- The halving loop of `<[T]>::binary_search_by` from the Rust standard
library, fuelled (each step strictly shrinks `right - left`, so
`length + 1` fuel always suffices).  `Except.ok` is `Ok(index)` at an
element comparing `Equal`; `Except.error` is `Err(insertion_point)`. -/
def binarySearchGo (v : List α) (f : α → Ordering) : Nat → Nat → Nat → Except Nat Nat
  | 0, left, _ => Except.error left
  | fuel + 1, left, right =>
    if left < right then
      let mid := left + (right - left) / 2
      match v[mid]? with
      | none => Except.error left
      | some x =>
        match f x with
        | Ordering.lt => binarySearchGo v f fuel (mid + 1) right
        | Ordering.gt => binarySearchGo v f fuel left mid
        | Ordering.eq => Except.ok mid
    else Except.error left

/-- `<[T]>::binary_search_by`, as used per chunk by `get_first` / `get_last`
in src/index/range.rs. -/
def binarySearchBy (v : List α) (f : α → Ordering) : Except Nat Nat :=
  binarySearchGo v f (v.length + 1) 0 v.length

/-- Rust's `Result::unwrap_err`.  The comparators passed below end in
`.then(Greater)` / `.then(Less)` and can never return `Equal`, so the
`ok` arm is unreachable there (its value is irrelevant). -/
def unwrapErr : Except Nat Nat → Nat
  | Except.error e => e
  | Except.ok i => i

/-- The per-chunk tail of `ChunkedVec::get_first`: binary-search with
`f(probe).then(Greater)`, then test the element at the insertion point. -/
def getFirstSearch (f : α → Ordering) (vec : List α) (gIndex : Nat) : Except Nat Nat :=
  let index := unwrapErr (binarySearchBy vec (fun probe => (f probe).then Ordering.gt))
  match vec[index]? with
  | some element =>
    if f element = Ordering.eq then Except.ok (gIndex + index)
    else Except.error (gIndex + index)
  | none => Except.error (gIndex + index)

/-- The chunk loop of `ChunkedVec::get_first`: skip a chunk (not the last)
whose last element still compares `Less`, otherwise search it. -/
def getFirstGo (f : α → Ordering) : List (List α) → Nat → Except Nat Nat
  | [], _ => Except.error 0
  | vec :: rest, gIndex =>
    match rest with
    | [] => getFirstSearch f vec gIndex
    | r :: rs =>
      match vec.getLast? with
      | some last =>
        match f last with
        | Ordering.lt => getFirstGo f (r :: rs) (gIndex + vec.length)
        | _ => getFirstSearch f vec gIndex
      | none => getFirstSearch f vec gIndex

/-- `ChunkedVec::get_first` from src/index/range.rs. -/
def ChunkedVec.getFirst (cv : ChunkedVec α) (f : α → Ordering) : Except Nat Nat :=
  getFirstGo f cv.vecs 0

/-- The per-chunk tail of `ChunkedVec::get_last`: binary-search with
`f(probe).then(Less)`, then test the element before the insertion point. -/
def getLastSearch (f : α → Ordering) (vec : List α) (gIndex : Nat) : Except Nat Nat :=
  let index := unwrapErr (binarySearchBy vec (fun probe => (f probe).then Ordering.lt))
  if 0 < index then
    match vec[index - 1]? with
    | some element =>
      if f element = Ordering.eq then Except.ok (gIndex + index - 1)
      else Except.error (gIndex + index)
    | none => Except.error (gIndex + index)
  else Except.error (gIndex + index)

/-- The chunk loop of `ChunkedVec::get_last`: iterate the chunks in reverse,
first subtracting the chunk's length from the running global index, skipping
a chunk whose first element compares `Greater`. -/
def getLastGo (f : α → Ordering) : List (List α) → Nat → Except Nat Nat
  | [], _ => Except.error 0
  | vec :: rest, gIndex =>
    let g2 := gIndex - vec.length
    match vec.head? with
    | some first =>
      match f first with
      | Ordering.gt => getLastGo f rest g2
      | _ => getLastSearch f vec g2
    | none => getLastSearch f vec g2

/-- `ChunkedVec::get_last` from src/index/range.rs. -/
def ChunkedVec.getLast (cv : ChunkedVec α) (f : α → Ordering) : Except Nat Nat :=
  getLastGo f cv.vecs.reverse cv.len

/-- The chunk loop of `ChunkedVec::as_slices`: `vec[start..=end]` is
`(vec.drop start).take (end - start + 1)` and `vec[start..]` is
`vec.drop start`. -/
def asSlicesGo : List (List α) → Nat → Nat → List (List α)
  | [], _, _ => []
  | vec :: rest, start, stop =>
    if vec.length ≤ start then asSlicesGo rest (start - vec.length) (stop - vec.length)
    else if stop < vec.length then [(vec.drop start).take (stop - start + 1)]
    else vec.drop start :: asSlicesGo rest 0 (stop - vec.length)

/-- `ChunkedVec::as_slices` from src/index/range.rs. -/
def ChunkedVec.asSlices (cv : ChunkedVec α) (start stop : RBound) : List (List α) :=
  if cv.vecs.all List.isEmpty then [[]]
  else
    let s := match start with
      | RBound.included s => s
      | RBound.excluded s => s + 1
      | RBound.unbounded => 0
    if stop = RBound.excluded s then [[]]
    else
      let e := match stop with
        | RBound.included e => e
        | RBound.excluded e => e.max 1 - 1
        | RBound.unbounded => cv.len.max 1 - 1
      if e < s then [[]] else asSlicesGo cv.vecs s e

/-- `RangeQuery` from src/index/range.rs. -/
inductive RangeQuery (V : Type) : Type where
  | EQ (v : V)
  | GT (v : V)
  | GTE (v : V)
  | LT (v : V)
  | LTE (v : V)
  | Range (min max : V)
  | All
  deriving Repr

/-- `RangeIndex` from src/index/range.rs, restricted to the two fields its
`get` method reads (`id_values` is only used by insert/remove bookkeeping). -/
structure RangeIndex (V : Type) : Type where
  ids : ChunkedVec Nat
  values : ChunkedVec (V × Nat)

/-- Rust's `Ord::cmp` on the value type. -/
def cmpV [LinearOrder V] (a b : V) : Ordering :=
  if a < b then Ordering.lt else if a = b then Ordering.eq else Ordering.gt

/-- `Result::ok()`: drop the error. -/
def exceptOk : Except Nat Nat → Option Nat
  | Except.ok i => some i
  | Except.error _ => none

/-- `RangeIndex::eq`. -/
def RangeIndex.eq [LinearOrder V] (ri : RangeIndex V) (value : V) :
    Option (RBound × RBound) := do
  let start ← exceptOk (ri.values.getFirst (fun probe => cmpV probe.1 value))
  let stop ← exceptOk (ri.values.getLast (fun probe => cmpV probe.1 value))
  pure (RBound.included start, RBound.included stop)

/-- `RangeIndex::gt`. -/
def RangeIndex.gt [LinearOrder V] (ri : RangeIndex V) (value : V) :
    Option (RBound × RBound) :=
  some
    (match ri.values.getLast (fun probe => cmpV probe.1 value) with
      | Except.ok i => RBound.excluded i
      | Except.error e => RBound.included e,
     RBound.unbounded)

/-- `RangeIndex::gte`. -/
def RangeIndex.gte [LinearOrder V] (ri : RangeIndex V) (value : V) :
    Option (RBound × RBound) :=
  some
    (match ri.values.getFirst (fun probe => cmpV probe.1 value) with
      | Except.ok i => RBound.included i
      | Except.error e => RBound.included e,
     RBound.unbounded)

/-- `RangeIndex::lt`. -/
def RangeIndex.lt [LinearOrder V] (ri : RangeIndex V) (value : V) :
    Option (RBound × RBound) :=
  some
    (RBound.unbounded,
     match ri.values.getFirst (fun probe => cmpV probe.1 value) with
      | Except.ok i => RBound.excluded i
      | Except.error e => RBound.excluded e)

/-- `RangeIndex::lte`. -/
def RangeIndex.lte [LinearOrder V] (ri : RangeIndex V) (value : V) :
    Option (RBound × RBound) :=
  some
    (RBound.unbounded,
     match ri.values.getLast (fun probe => cmpV probe.1 value) with
      | Except.ok i => RBound.included i
      | Except.error e => RBound.excluded e)

/-- `RangeIndex::range`. -/
def RangeIndex.range [LinearOrder V] (ri : RangeIndex V) (min max : V) :
    Option (RBound × RBound) :=
  some
    (match ri.values.getFirst (fun probe => cmpV probe.1 min) with
      | Except.ok i => RBound.included i
      | Except.error e => RBound.included e,
     match ri.values.getLast (fun probe => cmpV probe.1 max) with
      | Except.ok i => RBound.included i
      | Except.error e => RBound.excluded e)

/-- `RangeIndex::get`. -/
def RangeIndex.get [LinearOrder V] (ri : RangeIndex V) (query : RangeQuery V) :
    Query Queryable :=
  let range := match query with
    | RangeQuery.EQ v => ri.eq v
    | RangeQuery.GT v => ri.gt v
    | RangeQuery.GTE v => ri.gte v
    | RangeQuery.LT v => ri.lt v
    | RangeQuery.LTE v => ri.lte v
    | RangeQuery.Range mn mx => ri.range mn mx
    | RangeQuery.All => some (RBound.included 0, RBound.unbounded)
  match range with
  | none => Query.single (Queryable.ids []) false
  | some (s, e) =>
    Query.orChain
      ((ri.ids.asSlices s e).map (fun slice => Query.single (Queryable.ids slice) false))
      false

/-- The id list of a `Single(IDs(_))` leaf. -/
def queryIDLeaf : Query Queryable → List Nat
  | Query.single (Queryable.ids l) _ => l
  | _ => []

/-- The union (concatenation) of the ID slices of the query produced by
`RangeIndex::get`: all leaves of the or-chain, or the single leaf itself. -/
def queryIDUnion : Query Queryable → List Nat
  | Query.orChain children _ => (children.map queryIDLeaf).flatten
  | q => queryIDLeaf q

/-- A concrete two-chunk index used by the C4 witness. -/
def riW : RangeIndex Nat :=
  { ids := ⟨[[10, 20], [21, 30]], 2⟩
    values := ⟨[[(1, 10), (2, 20)], [(2, 21), (3, 30)]], 2⟩ }

theorem then_gt_ne_eq (o : Ordering) : o.then Ordering.gt ≠ Ordering.eq := by
  cases o <;> decide

theorem then_gt_eq_lt (o : Ordering) : (o.then Ordering.gt = Ordering.lt) ↔ o = Ordering.lt := by
  cases o <;> decide

theorem then_lt_ne_eq (o : Ordering) : o.then Ordering.lt ≠ Ordering.eq := by
  cases o <;> decide

theorem then_lt_eq_lt (o : Ordering) : (o.then Ordering.lt = Ordering.lt) ↔ o ≠ Ordering.gt := by
  cases o <;> decide

/-- The halving loop homes in on the partition point `K` of a comparator that
is `lt` exactly below `K` and never `eq`. -/
theorem binarySearchGo_partition (v : List α) (f : α → Ordering) (K : Nat)
    (hK : ∀ j (hj : j < v.length), (f v[j] = Ordering.lt ↔ j < K))
    (hne : ∀ j (hj : j < v.length), f v[j] ≠ Ordering.eq) :
    ∀ fuel left right, right ≤ v.length → left ≤ K → K ≤ right →
      right - left < fuel →
      binarySearchGo v f fuel left right = Except.error K := by
  intro fuel
  induction fuel with
  | zero => intro left right _ _ _ h; omega
  | succ n ih =>
    intro left right hrv hlK hKr hfuel
    rw [binarySearchGo]
    by_cases hlr : left < right
    · rw [if_pos hlr]
      have hmid : left + (right - left) / 2 < v.length := by omega
      simp only [List.getElem?_eq_getElem hmid]
      cases ho : f (v[left + (right - left) / 2]) with
      | lt =>
        have hlt : left + (right - left) / 2 < K := (hK _ hmid).mp ho
        exact ih (left + (right - left) / 2 + 1) right hrv (by omega) hKr (by omega)
      | eq => exact absurd ho (hne _ hmid)
      | gt =>
        have hge : ¬ left + (right - left) / 2 < K := by
          intro hc
          rw [(hK _ hmid).mpr hc] at ho
          cases ho
        exact ih left (left + (right - left) / 2) (by omega) hlK (by omega) (by omega)
    · rw [if_neg hlr]
      have hlK2 : left = K := by omega
      rw [hlK2]

theorem binarySearchBy_partition (v : List α) (f : α → Ordering) (K : Nat)
    (hK : ∀ j (hj : j < v.length), (f v[j] = Ordering.lt ↔ j < K))
    (hne : ∀ j (hj : j < v.length), f v[j] ≠ Ordering.eq)
    (hKle : K ≤ v.length) :
    binarySearchBy v f = Except.error K :=
  binarySearchGo_partition v f K hK hne (v.length + 1) 0 v.length le_rfl (Nat.zero_le K) hKle
    (by omega)

theorem getFirstSearch_spec (f : α → Ordering) (vec : List α) (g K : Nat)
    (hK : ∀ j (hj : j < vec.length), (f vec[j] = Ordering.lt ↔ j < K))
    (hKle : K ≤ vec.length) :
    getFirstSearch f vec g = match vec[K]? with
      | some x => if f x = Ordering.eq then Except.ok (g + K) else Except.error (g + K)
      | none => Except.error (g + K) := by
  have hbs : binarySearchBy vec (fun probe => (f probe).then Ordering.gt) = Except.error K := by
    apply binarySearchBy_partition
    · intro j hj; rw [then_gt_eq_lt]; exact hK j hj
    · intro j hj; exact then_gt_ne_eq _
    · exact hKle
  rw [getFirstSearch, hbs]
  rfl

theorem getLastSearch_spec (f : α → Ordering) (vec : List α) (g K : Nat)
    (hK : ∀ j (hj : j < vec.length), (f vec[j] = Ordering.gt ↔ K ≤ j))
    (hKle : K ≤ vec.length) :
    getLastSearch f vec g = match vec[K - 1]? with
      | some x =>
        if 0 < K ∧ f x = Ordering.eq then Except.ok (g + K - 1) else Except.error (g + K)
      | none => Except.error (g + K) := by
  have hbs : binarySearchBy vec (fun probe => (f probe).then Ordering.lt) = Except.error K := by
    apply binarySearchBy_partition
    · intro j hj
      rw [then_lt_eq_lt]
      constructor
      · intro hne2
        by_contra hc
        exact hne2 ((hK j hj).mpr (by omega))
      · intro hlt heq
        exact absurd ((hK j hj).mp heq) (by omega)
    · intro j hj; exact then_lt_ne_eq _
    · exact hKle
  rw [getLastSearch, hbs]
  by_cases h0 : 0 < K
  · rw [if_pos (show 0 < unwrapErr (Except.error K) from h0)]
    cases hx : vec[K - 1]? with
    | some x =>
      simp only [unwrapErr, hx]
      by_cases hfx : f x = Ordering.eq
      · rw [if_pos hfx, if_pos ⟨h0, hfx⟩]
      · rw [if_neg hfx, if_neg (by intro hc; exact hfx hc.2)]
    | none => simp only [unwrapErr, hx]
  · rw [if_neg (show ¬ 0 < unwrapErr (Except.error K) from h0)]
    cases hx : vec[K - 1]? with
    | some x => simp only [unwrapErr, hx]; rw [if_neg (by intro hc; exact h0 hc.1)]
    | none => simp only [unwrapErr, hx]

/-- The chunk loop of `get_first` finds the global partition point, provided
every chunk is non-empty (skipping a chunk whose last element is `lt` is then
sound). -/
theorem getFirstGo_spec (f : α → Ordering) :
    ∀ (vs : List (List α)) (g K : Nat), vs ≠ [] →
      (∀ c ∈ vs, c ≠ []) →
      (∀ j (hj : j < vs.flatten.length), (f vs.flatten[j] = Ordering.lt ↔ j < K)) →
      K ≤ vs.flatten.length →
      getFirstGo f vs g = match vs.flatten[K]? with
        | some x => if f x = Ordering.eq then Except.ok (g + K) else Except.error (g + K)
        | none => Except.error (g + K) := by
  intro vs
  induction vs with
  | nil => intro g K h; exact absurd rfl h
  | cons vec rest ih =>
    intro g K _ hchunks hK hKle
    have hvec : vec ≠ [] := hchunks vec (List.mem_cons_self _ _)
    have hvlen : 0 < vec.length := List.length_pos.mpr hvec
    cases rest with
    | nil =>
      have hfl : (vec :: ([] : List (List α))).flatten = vec := by simp
      rw [hfl] at hK hKle ⊢
      rw [getFirstGo]
      exact getFirstSearch_spec f vec g K hK hKle
    | cons r rs =>
      have hlastSome : vec.getLast? = some (vec.getLast hvec) :=
        List.getLast?_eq_getLast vec hvec
      have hfl : (vec :: r :: rs).flatten = vec ++ (r :: rs).flatten :=
        List.flatten_cons
      rw [hfl] at hK hKle ⊢
      rw [List.length_append] at hKle
      rw [getFirstGo, hlastSome]
      dsimp only
      have hlastIdx : vec.length - 1 < (vec ++ (r :: rs).flatten).length := by
        rw [List.length_append]; omega
      have hlastElem : (vec ++ (r :: rs).flatten)[vec.length - 1] = vec.getLast hvec := by
        rw [List.getElem_append_left (by omega)]
        exact (List.getLast_eq_getElem vec hvec).symm
      cases hfo : f (vec.getLast hvec) with
      | lt =>
        have hKge : vec.length ≤ K := by
          have := (hK _ hlastIdx).mp (by rw [hlastElem]; exact hfo)
          omega
        have hK2 : ∀ j (hj : j < (r :: rs).flatten.length),
            (f (r :: rs).flatten[j] = Ordering.lt ↔ j < K - vec.length) := by
          intro j hj
          have hidx2 : vec.length + j < (vec ++ (r :: rs).flatten).length := by
            rw [List.length_append]; omega
          have hgl2 : (vec ++ (r :: rs).flatten)[vec.length + j] = (r :: rs).flatten[j] := by
            rw [List.getElem_append_right (by omega)]
            congr 1
            omega
          have hiff := hK _ hidx2
          rw [hgl2] at hiff
          rw [hiff]
          omega
        have hmain := ih (g + vec.length) (K - vec.length) (by simp)
          (fun c hc => hchunks c (List.mem_cons_of_mem _ hc)) hK2 (by omega)
        refine hmain.trans ?_
        have hscrut : (vec ++ (r :: rs).flatten)[K]? = (r :: rs).flatten[K - vec.length]? := by
          rw [List.getElem?_append_right hKge]
        rw [hscrut, show g + vec.length + (K - vec.length) = g + K from by omega]
      | eq =>
        have hKlt : K < vec.length := by
          by_contra hc
          have := (hK _ hlastIdx).mpr (by omega)
          rw [hlastElem, hfo] at this
          cases this
        have hKloc : ∀ j (hj : j < vec.length), (f vec[j] = Ordering.lt ↔ j < K) := by
          intro j hj
          have hidx2 : j < (vec ++ (r :: rs).flatten).length := by
            rw [List.length_append]; omega
          have hgl2 : (vec ++ (r :: rs).flatten)[j] = vec[j] := List.getElem_append_left hj
          have hiff := hK j hidx2
          rw [hgl2] at hiff
          exact hiff
        refine (getFirstSearch_spec f vec g K hKloc (le_of_lt hKlt)).trans ?_
        have hKfl : K < (vec ++ (r :: rs).flatten).length := by
          rw [List.length_append]; omega
        rw [List.getElem?_eq_getElem hKlt, List.getElem?_eq_getElem hKfl,
          show (vec ++ (r :: rs).flatten)[K] = vec[K] from List.getElem_append_left hKlt]
      | gt =>
        have hKlt : K < vec.length := by
          by_contra hc
          have := (hK _ hlastIdx).mpr (by omega)
          rw [hlastElem, hfo] at this
          cases this
        have hKloc : ∀ j (hj : j < vec.length), (f vec[j] = Ordering.lt ↔ j < K) := by
          intro j hj
          have hidx2 : j < (vec ++ (r :: rs).flatten).length := by
            rw [List.length_append]; omega
          have hgl2 : (vec ++ (r :: rs).flatten)[j] = vec[j] := List.getElem_append_left hj
          have hiff := hK j hidx2
          rw [hgl2] at hiff
          exact hiff
        refine (getFirstSearch_spec f vec g K hKloc (le_of_lt hKlt)).trans ?_
        have hKfl : K < (vec ++ (r :: rs).flatten).length := by
          rw [List.length_append]; omega
        rw [List.getElem?_eq_getElem hKlt, List.getElem?_eq_getElem hKfl,
          show (vec ++ (r :: rs).flatten)[K] = vec[K] from List.getElem_append_left hKlt]

/-- `ChunkedVec::get_first` at the partition point of `f`. -/
theorem chunked_getFirst_spec (cv : ChunkedVec α) (f : α → Ordering) (K : Nat)
    (hchunks : ∀ c ∈ cv.vecs, c ≠ [])
    (hK : ∀ j (hj : j < cv.flat.length), (f cv.flat[j] = Ordering.lt ↔ j < K))
    (hKle : K ≤ cv.flat.length) :
    cv.getFirst f = match cv.flat[K]? with
      | some x => if f x = Ordering.eq then Except.ok K else Except.error K
      | none => Except.error K := by
  rcases hv : cv.vecs with _ | ⟨v, rest⟩
  · have hfl : cv.flat = [] := by rw [ChunkedVec.flat, hv]; rfl
    rw [hfl] at hKle
    simp only [List.length_nil, Nat.le_zero] at hKle
    rw [ChunkedVec.getFirst, hv, hfl, hKle]
    rfl
  · have hfl : cv.flat = (v :: rest).flatten := by rw [ChunkedVec.flat, hv]
    rw [ChunkedVec.getFirst, hv]
    rw [hfl] at hK hKle ⊢
    have hspec := getFirstGo_spec f (v :: rest) 0 K (by simp)
      (by rw [← hv]; exact hchunks) hK hKle
    simp only [Nat.zero_add] at hspec
    exact hspec

/-- The reversed chunk loop of `get_last` finds the upper partition point `K`
(the first index whose element compares `Greater`), provided every chunk is
non-empty. -/
theorem getLastGo_spec (f : α → Ordering) (K : Nat) :
    ∀ (rvs : List (List α)),
      (∀ c ∈ rvs, c ≠ []) →
      (∀ j (hj : j < rvs.reverse.flatten.length),
        (f rvs.reverse.flatten[j] = Ordering.gt ↔ K ≤ j)) →
      K ≤ rvs.reverse.flatten.length →
      getLastGo f rvs rvs.reverse.flatten.length =
        match rvs.reverse.flatten[K - 1]? with
        | some x =>
          if 0 < K ∧ f x = Ordering.eq then Except.ok (K - 1) else Except.error K
        | none => Except.error K := by
  intro rvs
  induction rvs with
  | nil =>
    intro _ hK hKle
    simp only [List.reverse_nil, List.flatten_nil, List.length_nil, Nat.le_zero] at hKle ⊢
    rw [hKle]
    rfl
  | cons vec rvrest ih =>
    intro hchunks hK hKle
    have hvec : vec ≠ [] := hchunks vec (List.mem_cons_self _ _)
    have hvlen : 0 < vec.length := List.length_pos.mpr hvec
    have hfl : (vec :: rvrest).reverse.flatten = rvrest.reverse.flatten ++ vec := by
      rw [List.reverse_cons, List.flatten_append]
      simp
    rw [hfl] at hK hKle ⊢
    have hheadSome : vec.head? = some (vec.head hvec) := List.head?_eq_head hvec
    rw [getLastGo, hheadSome]
    dsimp only
    have hg2 : (rvrest.reverse.flatten ++ vec).length - vec.length =
        rvrest.reverse.flatten.length := by
      rw [List.length_append]; omega
    have hheadIdx : rvrest.reverse.flatten.length <
        (rvrest.reverse.flatten ++ vec).length := by
      rw [List.length_append]; omega
    have hheadElem : (rvrest.reverse.flatten ++ vec)[rvrest.reverse.flatten.length] =
        vec.head hvec := by
      rw [List.getElem_append_right (le_refl _)]
      simp only [Nat.sub_self]
      exact List.getElem_zero _
    rw [List.length_append] at hKle
    cases hfo : f (vec.head hvec) with
    | gt =>
      have hKle2 : K ≤ rvrest.reverse.flatten.length :=
        (hK _ hheadIdx).mp (by rw [hheadElem]; exact hfo)
      have hK2 : ∀ j (hj : j < rvrest.reverse.flatten.length),
          (f rvrest.reverse.flatten[j] = Ordering.gt ↔ K ≤ j) := by
        intro j hj
        have hidx2 : j < (rvrest.reverse.flatten ++ vec).length := by
          rw [List.length_append]; omega
        have hgl2 : (rvrest.reverse.flatten ++ vec)[j] = rvrest.reverse.flatten[j] :=
          List.getElem_append_left hj
        have hiff := hK j hidx2
        rw [hgl2] at hiff
        exact hiff
      have hmain := ih (fun c hc => hchunks c (List.mem_cons_of_mem _ hc)) hK2 hKle2
      rw [hg2]
      refine hmain.trans ?_
      by_cases h0 : 0 < K
      · have hidx3 : K - 1 < rvrest.reverse.flatten.length := by omega
        have hidx4 : K - 1 < (rvrest.reverse.flatten ++ vec).length := by
          rw [List.length_append]; omega
        rw [List.getElem?_eq_getElem hidx3, List.getElem?_eq_getElem hidx4,
          show (rvrest.reverse.flatten ++ vec)[K - 1] = rvrest.reverse.flatten[K - 1] from
            List.getElem_append_left hidx3]
      · have hK0 : K = 0 := by omega
        subst hK0
        cases hsc : rvrest.reverse.flatten[(0 : Nat) - 1]? <;>
          cases hsc2 : (rvrest.reverse.flatten ++ vec)[(0 : Nat) - 1]? <;>
            simp
    | lt =>
      have hgK : rvrest.reverse.flatten.length < K := by
        by_contra hc
        have := (hK _ hheadIdx).mpr (by omega)
        rw [hheadElem, hfo] at this
        cases this
      have hKle3 : K - rvrest.reverse.flatten.length ≤ vec.length := by omega
      have hKloc : ∀ j (hj : j < vec.length),
          (f vec[j] = Ordering.gt ↔ K - rvrest.reverse.flatten.length ≤ j) := by
        intro j hj
        have hidx2 : rvrest.reverse.flatten.length + j <
            (rvrest.reverse.flatten ++ vec).length := by
          rw [List.length_append]; omega
        have hgl2 : (rvrest.reverse.flatten ++ vec)[rvrest.reverse.flatten.length + j] =
            vec[j] := by
          rw [List.getElem_append_right (by omega)]
          congr 1
          omega
        have hiff := hK _ hidx2
        rw [hgl2] at hiff
        rw [hiff]
        omega
      rw [hg2]
      refine (getLastSearch_spec f vec rvrest.reverse.flatten.length
        (K - rvrest.reverse.flatten.length) hKloc hKle3).trans ?_
      have h0K : 0 < K - rvrest.reverse.flatten.length := by omega
      have hidx4 : K - rvrest.reverse.flatten.length - 1 < vec.length := by omega
      have hidx5 : K - 1 < (rvrest.reverse.flatten ++ vec).length := by
        rw [List.length_append]; omega
      rw [List.getElem?_eq_getElem hidx4, List.getElem?_eq_getElem hidx5,
        show (rvrest.reverse.flatten ++ vec)[K - 1] =
            vec[K - rvrest.reverse.flatten.length - 1] from by
          rw [List.getElem_append_right (by omega)]
          congr 1
          omega]
      dsimp only
      by_cases hfe : f (vec[K - rvrest.reverse.flatten.length - 1]) = Ordering.eq
      · rw [if_pos ⟨h0K, hfe⟩, if_pos ⟨by omega, hfe⟩]
        congr 1
        omega
      · rw [if_neg (by intro hc; exact hfe hc.2), if_neg (by intro hc; exact hfe hc.2)]
        congr 1
        omega
    | eq =>
      have hgK : rvrest.reverse.flatten.length < K := by
        by_contra hc
        have := (hK _ hheadIdx).mpr (by omega)
        rw [hheadElem, hfo] at this
        cases this
      have hKle3 : K - rvrest.reverse.flatten.length ≤ vec.length := by omega
      have hKloc : ∀ j (hj : j < vec.length),
          (f vec[j] = Ordering.gt ↔ K - rvrest.reverse.flatten.length ≤ j) := by
        intro j hj
        have hidx2 : rvrest.reverse.flatten.length + j <
            (rvrest.reverse.flatten ++ vec).length := by
          rw [List.length_append]; omega
        have hgl2 : (rvrest.reverse.flatten ++ vec)[rvrest.reverse.flatten.length + j] =
            vec[j] := by
          rw [List.getElem_append_right (by omega)]
          congr 1
          omega
        have hiff := hK _ hidx2
        rw [hgl2] at hiff
        rw [hiff]
        omega
      rw [hg2]
      refine (getLastSearch_spec f vec rvrest.reverse.flatten.length
        (K - rvrest.reverse.flatten.length) hKloc hKle3).trans ?_
      have h0K : 0 < K - rvrest.reverse.flatten.length := by omega
      have hidx4 : K - rvrest.reverse.flatten.length - 1 < vec.length := by omega
      have hidx5 : K - 1 < (rvrest.reverse.flatten ++ vec).length := by
        rw [List.length_append]; omega
      rw [List.getElem?_eq_getElem hidx4, List.getElem?_eq_getElem hidx5,
        show (rvrest.reverse.flatten ++ vec)[K - 1] =
            vec[K - rvrest.reverse.flatten.length - 1] from by
          rw [List.getElem_append_right (by omega)]
          congr 1
          omega]
      dsimp only
      by_cases hfe : f (vec[K - rvrest.reverse.flatten.length - 1]) = Ordering.eq
      · rw [if_pos ⟨h0K, hfe⟩, if_pos ⟨by omega, hfe⟩]
        congr 1
        omega
      · rw [if_neg (by intro hc; exact hfe hc.2), if_neg (by intro hc; exact hfe hc.2)]
        congr 1
        omega

/-- `ChunkedVec::get_last` at the upper partition point of `f`. -/
theorem chunked_getLast_spec (cv : ChunkedVec α) (f : α → Ordering) (K : Nat)
    (hchunks : ∀ c ∈ cv.vecs, c ≠ [])
    (hK : ∀ j (hj : j < cv.flat.length), (f cv.flat[j] = Ordering.gt ↔ K ≤ j))
    (hKle : K ≤ cv.flat.length) :
    cv.getLast f = match cv.flat[K - 1]? with
      | some x =>
        if 0 < K ∧ f x = Ordering.eq then Except.ok (K - 1) else Except.error K
      | none => Except.error K := by
  have hrev : cv.vecs.reverse.reverse = cv.vecs := List.reverse_reverse _
  have hspec := getLastGo_spec f K cv.vecs.reverse
    (fun c hc => hchunks c (List.mem_reverse.mp hc))
    (by rw [hrev]; exact hK)
    (by rw [hrev]; exact hKle)
  rw [hrev] at hspec
  have hlen : cv.len = cv.vecs.flatten.length := by
    rw [ChunkedVec.len, List.length_flatten]
  rw [ChunkedVec.getLast, hlen]
  exact hspec

/-- In a list where a predicate is downward closed along positions, the
predicate holds exactly at positions below its count. -/
theorem countP_char (p : α → Bool) :
    ∀ (l : List α),
      (∀ i j (hi : i < l.length) (hj : j < l.length), i ≤ j → p l[j] = true → p l[i] = true) →
      ∀ j (hj : j < l.length), (p l[j] = true ↔ j < l.countP p) := by
  intro l
  induction l with
  | nil => intro _ j hj; cases hj
  | cons a t ih =>
    intro hmono j hj
    by_cases hpa : p a = true
    · rw [List.countP_cons_of_pos _ _ hpa]
      cases j with
      | zero => simpa using hpa
      | succ k =>
        have hk : k < t.length := by simpa using hj
        have hmono2 : ∀ i j (hi : i < t.length) (hj : j < t.length), i ≤ j →
            p t[j] = true → p t[i] = true := by
          intro i j hi hj2 hij hpj
          have := hmono (i + 1) (j + 1) (by simpa using hi) (by simpa using hj2)
            (by omega) (by simpa using hpj)
          simpa using this
        have := ih hmono2 k hk
        simpa [Nat.succ_lt_succ_iff] using this
    · have hall : t.countP p = 0 := by
        rw [List.countP_eq_zero]
        intro x hx
        rcases List.mem_iff_getElem.mp hx with ⟨i, hi, rfl⟩
        intro hpi
        exact hpa (hmono 0 (i + 1) (by simp) (by simpa using hi) (by omega)
          (by simpa using hpi))
      rw [List.countP_cons_of_neg _ _ hpa, hall]
      simp only [Nat.not_lt_zero, iff_false]
      cases j with
      | zero => simpa using hpa
      | succ k =>
        have hk : k < t.length := by simpa using hj
        intro hpk
        have hpk2 : p t[k] = true := by simpa using hpk
        have := List.countP_eq_zero.mp hall t[k] (List.getElem_mem _)
        exact this hpk2

/-- A predicate true exactly on the index window `[K1, K2)` filters to the
corresponding contiguous slice. -/
theorem filter_eq_drop_take (q : α → Bool) :
    ∀ (l : List α) (K1 K2 : Nat),
      (∀ j (hj : j < l.length), (q l[j] = true ↔ (K1 ≤ j ∧ j < K2))) →
      l.filter q = (l.take K2).drop K1 := by
  intro l
  induction l with
  | nil => intro K1 K2 _; simp
  | cons a t ih =>
    intro K1 K2 hq
    rcases K2 with _ | k2
    · have h1 : (a :: t).filter q = [] := by
        rw [List.filter_eq_nil_iff]
        intro x hx hqx
        rcases List.mem_iff_getElem.mp hx with ⟨i, hi, rfl⟩
        have := (hq i hi).mp hqx
        omega
      rw [h1, List.take_zero, List.drop_nil]
    · rcases K1 with _ | k1
      · have hqa : q a = true := by
          have := (hq 0 (by simp)).mpr (by omega)
          simpa using this
        rw [List.filter_cons_of_pos hqa, List.take_succ_cons, List.drop_zero]
        congr 1
        have hq2 : ∀ j (hj : j < t.length), (q t[j] = true ↔ (0 ≤ j ∧ j < k2)) := by
          intro j hj
          have h2 := hq (j + 1) (by simpa using hj)
          rw [List.getElem_cons_succ] at h2
          rw [h2]
          omega
        have := ih 0 k2 hq2
        simpa using this
      · have hqa : ¬ q a = true := by
          intro hqa
          have := (hq 0 (by simp)).mp (by simpa using hqa)
          omega
        rw [List.filter_cons_of_neg (by simpa using hqa), List.take_succ_cons,
          List.drop_succ_cons]
        apply ih
        intro j hj
        have h2 := hq (j + 1) (by simpa using hj)
        rw [List.getElem_cons_succ] at h2
        rw [h2]
        omega

/-- Flattening the slices produced by the `as_slices` loop gives the
contiguous segment `[s, e]` of the flattened list. -/
theorem asSlicesGo_flatten :
    ∀ (vs : List (List α)) (s e : Nat), s ≤ e → e < vs.flatten.length →
      (asSlicesGo vs s e).flatten = (vs.flatten.drop s).take (e - s + 1) := by
  intro vs
  induction vs with
  | nil => intro s e _ he; simp at he
  | cons vec rest ih =>
    intro s e hse he
    rw [List.flatten_cons] at he ⊢
    rw [List.length_append] at he
    rw [asSlicesGo]
    by_cases h1 : vec.length ≤ s
    · rw [if_pos h1]
      have := ih (s - vec.length) (e - vec.length) (by omega) (by omega)
      rw [this]
      rw [List.drop_append_eq_append_drop, List.drop_eq_nil_of_le h1, List.nil_append]
      congr 1
      omega
    · rw [if_neg h1]
      push_neg at h1
      by_cases h2 : e < vec.length
      · rw [if_pos h2]
        rw [List.flatten_cons, List.flatten_nil, List.append_nil]
        rw [List.drop_append_eq_append_drop,
          show s - vec.length = 0 from by omega, List.drop_zero]
        rw [List.take_append_eq_append_take, List.length_drop]
        rw [show e - s + 1 - (vec.length - s) = 0 from by omega, List.take_zero,
          List.append_nil]
      · rw [if_neg h2]
        push_neg at h2
        rw [List.flatten_cons]
        have := ih 0 (e - vec.length) (by omega) (by omega)
        simp only [Nat.sub_zero] at this
        rw [this, List.drop_zero]
        rw [List.drop_append_eq_append_drop,
          show s - vec.length = 0 from by omega, List.drop_zero]
        rw [List.take_append_eq_append_take, List.length_drop]
        have htake1 : (vec.drop s).take (e - s + 1) = vec.drop s :=
          List.take_of_length_le (by rw [List.length_drop]; omega)
        rw [htake1]
        have harg : e - s + 1 - (vec.length - s) = e - vec.length + 1 := by omega
        rw [harg]

theorem all_isEmpty_iff (vs : List (List α)) :
    (vs.all List.isEmpty) = true ↔ vs.flatten = [] := by
  induction vs with
  | nil => simp
  | cons v rest ih =>
    simp only [List.all_cons, Bool.and_eq_true, ih, List.flatten_cons,
      List.append_eq_nil, List.isEmpty_iff]

/-- `as_slices(Included s, Included e)` flattens to the inclusive segment
`[s, e]` when `s ≤ e < len`. -/
theorem asSlices_incl_flatten (cv : ChunkedVec α) (s e : Nat)
    (hse : s ≤ e) (he : e < cv.flat.length) :
    ((cv.asSlices (RBound.included s) (RBound.included e)).flatten) =
      (cv.flat.drop s).take (e - s + 1) := by
  rw [ChunkedVec.asSlices]
  have hne : ¬ (cv.vecs.all List.isEmpty) = true := by
    rw [all_isEmpty_iff]
    intro hnil
    rw [ChunkedVec.flat, hnil] at he
    simp at he
  rw [if_neg hne]
  dsimp only
  rw [if_neg (by intro h; cases h)]
  rw [if_neg (by omega)]
  exact asSlicesGo_flatten cv.vecs s e hse (by rw [ChunkedVec.flat] at he; exact he)

theorem cmpV_eq_lt [LinearOrder V] (a b : V) : cmpV a b = Ordering.lt ↔ a < b := by
  rw [cmpV]
  split_ifs with h1 h2
  · simp [h1]
  · simp [h2]
  · simp [h1, h2]

theorem cmpV_eq_eq [LinearOrder V] (a b : V) : cmpV a b = Ordering.eq ↔ a = b := by
  rw [cmpV]
  split_ifs with h1 h2
  · simp [ne_of_lt h1]
  · simp [h2]
  · simp [h1, h2]

theorem cmpV_eq_gt [LinearOrder V] (a b : V) : cmpV a b = Ordering.gt ↔ b < a := by
  rw [cmpV]
  split_ifs with h1 h2
  · simp [lt_asymm h1]
  · simp [h2]
  · have hba : b < a := lt_of_le_of_ne (le_of_not_lt h1) (fun h => h2 h.symm)
    simp [hba]

theorem queryIDUnion_orChain (slices : List (List Nat)) :
    queryIDUnion (Query.orChain
      (slices.map (fun slice => Query.single (Queryable.ids slice) false)) false) =
      slices.flatten := by
  rw [queryIDUnion, List.map_map]
  congr 1
  have hcomp : (queryIDLeaf ∘ fun slice => Query.single (Queryable.ids slice) false) =
      id := funext (fun s => rfl)
  rw [hcomp, List.map_id]

/-- C4: for a `RangeIndex` whose flattened `values` are sorted by value, whose
chunks are non-empty, and whose `ids` mirror `values` positionally,
`get(EQ(v))` returns an or-chain of `Single(IDs(slice))` children whose
concatenation is exactly the ids of the elements with value `v` (in order);
when no element has value `v` it returns `Single(IDs([]))`. -/
theorem c4_range_eq_correct (V : Type) [LinearOrder V] (ri : RangeIndex V) (v : V)
    (hchunks : ∀ c ∈ ri.values.vecs, c ≠ [])
    (hsorted : (ri.values.flat.map Prod.fst).Sorted (· ≤ ·))
    (halign : ri.ids.vecs = ri.values.vecs.map (List.map Prod.snd)) :
    queryIDUnion (ri.get (RangeQuery.EQ v)) =
      (ri.values.flat.filter (fun p => p.1 = v)).map Prod.snd
    ∧ ((∀ p ∈ ri.values.flat, p.1 ≠ v) →
        ri.get (RangeQuery.EQ v) = Query.single (Queryable.ids []) false) := by
  have hmono : ∀ i j (hi : i < ri.values.flat.length) (hj : j < ri.values.flat.length),
      i ≤ j → (ri.values.flat[i]).1 ≤ (ri.values.flat[j]).1 := by
    intro i j hi hj hij
    rcases Nat.eq_or_lt_of_le hij with rfl | hlt
    · exact le_refl _
    · have := List.pairwise_iff_getElem.mp hsorted i j (by simpa using hi)
        (by simpa using hj) hlt
      simpa using this
  obtain ⟨K1, hchar1, hK1le⟩ : ∃ K1, (∀ j (hj : j < ri.values.flat.length),
      ((ri.values.flat[j]).1 < v ↔ j < K1)) ∧ K1 ≤ ri.values.flat.length := by
    refine ⟨ri.values.flat.countP (fun x => decide (x.1 < v)), ?_, List.countP_le_length _⟩
    intro j hj
    have hcc := countP_char (fun x => decide (x.1 < v)) ri.values.flat ?_ j hj
    · simpa using hcc
    · intro i j2 hi hj2 hij hpj
      simp only [decide_eq_true_eq] at hpj ⊢
      exact lt_of_le_of_lt (hmono i j2 hi hj2 hij) hpj
  obtain ⟨K2, hchar2, hK2le⟩ : ∃ K2, (∀ j (hj : j < ri.values.flat.length),
      ((ri.values.flat[j]).1 ≤ v ↔ j < K2)) ∧ K2 ≤ ri.values.flat.length := by
    refine ⟨ri.values.flat.countP (fun x => decide (x.1 ≤ v)), ?_, List.countP_le_length _⟩
    intro j hj
    have hcc := countP_char (fun x => decide (x.1 ≤ v)) ri.values.flat ?_ j hj
    · simpa using hcc
    · intro i j2 hi hj2 hij hpj
      simp only [decide_eq_true_eq] at hpj ⊢
      exact le_trans (hmono i j2 hi hj2 hij) hpj
  have hgf := chunked_getFirst_spec ri.values (fun probe => cmpV probe.1 v) K1 hchunks
    (fun j hj => by rw [cmpV_eq_lt]; exact hchar1 j hj) hK1le
  have hgl := chunked_getLast_spec ri.values (fun probe => cmpV probe.1 v) K2 hchunks
    ?hcharlast hK2le
  case hcharlast =>
    intro j hj
    rw [cmpV_eq_gt]
    constructor
    · intro hlt
      by_contra hc
      push_neg at hc
      have := (hchar2 j hj).mpr hc
      exact absurd hlt (not_lt.mpr this)
    · intro hK2j
      have hnle : ¬ (ri.values.flat[j]).1 ≤ v := by
        intro hle
        have := (hchar2 j hj).mp hle
        omega
      exact not_le.mp hnle
  by_cases hex : ∃ p ∈ ri.values.flat, p.1 = v
  · obtain ⟨p0, hp0mem, hp0v⟩ := hex
    obtain ⟨j0, hj0, hj0eq⟩ := List.mem_iff_getElem.mp hp0mem
    have hj0v : (ri.values.flat[j0]).1 = v := by rw [hj0eq]; exact hp0v
    have hK1j0 : K1 ≤ j0 := by
      by_contra hc
      push_neg at hc
      have := (hchar1 j0 hj0).mpr hc
      rw [hj0v] at this
      exact lt_irrefl v this
    have hj0K2 : j0 < K2 := (hchar2 j0 hj0).mp (le_of_eq hj0v)
    have hK1lt : K1 < ri.values.flat.length := lt_of_le_of_lt hK1j0 hj0
    have hK1v : (ri.values.flat[K1]).1 = v := by
      have hnlt : ¬ (ri.values.flat[K1]).1 < v := by
        intro hlt
        have := (hchar1 K1 hK1lt).mp hlt
        omega
      have hle : (ri.values.flat[K1]).1 ≤ v :=
        le_of_le_of_eq (hmono K1 j0 hK1lt hj0 hK1j0) hj0v
      exact le_antisymm hle (not_lt.mp hnlt)
    have h0K2 : 0 < K2 := by omega
    have hK2m1 : K2 - 1 < ri.values.flat.length := by omega
    have hK2v : (ri.values.flat[K2 - 1]).1 = v := by
      have hle : (ri.values.flat[K2 - 1]).1 ≤ v := (hchar2 _ hK2m1).mpr (by omega)
      have hge : v ≤ (ri.values.flat[K2 - 1]).1 := by
        rw [← hj0v]
        exact hmono j0 (K2 - 1) hj0 hK2m1 (by omega)
      exact le_antisymm hle hge
    rw [List.getElem?_eq_getElem hK1lt] at hgf
    dsimp only at hgf
    rw [if_pos (show cmpV (ri.values.flat[K1]).1 v = Ordering.eq from
      (cmpV_eq_eq _ _).mpr hK1v)] at hgf
    rw [List.getElem?_eq_getElem hK2m1] at hgl
    dsimp only at hgl
    rw [if_pos ⟨h0K2, show cmpV (ri.values.flat[K2 - 1]).1 v = Ordering.eq from
      (cmpV_eq_eq _ _).mpr hK2v⟩] at hgl
    have heqv : ri.eq v = some (RBound.included K1, RBound.included (K2 - 1)) := by
      rw [RangeIndex.eq]
      simp only [hgf, hgl]
      rfl
    have hget : ri.get (RangeQuery.EQ v) = Query.orChain
        ((ri.ids.asSlices (RBound.included K1) (RBound.included (K2 - 1))).map
          (fun slice => Query.single (Queryable.ids slice) false)) false := by
      rw [RangeIndex.get]
      rw [heqv]
    have hidsflat : ri.ids.flat = ri.values.flat.map Prod.snd := by
      rw [ChunkedVec.flat, ChunkedVec.flat, halign]
      exact (List.map_flatten _ _).symm
    have hidslen : ri.ids.flat.length = ri.values.flat.length := by
      rw [hidsflat, List.length_map]
    have hslices := asSlices_incl_flatten ri.ids K1 (K2 - 1) (by omega)
      (by rw [hidslen]; omega)
    constructor
    · rw [hget, queryIDUnion_orChain, hslices, hidsflat]
      rw [← List.map_drop, ← List.map_take]
      have hq : ∀ j (hj : j < ri.values.flat.length),
          ((fun p => decide (p.1 = v)) ri.values.flat[j] = true ↔ (K1 ≤ j ∧ j < K2)) := by
        intro j hj
        simp only [decide_eq_true_eq]
        constructor
        · intro hv2
          refine ⟨?_, (hchar2 j hj).mp (le_of_eq hv2)⟩
          by_contra hc
          push_neg at hc
          have := (hchar1 j hj).mpr hc
          rw [hv2] at this
          exact lt_irrefl v this
        · rintro ⟨hj1, hj2⟩
          have hnlt : ¬ (ri.values.flat[j]).1 < v := by
            intro hlt
            have := (hchar1 j hj).mp hlt
            omega
          have hle : (ri.values.flat[j]).1 ≤ v := (hchar2 j hj).mpr hj2
          exact le_antisymm hle (not_lt.mp hnlt)
      rw [filter_eq_drop_take _ ri.values.flat K1 K2 hq]
      rw [List.drop_take]
      congr 2
      omega
    · intro hnone
      exact absurd hp0v (hnone p0 hp0mem)
  · have hgf2 : ri.values.getFirst (fun probe => cmpV probe.1 v) = Except.error K1 := by
      rcases hsc : ri.values.flat[K1]? with _ | x
      · rw [hsc] at hgf
        exact hgf
      · rw [hsc] at hgf
        dsimp only at hgf
        rw [if_neg ?hne2] at hgf
        case hne2 =>
          intro hc
          rw [cmpV_eq_eq] at hc
          rw [List.getElem?_eq_some_iff] at hsc
          obtain ⟨hxlt, rfl⟩ := hsc
          exact hex ⟨_, List.getElem_mem hxlt, hc⟩
        exact hgf
    have heqnone : ri.eq v = none := by
      rw [RangeIndex.eq]
      simp only [hgf2]
      rfl
    have hget : ri.get (RangeQuery.EQ v) = Query.single (Queryable.ids []) false := by
      rw [RangeIndex.get]
      rw [heqnone]
    refine ⟨?_, fun _ => hget⟩
    rw [hget]
    have hfilter : ri.values.flat.filter (fun p => decide (p.1 = v)) = [] := by
      rw [List.filter_eq_nil_iff]
      intro p hp
      simp only [decide_eq_true_eq]
      intro hc
      exact hex ⟨p, hp, hc⟩
    rw [hfilter]
    rfl

theorem c4_range_eq_correct_witness :
    queryIDUnion (riW.get (RangeQuery.EQ 2)) = [20, 21] := by
  have h := c4_range_eq_correct Nat riW 2 (by decide) (by decide) (by decide)
  exact h.1.trans (by decide)

/-! ### simplify (claims C2 and C8) -/

/-- `Query::is_empty` (src/query/util.rs): a chain node with no children
(`Single` is never empty). -/
def Query.isEmptyQ : Query T → Bool
  | .andChain cs _ => cs.isEmpty
  | .orChain cs _ => cs.isEmpty
  | .single _ _ => false

/-- Replace a node's `inverse` flag, keeping its item. -/
def Query.withInverse : Query T → Bool → Query T
  | .andChain cs _, b => .andChain cs b
  | .orChain cs _, b => .orChain cs b
  | .single t _, b => .single t b

/-- `Vec::dedup`: drop consecutive equal elements (each run of equal elements
collapses to one). -/
def dedupConsec [DecidableEq α] : List α → List α
  | [] => []
  | [a] => [a]
  | a :: b :: rest => if a = b then dedupConsec (b :: rest) else a :: dedupConsec (b :: rest)

mutual

/-- `Query::sort` (src/query/simplify.rs): sort every chain's children
recursively, then the children list itself.  Rust's stable `sort` on the
derived `Ord` of `Query<T>` is modelled by `List.mergeSort` with the order
passed in as `le`. -/
def sortQ (le : Query T → Query T → Bool) : Query T → Query T
  | .andChain cs i => .andChain ((sortList le cs).mergeSort le) i
  | .orChain cs i => .orChain ((sortList le cs).mergeSort le) i
  | .single t i => .single t i

/-- The `for item in items` recursion of `Query::sort`. -/
def sortList (le : Query T → Query T → Bool) : List (Query T) → List (Query T)
  | [] => []
  | c :: rest => sortQ le c :: sortList le rest

end

mutual

/-- `Query::dedup` (src/query/simplify.rs): dedup every chain's children
recursively, then the children list itself (`Vec::dedup`, i.e. consecutive
duplicates only). -/
def dedupQ [DecidableEq T] : Query T → Query T
  | .andChain cs i => .andChain (dedupConsec (dedupList cs)) i
  | .orChain cs i => .orChain (dedupConsec (dedupList cs)) i
  | .single t i => .single t i

/-- The `for item in items` recursion of `Query::dedup`. -/
def dedupList [DecidableEq T] : List (Query T) → List (Query T)
  | [] => []
  | c :: rest => dedupQ c :: dedupList rest

end

mutual

/-- `Query::remove_empty` (src/query/simplify.rs): `retain_mut` first
recursively removes empties inside each child, then drops the child if it
became an empty chain. -/
def removeEmptyQ : Query T → Query T
  | .andChain cs i => .andChain ((removeEmptyList cs).filter (fun c => ! c.isEmptyQ)) i
  | .orChain cs i => .orChain ((removeEmptyList cs).filter (fun c => ! c.isEmptyQ)) i
  | .single t i => .single t i

def removeEmptyList : List (Query T) → List (Query T)
  | [] => []
  | c :: rest => removeEmptyQ c :: removeEmptyList rest

end

/-- Does the node match `Item::AndChain(_)`? -/
def Query.isAndChainB : Query T → Bool
  | .andChain _ _ => true
  | _ => false

/-- Does the node match `Item::OrChain(_)`? -/
def Query.isOrChainB : Query T → Bool
  | .orChain _ _ => true
  | _ => false

/-- The grandchildren pushed back by `remove_redundant_chains` for one
redundant chain child: its children, each with the chain's `inverse` XORed
into its own (`inner_item.inverse ^= item.inverse`). -/
def spliceChildren : Query T → List (Query T)
  | .andChain gs gi => gs.map (fun g => g.withInverse (g.inverse ^^ gi))
  | .orChain gs gi => gs.map (fun g => g.withInverse (g.inverse ^^ gi))
  | .single _ _ => []

mutual

/-- `Query::remove_redundant_chains` (src/query/simplify.rs): recurse into
the children, then move every direct child of the same chain kind out
(the `while` loop removes them in order, keeping the rest in order) and push
the removed chains' children at the end of the list. -/
def removeRedundantQ : Query T → Query T
  | .andChain cs i =>
    let cs2 := removeRedundantList cs
    .andChain ((cs2.filter (fun c => ! c.isAndChainB)) ++
      ((cs2.filter (fun c => c.isAndChainB)).map spliceChildren).flatten) i
  | .orChain cs i =>
    let cs2 := removeRedundantList cs
    .orChain ((cs2.filter (fun c => ! c.isOrChainB)) ++
      ((cs2.filter (fun c => c.isOrChainB)).map spliceChildren).flatten) i
  | .single t i => .single t i

def removeRedundantList : List (Query T) → List (Query T)
  | [] => []
  | c :: rest => removeRedundantQ c :: removeRedundantList rest

end

mutual

/-- `Query::remove_single_chains` (src/query/simplify.rs): process, sort and
dedup each child, sort and dedup the children list, and if exactly one child
remains splice it into this node (`self.inverse ^= item.inverse;
self.item = item.item`). -/
def removeSingleChains [DecidableEq T] (le : Query T → Query T → Bool) :
    Query T → Query T
  | .andChain cs i =>
    match dedupConsec ((rscList le cs).mergeSort le) with
    | [c] => c.withInverse (i ^^ c.inverse)
    | cs2 => .andChain cs2 i
  | .orChain cs i =>
    match dedupConsec ((rscList le cs).mergeSort le) with
    | [c] => c.withInverse (i ^^ c.inverse)
    | cs2 => .orChain cs2 i
  | .single t i => .single t i

/-- The per-child `remove_single_chains(); sort(); dedup()` loop. -/
def rscList [DecidableEq T] (le : Query T → Query T → Bool) :
    List (Query T) → List (Query T)
  | [] => []
  | c :: rest => dedupQ (sortQ le (removeSingleChains le c)) :: rscList le rest

end

/-- `Query::simplify` (src/query/simplify.rs): the five passes in order. -/
def simplifyQ [DecidableEq T] (le : Query T → Query T → Bool) (q : Query T) : Query T :=
  dedupQ (sortQ le (removeEmptyQ (removeRedundantQ (removeSingleChains le q))))

/-- `Ord::cmp` on `bool` (`false < true`). -/
def cmpBool : Bool → Bool → Ordering
  | false, false => Ordering.eq
  | false, true => Ordering.lt
  | true, false => Ordering.gt
  | true, true => Ordering.eq

mutual

/-- The `derive(Ord)` order on `Query<T>` given `Ord` on `T`: compare `item`
first (variant order `AndChain < OrChain < Single`, payloads lexicographic),
then `inverse`. -/
def cmpQuery (cmpT : T → T → Ordering) : Query T → Query T → Ordering
  | .andChain cs1 i1, .andChain cs2 i2 => (cmpQList cmpT cs1 cs2).then (cmpBool i1 i2)
  | .andChain _ _, .orChain _ _ => Ordering.lt
  | .andChain _ _, .single _ _ => Ordering.lt
  | .orChain _ _, .andChain _ _ => Ordering.gt
  | .orChain cs1 i1, .orChain cs2 i2 => (cmpQList cmpT cs1 cs2).then (cmpBool i1 i2)
  | .orChain _ _, .single _ _ => Ordering.lt
  | .single _ _, .andChain _ _ => Ordering.gt
  | .single _ _, .orChain _ _ => Ordering.gt
  | .single t1 i1, .single t2 i2 => (cmpT t1 t2).then (cmpBool i1 i2)

/-- Lexicographic `Ord` on `Vec<Query<T>>`. -/
def cmpQList (cmpT : T → T → Ordering) : List (Query T) → List (Query T) → Ordering
  | [], [] => Ordering.eq
  | [], _ :: _ => Ordering.lt
  | _ :: _, [] => Ordering.gt
  | a :: as2, b :: bs2 => (cmpQuery cmpT a b).then (cmpQList cmpT as2 bs2)

end

/-- `a <= b` as used by `slice::sort` on the derived order. -/
def leQuery (cmpT : T → T → Ordering) (a b : Query T) : Bool :=
  match cmpQuery cmpT a b with
  | Ordering.gt => false
  | _ => true

/-- `Ord::cmp` on `u64`-like naturals. -/
def cmpNat (a b : Nat) : Ordering :=
  if a < b then Ordering.lt else if a = b then Ordering.eq else Ordering.gt

/-- Lexicographic order on word/id lists. -/
def cmpNatList : List Nat → List Nat → Ordering
  | [], [] => Ordering.eq
  | [], _ :: _ => Ordering.lt
  | _ :: _, [] => Ordering.gt
  | a :: as2, b :: bs2 => (cmpNat a b).then (cmpNatList as2 bs2)

/-- A total order on resolved queryables (the source never instantiates
`Ord` for `Queryable`; this derived-style order stands in for any lawful
instance when `simplify` is applied to resolved ASTs). -/
def cmpQueryable : Queryable → Queryable → Ordering
  | .checks a, .checks b => cmpNatList a b
  | .checks _, .ids _ => Ordering.lt
  | .ids _, .checks _ => Ordering.gt
  | .ids a, .ids b => cmpNatList a b

mutual

/-- Normal form for `simplify`: every chain has at least two children, kept
sorted (for the comparator `le`) without consecutive duplicates, no child is
a chain of the same kind, no child is an empty chain, and all children are
themselves in normal form.  `simplify` is the identity on such ASTs. -/
def nfQ [DecidableEq T] (le : Query T → Query T → Bool) : Query T → Bool
  | .andChain cs _ =>
      decide (2 ≤ cs.length) && decide (cs.Pairwise (fun a b => le a b = true)) &&
      decide (dedupConsec cs = cs) &&
      cs.all (fun c => (! c.isAndChainB) && (! c.isEmptyQ)) && nfListQ le cs
  | .orChain cs _ =>
      decide (2 ≤ cs.length) && decide (cs.Pairwise (fun a b => le a b = true)) &&
      decide (dedupConsec cs = cs) &&
      cs.all (fun c => (! c.isOrChainB) && (! c.isEmptyQ)) && nfListQ le cs
  | .single _ _ => true

def nfListQ [DecidableEq T] (le : Query T → Query T → Bool) : List (Query T) → Bool
  | [] => true
  | c :: rest => nfQ le c && nfListQ le rest

end

mutual

theorem sortQ_nf [DecidableEq T] (le : Query T → Query T → Bool) :
    ∀ q : Query T, nfQ le q = true → sortQ le q = q
  | .andChain cs i, h => by
    rw [nfQ] at h
    simp only [Bool.and_eq_true, decide_eq_true_eq] at h
    rw [sortQ, sortList_nf le cs h.2, List.mergeSort_of_sorted h.1.1.1.2]
  | .orChain cs i, h => by
    rw [nfQ] at h
    simp only [Bool.and_eq_true, decide_eq_true_eq] at h
    rw [sortQ, sortList_nf le cs h.2, List.mergeSort_of_sorted h.1.1.1.2]
  | .single t i, _ => rfl

theorem sortList_nf [DecidableEq T] (le : Query T → Query T → Bool) :
    ∀ cs : List (Query T), nfListQ le cs = true → sortList le cs = cs
  | [], _ => rfl
  | c :: rest, h => by
    rw [nfListQ] at h
    simp only [Bool.and_eq_true] at h
    rw [sortList, sortQ_nf le c h.1, sortList_nf le rest h.2]

end

mutual

theorem dedupQ_nf [DecidableEq T] (le : Query T → Query T → Bool) :
    ∀ q : Query T, nfQ le q = true → dedupQ q = q
  | .andChain cs i, h => by
    rw [nfQ] at h
    simp only [Bool.and_eq_true, decide_eq_true_eq] at h
    rw [dedupQ, dedupList_nf le cs h.2, h.1.1.2]
  | .orChain cs i, h => by
    rw [nfQ] at h
    simp only [Bool.and_eq_true, decide_eq_true_eq] at h
    rw [dedupQ, dedupList_nf le cs h.2, h.1.1.2]
  | .single t i, _ => rfl

theorem dedupList_nf [DecidableEq T] (le : Query T → Query T → Bool) :
    ∀ cs : List (Query T), nfListQ le cs = true → dedupList cs = cs
  | [], _ => rfl
  | c :: rest, h => by
    rw [nfListQ] at h
    simp only [Bool.and_eq_true] at h
    rw [dedupList, dedupQ_nf le c h.1, dedupList_nf le rest h.2]

end

mutual

theorem rsc_nf [DecidableEq T] (le : Query T → Query T → Bool) :
    ∀ q : Query T, nfQ le q = true → removeSingleChains le q = q
  | .andChain cs i, h => by
    have h2 := h
    rw [nfQ] at h2
    simp only [Bool.and_eq_true, decide_eq_true_eq] at h2
    have hlist : rscList le cs = cs := rscList_nf le cs h2.2
    rw [removeSingleChains, hlist, List.mergeSort_of_sorted h2.1.1.1.2, h2.1.1.2]
    rcases cs with _ | ⟨a, _ | ⟨b, rest⟩⟩
    · rfl
    · exact absurd h2.1.1.1.1 (by simp)
    · rfl
  | .orChain cs i, h => by
    have h2 := h
    rw [nfQ] at h2
    simp only [Bool.and_eq_true, decide_eq_true_eq] at h2
    have hlist : rscList le cs = cs := rscList_nf le cs h2.2
    rw [removeSingleChains, hlist, List.mergeSort_of_sorted h2.1.1.1.2, h2.1.1.2]
    rcases cs with _ | ⟨a, _ | ⟨b, rest⟩⟩
    · rfl
    · exact absurd h2.1.1.1.1 (by simp)
    · rfl
  | .single t i, _ => rfl

theorem rscList_nf [DecidableEq T] (le : Query T → Query T → Bool) :
    ∀ cs : List (Query T), nfListQ le cs = true → rscList le cs = cs
  | [], _ => rfl
  | c :: rest, h => by
    rw [nfListQ] at h
    simp only [Bool.and_eq_true] at h
    rw [rscList, rsc_nf le c h.1, sortQ_nf le c h.1, dedupQ_nf le c h.1,
      rscList_nf le rest h.2]

end

mutual

theorem rrc_nf [DecidableEq T] (le : Query T → Query T → Bool) :
    ∀ q : Query T, nfQ le q = true → removeRedundantQ q = q
  | .andChain cs i, h => by
    rw [nfQ] at h
    simp only [Bool.and_eq_true, decide_eq_true_eq, List.all_eq_true] at h
    have hall := h.1.2
    have hlist : removeRedundantList cs = cs := rrcList_nf le cs h.2
    rw [removeRedundantQ]
    simp only [hlist]
    have hkeep : cs.filter (fun c => ! c.isAndChainB) = cs := by
      rw [List.filter_eq_self]
      intro c hc
      have h3 := hall c hc
      simp only [Bool.and_eq_true, Bool.not_eq_true'] at h3
      simp [h3.1]
    have hnone : cs.filter (fun c => c.isAndChainB) = [] := by
      rw [List.filter_eq_nil_iff]
      intro c hc
      have h3 := hall c hc
      simp only [Bool.and_eq_true, Bool.not_eq_true'] at h3
      simp [h3.1]
    rw [hkeep, hnone]
    simp
  | .orChain cs i, h => by
    rw [nfQ] at h
    simp only [Bool.and_eq_true, decide_eq_true_eq, List.all_eq_true] at h
    have hall := h.1.2
    have hlist : removeRedundantList cs = cs := rrcList_nf le cs h.2
    rw [removeRedundantQ]
    simp only [hlist]
    have hkeep : cs.filter (fun c => ! c.isOrChainB) = cs := by
      rw [List.filter_eq_self]
      intro c hc
      have h3 := hall c hc
      simp only [Bool.and_eq_true, Bool.not_eq_true'] at h3
      simp [h3.1]
    have hnone : cs.filter (fun c => c.isOrChainB) = [] := by
      rw [List.filter_eq_nil_iff]
      intro c hc
      have h3 := hall c hc
      simp only [Bool.and_eq_true, Bool.not_eq_true'] at h3
      simp [h3.1]
    rw [hkeep, hnone]
    simp
  | .single t i, _ => rfl

theorem rrcList_nf [DecidableEq T] (le : Query T → Query T → Bool) :
    ∀ cs : List (Query T), nfListQ le cs = true → removeRedundantList cs = cs
  | [], _ => rfl
  | c :: rest, h => by
    rw [nfListQ] at h
    simp only [Bool.and_eq_true] at h
    rw [removeRedundantList, rrc_nf le c h.1, rrcList_nf le rest h.2]

end

mutual

theorem removeEmptyQ_nf [DecidableEq T] (le : Query T → Query T → Bool) :
    ∀ q : Query T, nfQ le q = true → removeEmptyQ q = q
  | .andChain cs i, h => by
    rw [nfQ] at h
    simp only [Bool.and_eq_true, decide_eq_true_eq, List.all_eq_true] at h
    have hlist : removeEmptyList cs = cs := removeEmptyList_nf le cs h.2
    rw [removeEmptyQ]
    simp only [hlist]
    have hkeep : cs.filter (fun c => ! c.isEmptyQ) = cs := by
      rw [List.filter_eq_self]
      intro c hc
      have h3 := h.1.2 c hc
      simp only [Bool.and_eq_true, Bool.not_eq_true'] at h3
      simp [h3.2]
    rw [hkeep]
  | .orChain cs i, h => by
    rw [nfQ] at h
    simp only [Bool.and_eq_true, decide_eq_true_eq, List.all_eq_true] at h
    have hlist : removeEmptyList cs = cs := removeEmptyList_nf le cs h.2
    rw [removeEmptyQ]
    simp only [hlist]
    have hkeep : cs.filter (fun c => ! c.isEmptyQ) = cs := by
      rw [List.filter_eq_self]
      intro c hc
      have h3 := h.1.2 c hc
      simp only [Bool.and_eq_true, Bool.not_eq_true'] at h3
      simp [h3.2]
    rw [hkeep]
  | .single t i, _ => rfl

theorem removeEmptyList_nf [DecidableEq T] (le : Query T → Query T → Bool) :
    ∀ cs : List (Query T), nfListQ le cs = true → removeEmptyList cs = cs
  | [], _ => rfl
  | c :: rest, h => by
    rw [nfListQ] at h
    simp only [Bool.and_eq_true] at h
    rw [removeEmptyList, removeEmptyQ_nf le c h.1, removeEmptyList_nf le rest h.2]

end

/-- The AST `(0 and (() or 1))` over `T = Nat`: an AndChain holding a Single
and an OrChain whose children are an empty AndChain and a Single. -/
def c8X : Query Nat :=
  Query.andChain [Query.single 0 false,
    Query.orChain [Query.andChain [] false, Query.single 1 false] false] false

/-- C8 counterexample: one `simplify` of `(0 and (() or 1))` leaves
`OrChain [Single 1]` behind (`remove_empty` runs after
`remove_single_chains`, exposing a new single-child chain), and a second
`simplify` collapses that chain, so the first result is not a fixed point. -/
theorem c8_idempotent_counterexample :
    simplifyQ (leQuery cmpNat) c8X =
      Query.andChain [Query.orChain [Query.single 1 false] false,
        Query.single 0 false] false ∧
    simplifyQ (leQuery cmpNat) (simplifyQ (leQuery cmpNat) c8X) =
      Query.andChain [Query.single 0 false, Query.single 1 false] false ∧
    simplifyQ (leQuery cmpNat) (simplifyQ (leQuery cmpNat) c8X) ≠
      simplifyQ (leQuery cmpNat) c8X := by
  have h1 : simplifyQ (leQuery cmpNat) c8X =
      Query.andChain [Query.orChain [Query.single 1 false] false,
        Query.single 0 false] false := by
    simp [simplifyQ, c8X, removeSingleChains, rscList, sortQ, sortList, dedupQ, dedupList,
      dedupConsec, removeRedundantQ, removeRedundantList, removeEmptyQ, removeEmptyList,
      Query.isEmptyQ, Query.isAndChainB, Query.isOrChainB, spliceChildren, Query.withInverse,
      List.mergeSort, List.merge, Query.inverse, leQuery, cmpQuery, cmpQList, cmpNat, cmpBool]
  have h2 : simplifyQ (leQuery cmpNat)
      (Query.andChain [Query.orChain [Query.single 1 false] false,
        Query.single 0 false] false) =
      Query.andChain [Query.single 0 false, Query.single 1 false] false := by
    simp [simplifyQ, removeSingleChains, rscList, sortQ, sortList, dedupQ, dedupList,
      dedupConsec, removeRedundantQ, removeRedundantList, removeEmptyQ, removeEmptyList,
      Query.isEmptyQ, Query.isAndChainB, Query.isOrChainB, spliceChildren, Query.withInverse,
      List.mergeSort, List.merge, Query.inverse, leQuery, cmpQuery, cmpQList, cmpNat, cmpBool]
  rw [h1, h2]
  refine ⟨rfl, rfl, by decide⟩

/-- C8 amended: `simplify` is not idempotent in general, but it is the
identity — hence idempotent — on ASTs in normal form: every chain has at
least two children, kept sorted (for the order used by `sort`) without
consecutive duplicates, with no direct same-kind chain nesting and no
empty-chain children. -/
theorem c8_idempotent_amended [DecidableEq T] (le : Query T → Query T → Bool)
    (q : Query T) (h : nfQ le q = true) : simplifyQ le q = q := by
  rw [simplifyQ, rsc_nf le q h, rrc_nf le q h, removeEmptyQ_nf le q h, sortQ_nf le q h,
    dedupQ_nf le q h]

/-- A two-child and-chain in normal form. -/
def c8NF : Query Nat :=
  Query.andChain [Query.single 0 false, Query.single 1 false] false

theorem c8_idempotent_amended_witness :
    nfQ (leQuery cmpNat) c8NF = true ∧ simplifyQ (leQuery cmpNat) c8NF = c8NF :=
  ⟨by decide, c8_idempotent_amended (leQuery cmpNat) c8NF (by decide)⟩

/-- `(T0 and (or))` over resolved queryables: the tag `{0}` conjoined with an
empty or-chain (which matches nothing). -/
def c2X : Query Queryable :=
  Query.andChain [Query.single (Queryable.ids [0]) false, Query.orChain [] false] false

/-- C2 counterexample: over the one-word alive-set `[1]` (record 0 alive),
the AST with an empty or-chain child evaluates to the empty bitmap, but
`simplify` (via `remove_empty`) deletes the empty or-chain child, and the
simplified AST evaluates to `{0}`. -/
theorem c2_simplify_counterexample :
    Query.run c2X [1] = [0] ∧
    Query.run (simplifyQ (leQuery cmpQueryable) c2X) [1] = [1] ∧
    Query.run (simplifyQ (leQuery cmpQueryable) c2X) [1] ≠ Query.run c2X [1] := by
  have h1 : simplifyQ (leQuery cmpQueryable) c2X =
      Query.andChain [Query.single (Queryable.ids [0]) false] false := by
    simp [simplifyQ, c2X, removeSingleChains, rscList, sortQ, sortList, dedupQ, dedupList,
      dedupConsec, removeRedundantQ, removeRedundantList, removeEmptyQ, removeEmptyList,
      Query.isEmptyQ, Query.isAndChainB, Query.isOrChainB, spliceChildren, Query.withInverse,
      List.mergeSort, List.merge, Query.inverse, leQuery, cmpQuery, cmpQList, cmpQueryable, cmpNatList, cmpNat, cmpBool]
  rw [h1]
  refine ⟨by decide, by decide, by decide⟩

mutual

/-- No node of the AST carries `inverse = true`. -/
def invFree : Query T → Bool
  | .andChain cs i => !i && invFreeList cs
  | .orChain cs i => !i && invFreeList cs
  | .single _ i => !i

def invFreeList : List (Query T) → Bool
  | [] => true
  | c :: rest => invFree c && invFreeList rest

end

mutual

/-- Every chain node of the AST has at least one child. -/
def noEmptyChains : Query T → Bool
  | .andChain cs _ => !cs.isEmpty && noEmptyChainsList cs
  | .orChain cs _ => !cs.isEmpty && noEmptyChainsList cs
  | .single _ _ => true

def noEmptyChainsList : List (Query T) → Bool
  | [] => true
  | c :: rest => noEmptyChains c && noEmptyChainsList rest

end

/-- A resolved leaf is well formed for an alive-set of `len` words when a
bitmap leaf spans at least `len` words, all of them `u64`-bounded. -/
def leafOk (len : Nat) : Queryable → Bool
  | .checks ws => decide (len ≤ ws.length) && ws.all (fun w => decide (w < 2 ^ 64))
  | .ids _ => true

mutual

def leavesOk (len : Nat) : Query Queryable → Bool
  | .andChain cs _ => leavesOkList len cs
  | .orChain cs _ => leavesOkList len cs
  | .single t _ => leafOk len t

def leavesOkList (len : Nat) : List (Query Queryable) → Bool
  | [] => true
  | c :: rest => leavesOk len c && leavesOkList len rest

end

/-- All three well-formedness conditions at once. -/
def goodQ (len : Nat) (q : Query Queryable) : Bool :=
  invFree q && noEmptyChains q && leavesOk len q

/-- The word-level denotation of a resolved leaf: the tag's mask word. -/
def leafWord (t : Queryable) (len i : Nat) : Nat :=
  match t with
  | .checks ws => wordAt ws i
  | .ids l => wordAt (applyIds l len false) i

mutual

/-- Word `i` of the set denoted by an inverse-free AST over a `len`-word
universe: chains intersect / unite their children's sets. -/
def semW (len i : Nat) : Query Queryable → Nat
  | .andChain cs _ => semAllW len i cs
  | .orChain cs _ => semAnyW len i cs
  | .single t _ => leafWord t len i

def semAllW (len i : Nat) : List (Query Queryable) → Nat
  | [] => packedMax
  | c :: rest => semW len i c &&& semAllW len i rest

def semAnyW (len i : Nat) : List (Query Queryable) → Nat
  | [] => 0
  | c :: rest => semW len i c ||| semAnyW len i rest

end

theorem packedMax_lt : packedMax < 2 ^ 64 :=
  Nat.sub_lt (Nat.two_pow_pos 64) one_pos

theorem lor_lt_two_pow (a b n : Nat) (ha : a < 2 ^ n) (hb : b < 2 ^ n) :
    (a ||| b) < 2 ^ n := Nat.or_lt_two_pow ha hb

theorem wordAt_lt_of_all (ws : List Nat) (j : Nat)
    (h : ∀ w ∈ ws, w < 2 ^ 64) : wordAt ws j < 2 ^ 64 := by
  by_cases hj : j < ws.length
  · have : wordAt ws j = ws[j] := by
      simp [wordAt, List.getD_eq_getElem?_getD, List.getElem?_eq_getElem hj]
    rw [this]
    exact h _ (List.getElem_mem hj)
  · rw [wordAt_of_le _ _ (by omega)]
    exact Nat.two_pow_pos 64

theorem wordAt_applyIds_false_lt (l : List Nat) (len i : Nat) :
    wordAt (applyIds l len false) i < 2 ^ 64 := by
  have hgen : ∀ (l2 : List Nat) (x : List Nat), (∀ j, wordAt x j < 2 ^ 64) →
      ∀ j, wordAt (l2.foldl (applyId (fun w b => w ||| b)) x) j < 2 ^ 64 := by
    intro l2
    induction l2 with
    | nil => intro x hx j; exact hx j
    | cons id rest ih =>
      intro x hx j
      rw [List.foldl_cons]
      refine ih _ ?_ j
      intro j2
      rw [wordAt_applyId]
      split
      · refine lor_lt_two_pow _ _ _ (hx _) ?_
        rw [shiftLeft_one_eq]
        exact Nat.pow_lt_pow_right (by omega) (Nat.mod_lt _ (by omega))
      · exact hx j2
  simp only [applyIds, Bool.false_eq_true, if_false]
  refine hgen l _ ?_ i
  intro j
  rw [wordAt_replicate]
  split <;> exact Nat.two_pow_pos 64

theorem leafWord_lt (t : Queryable) (len i : Nat) (h : leafOk len t = true) :
    leafWord t len i < 2 ^ 64 := by
  cases t with
  | checks ws =>
    rw [leafOk] at h
    simp only [Bool.and_eq_true, decide_eq_true_eq, List.all_eq_true] at h
    exact wordAt_lt_of_all ws i (fun w hw => by simpa using h.2 w hw)
  | ids l => exact wordAt_applyIds_false_lt l len i

mutual

theorem semW_lt (len i : Nat) :
    ∀ q : Query Queryable, leavesOk len q = true → semW len i q < 2 ^ 64
  | .andChain cs _, h => by
    rw [semW]
    exact semAllW_lt len i cs (by rw [leavesOk] at h; exact h)
  | .orChain cs _, h => by
    rw [semW]
    exact semAnyW_lt len i cs (by rw [leavesOk] at h; exact h)
  | .single t _, h => by
    rw [semW]
    exact leafWord_lt t len i (by rw [leavesOk] at h; exact h)

theorem semAllW_lt (len i : Nat) :
    ∀ cs : List (Query Queryable), leavesOkList len cs = true →
      semAllW len i cs < 2 ^ 64
  | [], _ => packedMax_lt
  | c :: rest, h => by
    rw [semAllW]
    have h2 : leavesOk len c = true ∧ leavesOkList len rest = true := by
      rw [leavesOkList] at h
      simpa using h
    exact Nat.lt_of_le_of_lt Nat.and_le_left (semW_lt len i c h2.1)

theorem semAnyW_lt (len i : Nat) :
    ∀ cs : List (Query Queryable), leavesOkList len cs = true →
      semAnyW len i cs < 2 ^ 64
  | [], _ => Nat.two_pow_pos 64
  | c :: rest, h => by
    rw [semAnyW]
    have h2 : leavesOk len c = true ∧ leavesOkList len rest = true := by
      rw [leavesOkList] at h
      simpa using h
    exact lor_lt_two_pow _ _ _ (semW_lt len i c h2.1) (semAnyW_lt len i rest h2.2)

end

theorem packedMax_land (x : Nat) (hx : x < 2 ^ 64) : packedMax &&& x = x := by
  refine Nat.eq_of_testBit_eq (fun k => ?_)
  rw [Nat.testBit_land, testBit_packedMax]
  by_cases hk : k < 64
  · simp [hk]
  · have : x.testBit k = false := Nat.testBit_lt_two_pow (lt_of_lt_of_le hx
      (Nat.pow_le_pow_right (by omega) (by omega)))
    simp [hk, this]

theorem land_packedMax (x : Nat) (hx : x < 2 ^ 64) : x &&& packedMax = x := by
  rw [Nat.land_comm]
  exact packedMax_land x hx

theorem semAllW_perm (len i : Nat) {l1 l2 : List (Query Queryable)} (h : l1.Perm l2) :
    semAllW len i l1 = semAllW len i l2 := by
  induction h with
  | nil => rfl
  | cons x h2 ih => rw [semAllW, semAllW, ih]
  | swap x y l =>
    rw [semAllW, semAllW, semAllW, semAllW, ← Nat.land_assoc, ← Nat.land_assoc,
      Nat.land_comm (semW len i y) (semW len i x)]
  | trans h1 h2 ih1 ih2 => rw [ih1, ih2]

theorem semAnyW_perm (len i : Nat) {l1 l2 : List (Query Queryable)} (h : l1.Perm l2) :
    semAnyW len i l1 = semAnyW len i l2 := by
  induction h with
  | nil => rfl
  | cons x h2 ih => rw [semAnyW, semAnyW, ih]
  | swap x y l =>
    rw [semAnyW, semAnyW, semAnyW, semAnyW, ← Nat.lor_assoc, ← Nat.lor_assoc,
      Nat.lor_comm (semW len i y) (semW len i x)]
  | trans h1 h2 ih1 ih2 => rw [ih1, ih2]

mutual

/-- `sort` does not change the denoted set (union and intersection are
commutative). -/
theorem semW_sortQ (len i : Nat) (le : Query Queryable → Query Queryable → Bool) :
    ∀ q : Query Queryable, semW len i (sortQ le q) = semW len i q
  | .andChain cs j => by
    rw [sortQ, semW, semW, semAllW_perm len i (List.mergeSort_perm (sortList le cs) le),
      semAllW_sortList len i le cs]
  | .orChain cs j => by
    rw [sortQ, semW, semW, semAnyW_perm len i (List.mergeSort_perm (sortList le cs) le),
      semAnyW_sortList len i le cs]
  | .single t j => rfl

theorem semAllW_sortList (len i : Nat) (le : Query Queryable → Query Queryable → Bool) :
    ∀ cs : List (Query Queryable), semAllW len i (sortList le cs) = semAllW len i cs
  | [] => rfl
  | c :: rest => by
    rw [sortList, semAllW, semAllW, semW_sortQ len i le c, semAllW_sortList len i le rest]

theorem semAnyW_sortList (len i : Nat) (le : Query Queryable → Query Queryable → Bool) :
    ∀ cs : List (Query Queryable), semAnyW len i (sortList le cs) = semAnyW len i cs
  | [] => rfl
  | c :: rest => by
    rw [sortList, semAnyW, semAnyW, semW_sortQ len i le c, semAnyW_sortList len i le rest]

end

theorem semAllW_dedupConsec (len i : Nat) :
    ∀ l : List (Query Queryable), semAllW len i (dedupConsec l) = semAllW len i l
  | [] => rfl
  | [a] => rfl
  | a :: b :: rest => by
    rw [dedupConsec]
    by_cases hab : a = b
    · rw [if_pos hab, semAllW_dedupConsec len i (b :: rest), hab]
      conv_rhs => rw [semAllW, semAllW, ← Nat.land_assoc, Nat.and_self]
      rw [semAllW]
    · rw [if_neg hab]
      conv_lhs => rw [semAllW]
      rw [semAllW_dedupConsec len i (b :: rest)]
      conv_rhs => rw [semAllW]

theorem semAnyW_dedupConsec (len i : Nat) :
    ∀ l : List (Query Queryable), semAnyW len i (dedupConsec l) = semAnyW len i l
  | [] => rfl
  | [a] => rfl
  | a :: b :: rest => by
    rw [dedupConsec]
    by_cases hab : a = b
    · rw [if_pos hab, semAnyW_dedupConsec len i (b :: rest), hab]
      conv_rhs => rw [semAnyW, semAnyW, ← Nat.lor_assoc, Nat.or_self]
      rw [semAnyW]
    · rw [if_neg hab]
      conv_lhs => rw [semAnyW]
      rw [semAnyW_dedupConsec len i (b :: rest)]
      conv_rhs => rw [semAnyW]

mutual

/-- `dedup` does not change the denoted set (union and intersection are
idempotent). -/
theorem semW_dedupQ (len i : Nat) :
    ∀ q : Query Queryable, semW len i (dedupQ q) = semW len i q
  | .andChain cs j => by
    rw [dedupQ, semW, semW, semAllW_dedupConsec len i (dedupList cs),
      semAllW_dedupList len i cs]
  | .orChain cs j => by
    rw [dedupQ, semW, semW, semAnyW_dedupConsec len i (dedupList cs),
      semAnyW_dedupList len i cs]
  | .single t j => rfl

theorem semAllW_dedupList (len i : Nat) :
    ∀ cs : List (Query Queryable), semAllW len i (dedupList cs) = semAllW len i cs
  | [] => rfl
  | c :: rest => by
    rw [dedupList, semAllW, semAllW, semW_dedupQ len i c, semAllW_dedupList len i rest]

theorem semAnyW_dedupList (len i : Nat) :
    ∀ cs : List (Query Queryable), semAnyW len i (dedupList cs) = semAnyW len i cs
  | [] => rfl
  | c :: rest => by
    rw [dedupList, semAnyW, semAnyW, semW_dedupQ len i c, semAnyW_dedupList len i rest]

end

/-- The denotation ignores the `inverse` flag (it is only meaningful for
inverse-free ASTs). -/
theorem semW_withInverse (len i : Nat) (q : Query Queryable) (b : Bool) :
    semW len i (q.withInverse b) = semW len i q := by
  cases q <;> rfl

theorem invFreeList_iff {T : Type} :
    ∀ cs : List (Query T), invFreeList cs = true ↔ ∀ c ∈ cs, invFree c = true
  | [] => by simp [invFreeList]
  | c :: rest => by
    rw [invFreeList, Bool.and_eq_true, invFreeList_iff rest, List.forall_mem_cons]

theorem noEmptyChainsList_iff {T : Type} :
    ∀ cs : List (Query T), noEmptyChainsList cs = true ↔ ∀ c ∈ cs, noEmptyChains c = true
  | [] => by simp [noEmptyChainsList]
  | c :: rest => by
    rw [noEmptyChainsList, Bool.and_eq_true, noEmptyChainsList_iff rest,
      List.forall_mem_cons]

theorem leavesOkList_iff (len : Nat) :
    ∀ cs : List (Query Queryable), leavesOkList len cs = true ↔
      ∀ c ∈ cs, leavesOk len c = true
  | [] => by simp [leavesOkList]
  | c :: rest => by
    rw [leavesOkList, Bool.and_eq_true, leavesOkList_iff len rest, List.forall_mem_cons]

/-- The combined condition on every child of a chain. -/
def goodList (len : Nat) (cs : List (Query Queryable)) : Bool :=
  invFreeList cs && noEmptyChainsList cs && leavesOkList len cs

theorem goodList_iff (len : Nat) (cs : List (Query Queryable)) :
    goodList len cs = true ↔ ∀ c ∈ cs, goodQ len c = true := by
  rw [goodList, Bool.and_eq_true, Bool.and_eq_true, invFreeList_iff,
    noEmptyChainsList_iff, leavesOkList_iff]
  constructor
  · rintro ⟨⟨h1, h2⟩, h3⟩ c hc
    rw [goodQ, Bool.and_eq_true, Bool.and_eq_true]
    exact ⟨⟨h1 c hc, h2 c hc⟩, h3 c hc⟩
  · intro h
    refine ⟨⟨fun c hc => ?_, fun c hc => ?_⟩, fun c hc => ?_⟩
    · have h2 := h c hc
      rw [goodQ, Bool.and_eq_true, Bool.and_eq_true] at h2
      exact h2.1.1
    · have h2 := h c hc
      rw [goodQ, Bool.and_eq_true, Bool.and_eq_true] at h2
      exact h2.1.2
    · have h2 := h c hc
      rw [goodQ, Bool.and_eq_true, Bool.and_eq_true] at h2
      exact h2.2

theorem goodQ_andChain (len : Nat) (cs : List (Query Queryable)) (i : Bool) :
    goodQ len (Query.andChain cs i) = true ↔
      i = false ∧ cs ≠ [] ∧ goodList len cs = true := by
  rw [goodQ, invFree, noEmptyChains, leavesOk, goodList]
  simp only [Bool.and_eq_true, Bool.not_eq_true', List.isEmpty_eq_false]
  tauto

theorem goodQ_orChain (len : Nat) (cs : List (Query Queryable)) (i : Bool) :
    goodQ len (Query.orChain cs i) = true ↔
      i = false ∧ cs ≠ [] ∧ goodList len cs = true := by
  rw [goodQ, invFree, noEmptyChains, leavesOk, goodList]
  simp only [Bool.and_eq_true, Bool.not_eq_true', List.isEmpty_eq_false]
  tauto

theorem goodQ_single (len : Nat) (t : Queryable) (i : Bool) :
    goodQ len (Query.single t i) = true ↔ i = false ∧ leafOk len t = true := by
  rw [goodQ, invFree, noEmptyChains, leavesOk]
  simp only [Bool.and_eq_true, Bool.not_eq_true', true_and, and_true]

theorem goodQ_withInverse (len : Nat) (q : Query Queryable)
    (h : goodQ len q = true) : goodQ len (q.withInverse false) = true := by
  cases q with
  | andChain cs i =>
    rw [Query.withInverse, goodQ_andChain]
    rw [goodQ_andChain] at h
    exact ⟨rfl, h.2⟩
  | orChain cs i =>
    rw [Query.withInverse, goodQ_orChain]
    rw [goodQ_orChain] at h
    exact ⟨rfl, h.2⟩
  | single t i =>
    rw [Query.withInverse, goodQ_single]
    rw [goodQ_single] at h
    exact ⟨rfl, h.2⟩

theorem goodList_perm (len : Nat) {l1 l2 : List (Query Queryable)} (h : l1.Perm l2)
    (hg : goodList len l1 = true) : goodList len l2 = true := by
  rw [goodList_iff] at hg ⊢
  intro c hc
  exact hg c (h.mem_iff.mpr hc)

theorem mem_dedupConsec {α : Type} [DecidableEq α] :
    ∀ (l : List α) (x : α), x ∈ dedupConsec l ↔ x ∈ l
  | [], x => Iff.rfl
  | [a], x => Iff.rfl
  | a :: b :: rest, x => by
    rw [dedupConsec]
    by_cases hab : a = b
    · rw [if_pos hab, mem_dedupConsec (b :: rest) x, hab]
      simp [List.mem_cons]
    · rw [if_neg hab, List.mem_cons, mem_dedupConsec (b :: rest) x]
      simp [List.mem_cons]

theorem dedupConsec_ne_nil {α : Type} [DecidableEq α] :
    ∀ l : List α, l ≠ [] → dedupConsec l ≠ []
  | [], h => absurd rfl h
  | [a], _ => by simp [dedupConsec]
  | a :: b :: rest, _ => by
    rw [dedupConsec]
    by_cases hab : a = b
    · rw [if_pos hab]
      exact dedupConsec_ne_nil (b :: rest) (by simp)
    · rw [if_neg hab]
      simp

theorem goodList_dedupConsec (len : Nat) (l : List (Query Queryable))
    (h : goodList len l = true) : goodList len (dedupConsec l) = true := by
  rw [goodList_iff] at h ⊢
  intro c hc
  exact h c ((mem_dedupConsec l c).mp hc)

theorem invFree_inverse {T : Type} (q : Query T) (h : invFree q = true) :
    q.inverse = false := by
  cases q with
  | andChain cs i =>
    rw [invFree] at h
    simp only [Bool.and_eq_true, Bool.not_eq_true'] at h
    exact h.1
  | orChain cs i =>
    rw [invFree] at h
    simp only [Bool.and_eq_true, Bool.not_eq_true'] at h
    exact h.1
  | single t i =>
    rw [invFree] at h
    simpa using h

theorem goodQ_inverse (len : Nat) (q : Query Queryable) (h : goodQ len q = true) :
    q.inverse = false := by
  rw [goodQ, Bool.and_eq_true, Bool.and_eq_true] at h
  exact invFree_inverse q h.1.1

theorem noEmptyChains_isEmptyQ {T : Type} (q : Query T)
    (h : noEmptyChains q = true) : q.isEmptyQ = false := by
  cases q with
  | andChain cs i =>
    rw [noEmptyChains] at h
    simp only [Bool.and_eq_true, Bool.not_eq_true'] at h
    rw [Query.isEmptyQ]
    exact h.1
  | orChain cs i =>
    rw [noEmptyChains] at h
    simp only [Bool.and_eq_true, Bool.not_eq_true'] at h
    rw [Query.isEmptyQ]
    exact h.1
  | single t i => rfl

theorem goodQ_isEmptyQ (len : Nat) (q : Query Queryable) (h : goodQ len q = true) :
    q.isEmptyQ = false := by
  rw [goodQ, Bool.and_eq_true, Bool.and_eq_true] at h
  exact noEmptyChains_isEmptyQ q h.1.2

mutual

theorem good_sortQ (len : Nat) (le : Query Queryable → Query Queryable → Bool) :
    ∀ q : Query Queryable, goodQ len q = true → goodQ len (sortQ le q) = true
  | .andChain cs i, h => by
    rw [goodQ_andChain] at h
    rw [sortQ, goodQ_andChain]
    refine ⟨h.1, ?_, ?_⟩
    · rw [← List.length_pos, (List.mergeSort_perm (sortList le cs) le).length_eq]
      rcases cs with _ | ⟨c, rest⟩
      · exact absurd rfl h.2.1
      · rw [sortList]
        simp
    · exact goodList_perm len (List.mergeSort_perm (sortList le cs) le).symm
        (goodList_sortList len le cs h.2.2)
  | .orChain cs i, h => by
    rw [goodQ_orChain] at h
    rw [sortQ, goodQ_orChain]
    refine ⟨h.1, ?_, ?_⟩
    · rw [← List.length_pos, (List.mergeSort_perm (sortList le cs) le).length_eq]
      rcases cs with _ | ⟨c, rest⟩
      · exact absurd rfl h.2.1
      · rw [sortList]
        simp
    · exact goodList_perm len (List.mergeSort_perm (sortList le cs) le).symm
        (goodList_sortList len le cs h.2.2)
  | .single t i, h => by
    rw [goodQ_single] at h
    rw [sortQ, goodQ_single]
    exact h

theorem goodList_sortList (len : Nat) (le : Query Queryable → Query Queryable → Bool) :
    ∀ cs : List (Query Queryable), goodList len cs = true →
      goodList len (sortList le cs) = true
  | [], _ => by rw [sortList]; rfl
  | c :: rest, h => by
    rw [goodList_iff] at h
    rw [sortList, goodList_iff]
    intro x hx
    rcases List.mem_cons.mp hx with rfl | hx2
    · exact good_sortQ len le c (h c (by simp))
    · have := (goodList_iff len (sortList le rest)).mp
        (goodList_sortList len le rest ((goodList_iff len rest).mpr
          (fun y hy => h y (by simp [hy]))))
      exact this x hx2

end

mutual

theorem good_dedupQ (len : Nat) :
    ∀ q : Query Queryable, goodQ len q = true → goodQ len (dedupQ q) = true
  | .andChain cs i, h => by
    rw [goodQ_andChain] at h
    rw [dedupQ, goodQ_andChain]
    refine ⟨h.1, ?_, ?_⟩
    · refine dedupConsec_ne_nil _ ?_
      rcases cs with _ | ⟨c, rest⟩
      · exact absurd rfl h.2.1
      · rw [dedupList]
        simp
    · exact goodList_dedupConsec len _ (goodList_dedupList len cs h.2.2)
  | .orChain cs i, h => by
    rw [goodQ_orChain] at h
    rw [dedupQ, goodQ_orChain]
    refine ⟨h.1, ?_, ?_⟩
    · refine dedupConsec_ne_nil _ ?_
      rcases cs with _ | ⟨c, rest⟩
      · exact absurd rfl h.2.1
      · rw [dedupList]
        simp
    · exact goodList_dedupConsec len _ (goodList_dedupList len cs h.2.2)
  | .single t i, h => by
    rw [goodQ_single] at h
    rw [dedupQ, goodQ_single]
    exact h

theorem goodList_dedupList (len : Nat) :
    ∀ cs : List (Query Queryable), goodList len cs = true →
      goodList len (dedupList cs) = true
  | [], _ => by rw [dedupList]; rfl
  | c :: rest, h => by
    rw [goodList_iff] at h
    rw [dedupList, goodList_iff]
    intro x hx
    rcases List.mem_cons.mp hx with rfl | hx2
    · exact good_dedupQ len c (h c (by simp))
    · have := (goodList_iff len (dedupList rest)).mp
        (goodList_dedupList len rest ((goodList_iff len rest).mpr
          (fun y hy => h y (by simp [hy]))))
      exact this x hx2

end

mutual

theorem good_rsc (len : Nat) (le : Query Queryable → Query Queryable → Bool) :
    ∀ q : Query Queryable, goodQ len q = true →
      goodQ len (removeSingleChains le q) = true
  | .andChain cs i, h => by
    rw [goodQ_andChain] at h
    have hg2 : goodList len (dedupConsec ((rscList le cs).mergeSort le)) = true :=
      goodList_dedupConsec len _ (goodList_perm len
        (List.mergeSort_perm (rscList le cs) le).symm
        (goodList_rscList len le cs h.2.2))
    have hne2 : dedupConsec ((rscList le cs).mergeSort le) ≠ [] := by
      refine dedupConsec_ne_nil _ ?_
      rw [← List.length_pos, (List.mergeSort_perm (rscList le cs) le).length_eq]
      rcases cs with _ | ⟨c, rest⟩
      · exact absurd rfl h.2.1
      · rw [rscList]
        simp
    rw [removeSingleChains]
    split
    · next c hc =>
      have hgc : goodQ len c = true := by
        rw [hc, goodList_iff] at hg2
        exact hg2 c (by simp)
      have hci : c.inverse = false := goodQ_inverse len c hgc
      rw [h.1, hci]
      exact goodQ_withInverse len c hgc
    · next heq =>
      rw [goodQ_andChain]
      exact ⟨h.1, hne2, hg2⟩
  | .orChain cs i, h => by
    rw [goodQ_orChain] at h
    have hg2 : goodList len (dedupConsec ((rscList le cs).mergeSort le)) = true :=
      goodList_dedupConsec len _ (goodList_perm len
        (List.mergeSort_perm (rscList le cs) le).symm
        (goodList_rscList len le cs h.2.2))
    have hne2 : dedupConsec ((rscList le cs).mergeSort le) ≠ [] := by
      refine dedupConsec_ne_nil _ ?_
      rw [← List.length_pos, (List.mergeSort_perm (rscList le cs) le).length_eq]
      rcases cs with _ | ⟨c, rest⟩
      · exact absurd rfl h.2.1
      · rw [rscList]
        simp
    rw [removeSingleChains]
    split
    · next c hc =>
      have hgc : goodQ len c = true := by
        rw [hc, goodList_iff] at hg2
        exact hg2 c (by simp)
      have hci : c.inverse = false := goodQ_inverse len c hgc
      rw [h.1, hci]
      exact goodQ_withInverse len c hgc
    · next heq =>
      rw [goodQ_orChain]
      exact ⟨h.1, hne2, hg2⟩
  | .single t i, h => by
    rw [goodQ_single] at h
    rw [removeSingleChains, goodQ_single]
    exact h

theorem goodList_rscList (len : Nat) (le : Query Queryable → Query Queryable → Bool) :
    ∀ cs : List (Query Queryable), goodList len cs = true →
      goodList len (rscList le cs) = true
  | [], _ => by rw [rscList]; rfl
  | c :: rest, h => by
    rw [goodList_iff] at h
    rw [rscList, goodList_iff]
    intro x hx
    rcases List.mem_cons.mp hx with rfl | hx2
    · exact good_dedupQ len _ (good_sortQ len le _ (good_rsc len le c (h c (by simp))))
    · have := (goodList_iff len (rscList le rest)).mp
        (goodList_rscList len le rest ((goodList_iff len rest).mpr
          (fun y hy => h y (by simp [hy]))))
      exact this x hx2

end

theorem goodQ_spliceChildren (len : Nat) (c : Query Queryable)
    (hg : goodQ len c = true) :
    ∀ x ∈ spliceChildren c, goodQ len x = true := by
  cases c with
  | andChain gs gi =>
    rw [goodQ_andChain] at hg
    intro x hx
    rw [spliceChildren, List.mem_map] at hx
    obtain ⟨g, hgmem, rfl⟩ := hx
    have hgg : goodQ len g = true := (goodList_iff len gs).mp hg.2.2 g hgmem
    rw [goodQ_inverse len g hgg, hg.1]
    exact goodQ_withInverse len g hgg
  | orChain gs gi =>
    rw [goodQ_orChain] at hg
    intro x hx
    rw [spliceChildren, List.mem_map] at hx
    obtain ⟨g, hgmem, rfl⟩ := hx
    have hgg : goodQ len g = true := (goodList_iff len gs).mp hg.2.2 g hgmem
    rw [goodQ_inverse len g hgg, hg.1]
    exact goodQ_withInverse len g hgg
  | single t i =>
    intro x hx
    rw [spliceChildren] at hx
    cases hx

theorem spliceChildren_ne_nil (len : Nat) (c : Query Queryable)
    (hg : goodQ len c = true) (hchain : c.isAndChainB = true ∨ c.isOrChainB = true) :
    spliceChildren c ≠ [] := by
  cases c with
  | andChain gs gi =>
    rw [goodQ_andChain] at hg
    rw [spliceChildren]
    simpa using hg.2.1
  | orChain gs gi =>
    rw [goodQ_orChain] at hg
    rw [spliceChildren]
    simpa using hg.2.1
  | single t i =>
    rcases hchain with h2 | h2 <;> cases h2

mutual

theorem good_rrc (len : Nat) :
    ∀ q : Query Queryable, goodQ len q = true →
      goodQ len (removeRedundantQ q) = true
  | .andChain cs i, h => by
    rw [goodQ_andChain] at h
    have hg2 : goodList len (removeRedundantList cs) = true :=
      goodList_rrcList len cs h.2.2
    rw [removeRedundantQ, goodQ_andChain]
    refine ⟨h.1, ?_, ?_⟩
    · rcases hcs2 : removeRedundantList cs with _ | ⟨c0, rest2⟩
      · rcases cs with _ | ⟨c, rest⟩
        · exact absurd rfl h.2.1
        · rw [removeRedundantList] at hcs2
          cases hcs2
      · have hg0 : goodQ len c0 = true := by
          rw [hcs2, goodList_iff] at hg2
          exact hg2 c0 (by simp)
        by_cases hand : c0.isAndChainB = true
        · intro hcon
          rw [List.append_eq_nil] at hcon
          have hmem : spliceChildren c0 ∈
              ((c0 :: rest2).filter (fun c => c.isAndChainB)).map spliceChildren := by
            refine List.mem_map_of_mem _ ?_
            rw [List.mem_filter]
            exact ⟨by simp, hand⟩
          have hnil : spliceChildren c0 = [] := by
            have h3 := List.flatten_eq_nil_iff.mp hcon.2
            exact h3 _ hmem
          exact spliceChildren_ne_nil len c0 hg0 (Or.inl hand) hnil
        · intro hcon
          rw [List.append_eq_nil] at hcon
          have hmem : c0 ∈ (c0 :: rest2).filter (fun c => ! c.isAndChainB) := by
            rw [List.mem_filter]
            exact ⟨by simp, by simp [hand]⟩
          rw [hcon.1] at hmem
          cases hmem
    · rw [goodList_iff]
      intro x hx
      rcases List.mem_append.mp hx with hx2 | hx2
      · exact (goodList_iff len _).mp hg2 x (List.mem_of_mem_filter hx2)
      · rw [List.mem_flatten] at hx2
        obtain ⟨sl, hsl, hxsl⟩ := hx2
        rw [List.mem_map] at hsl
        obtain ⟨c, hc, rfl⟩ := hsl
        have hgc : goodQ len c = true :=
          (goodList_iff len _).mp hg2 c (List.mem_of_mem_filter hc)
        exact goodQ_spliceChildren len c hgc x hxsl
  | .orChain cs i, h => by
    rw [goodQ_orChain] at h
    have hg2 : goodList len (removeRedundantList cs) = true :=
      goodList_rrcList len cs h.2.2
    rw [removeRedundantQ, goodQ_orChain]
    refine ⟨h.1, ?_, ?_⟩
    · rcases hcs2 : removeRedundantList cs with _ | ⟨c0, rest2⟩
      · rcases cs with _ | ⟨c, rest⟩
        · exact absurd rfl h.2.1
        · rw [removeRedundantList] at hcs2
          cases hcs2
      · have hg0 : goodQ len c0 = true := by
          rw [hcs2, goodList_iff] at hg2
          exact hg2 c0 (by simp)
        by_cases hand : c0.isOrChainB = true
        · intro hcon
          rw [List.append_eq_nil] at hcon
          have hmem : spliceChildren c0 ∈
              ((c0 :: rest2).filter (fun c => c.isOrChainB)).map spliceChildren := by
            refine List.mem_map_of_mem _ ?_
            rw [List.mem_filter]
            exact ⟨by simp, hand⟩
          have hnil : spliceChildren c0 = [] := by
            have h3 := List.flatten_eq_nil_iff.mp hcon.2
            exact h3 _ hmem
          exact spliceChildren_ne_nil len c0 hg0 (Or.inr hand) hnil
        · intro hcon
          rw [List.append_eq_nil] at hcon
          have hmem : c0 ∈ (c0 :: rest2).filter (fun c => ! c.isOrChainB) := by
            rw [List.mem_filter]
            exact ⟨by simp, by simp [hand]⟩
          rw [hcon.1] at hmem
          cases hmem
    · rw [goodList_iff]
      intro x hx
      rcases List.mem_append.mp hx with hx2 | hx2
      · exact (goodList_iff len _).mp hg2 x (List.mem_of_mem_filter hx2)
      · rw [List.mem_flatten] at hx2
        obtain ⟨sl, hsl, hxsl⟩ := hx2
        rw [List.mem_map] at hsl
        obtain ⟨c, hc, rfl⟩ := hsl
        have hgc : goodQ len c = true :=
          (goodList_iff len _).mp hg2 c (List.mem_of_mem_filter hc)
        exact goodQ_spliceChildren len c hgc x hxsl
  | .single t i, h => by
    rw [removeRedundantQ]
    exact h

theorem goodList_rrcList (len : Nat) :
    ∀ cs : List (Query Queryable), goodList len cs = true →
      goodList len (removeRedundantList cs) = true
  | [], _ => by rw [removeRedundantList]; rfl
  | c :: rest, h => by
    rw [goodList_iff] at h
    rw [removeRedundantList, goodList_iff]
    intro x hx
    rcases List.mem_cons.mp hx with rfl | hx2
    · exact good_rrc len c (h c (by simp))
    · have := (goodList_iff len (removeRedundantList rest)).mp
        (goodList_rrcList len rest ((goodList_iff len rest).mpr
          (fun y hy => h y (by simp [hy]))))
      exact this x hx2

end

mutual

/-- `remove_empty` is the identity on ASTs without empty chains: the
recursion cannot create one, so the filter keeps every child. -/
theorem removeEmptyQ_id {T : Type} :
    ∀ q : Query T, noEmptyChains q = true → removeEmptyQ q = q
  | .andChain cs i, h => by
    rw [noEmptyChains] at h
    simp only [Bool.and_eq_true, Bool.not_eq_true'] at h
    rw [removeEmptyQ, removeEmptyList_id cs (by rw [noEmptyChainsList_iff]; exact
      fun c hc => ((noEmptyChainsList_iff cs).mp h.2) c hc)]
    congr 1
    rw [List.filter_eq_self]
    intro c hc
    have := ((noEmptyChainsList_iff cs).mp h.2) c hc
    simp [noEmptyChains_isEmptyQ c this]
  | .orChain cs i, h => by
    rw [noEmptyChains] at h
    simp only [Bool.and_eq_true, Bool.not_eq_true'] at h
    rw [removeEmptyQ, removeEmptyList_id cs (by rw [noEmptyChainsList_iff]; exact
      fun c hc => ((noEmptyChainsList_iff cs).mp h.2) c hc)]
    congr 1
    rw [List.filter_eq_self]
    intro c hc
    have := ((noEmptyChainsList_iff cs).mp h.2) c hc
    simp [noEmptyChains_isEmptyQ c this]
  | .single t i, _ => rfl

theorem removeEmptyList_id {T : Type} :
    ∀ cs : List (Query T), noEmptyChainsList cs = true → removeEmptyList cs = cs
  | [], _ => rfl
  | c :: rest, h => by
    rw [noEmptyChainsList] at h
    simp only [Bool.and_eq_true] at h
    rw [removeEmptyList, removeEmptyQ_id c h.1, removeEmptyList_id rest h.2]

end

theorem semAllW_append (len i : Nat) :
    ∀ l1 l2 : List (Query Queryable), semAllW len i l2 < 2 ^ 64 →
      semAllW len i (l1 ++ l2) = semAllW len i l1 &&& semAllW len i l2
  | [], l2, hb => by
    rw [List.nil_append]
    conv_rhs => rw [semAllW]
    rw [packedMax_land _ hb]
  | c :: rest, l2, hb => by
    rw [List.cons_append]
    conv_lhs => rw [semAllW]
    conv_rhs => rw [semAllW]
    rw [semAllW_append len i rest l2 hb, Nat.land_assoc]

theorem semAnyW_append (len i : Nat) :
    ∀ l1 l2 : List (Query Queryable),
      semAnyW len i (l1 ++ l2) = semAnyW len i l1 ||| semAnyW len i l2
  | [], l2 => by
    rw [List.nil_append]
    conv_rhs => rw [semAnyW]
    rw [Nat.zero_or]
  | c :: rest, l2 => by
    rw [List.cons_append]
    conv_lhs => rw [semAnyW]
    conv_rhs => rw [semAnyW]
    rw [semAnyW_append len i rest l2, Nat.lor_assoc]

theorem semAllW_split_and (len i : Nat) :
    ∀ cs : List (Query Queryable),
      semAllW len i cs =
        semAllW len i (cs.filter (fun c => ! c.isAndChainB)) &&&
          semAllW len i (cs.filter (fun c => c.isAndChainB))
  | [] => by
    rw [List.filter_nil, List.filter_nil, semAllW, Nat.and_self]
  | c :: rest => by
    rw [List.filter_cons, List.filter_cons]
    by_cases hand : c.isAndChainB = true
    · rw [if_neg (by simp [hand]), if_pos (by simp [hand])]
      conv_lhs => rw [semAllW]
      rw [semAllW_split_and len i rest]
      conv_rhs => rw [semAllW]
      rw [← Nat.land_assoc, Nat.land_comm (semW len i c)
        (semAllW len i (rest.filter (fun c => ! c.isAndChainB))), Nat.land_assoc]
    · rw [if_pos (by simp [hand]), if_neg (by simp [hand])]
      conv_lhs => rw [semAllW]
      rw [semAllW_split_and len i rest]
      conv_rhs => rw [semAllW]
      rw [Nat.land_assoc]

theorem semAnyW_split_or (len i : Nat) :
    ∀ cs : List (Query Queryable),
      semAnyW len i cs =
        semAnyW len i (cs.filter (fun c => ! c.isOrChainB)) |||
          semAnyW len i (cs.filter (fun c => c.isOrChainB))
  | [] => by
    rw [List.filter_nil, List.filter_nil, semAnyW, Nat.or_self]
  | c :: rest => by
    rw [List.filter_cons, List.filter_cons]
    by_cases hand : c.isOrChainB = true
    · rw [if_neg (by simp [hand]), if_pos (by simp [hand])]
      conv_lhs => rw [semAnyW]
      rw [semAnyW_split_or len i rest]
      conv_rhs => rw [semAnyW]
      rw [← Nat.lor_assoc, Nat.lor_comm (semW len i c)
        (semAnyW len i (rest.filter (fun c => ! c.isOrChainB))), Nat.lor_assoc]
    · rw [if_pos (by simp [hand]), if_neg (by simp [hand])]
      conv_lhs => rw [semAnyW]
      rw [semAnyW_split_or len i rest]
      conv_rhs => rw [semAnyW]
      rw [Nat.lor_assoc]

theorem semAllW_map_withInverse (len i : Nat) (gi : Bool) :
    ∀ gs : List (Query Queryable),
      semAllW len i (gs.map (fun g => g.withInverse (g.inverse ^^ gi))) =
        semAllW len i gs
  | [] => rfl
  | g :: rest => by
    rw [List.map_cons]
    conv_lhs => rw [semAllW]
    conv_rhs => rw [semAllW]
    rw [semW_withInverse, semAllW_map_withInverse len i gi rest]

theorem semAnyW_map_withInverse (len i : Nat) (gi : Bool) :
    ∀ gs : List (Query Queryable),
      semAnyW len i (gs.map (fun g => g.withInverse (g.inverse ^^ gi))) =
        semAnyW len i gs
  | [] => rfl
  | g :: rest => by
    rw [List.map_cons]
    conv_lhs => rw [semAnyW]
    conv_rhs => rw [semAnyW]
    rw [semW_withInverse, semAnyW_map_withInverse len i gi rest]

/-- A redundant and-chain denotes the intersection of its children. -/
theorem semAllW_spliceChildren (len i : Nat) (c : Query Queryable)
    (hand : c.isAndChainB = true) :
    semAllW len i (spliceChildren c) = semW len i c := by
  cases c with
  | andChain gs gi =>
    rw [spliceChildren, semAllW_map_withInverse len i gi gs, semW]
  | orChain gs gi => cases hand
  | single t j => cases hand

theorem semAnyW_spliceChildren (len i : Nat) (c : Query Queryable)
    (hor : c.isOrChainB = true) :
    semAnyW len i (spliceChildren c) = semW len i c := by
  cases c with
  | andChain gs gi => cases hor
  | orChain gs gi =>
    rw [spliceChildren, semAnyW_map_withInverse len i gi gs, semW]
  | single t j => cases hor

theorem semAllW_flatten_splice (len i : Nat) :
    ∀ red : List (Query Queryable),
      (∀ c ∈ red, c.isAndChainB = true) → goodList len red = true →
      semAllW len i ((red.map spliceChildren).flatten) = semAllW len i red
  | [], _, _ => rfl
  | c :: rest, hand, hg => by
    have hg2 : goodList len rest = true := by
      rw [goodList_iff] at hg ⊢
      exact fun y hy => hg y (by simp [hy])
    have hgood : ∀ y ∈ rest, leavesOk len y = true := by
      intro y hy
      have := (goodList_iff len rest).mp hg2 y hy
      rw [goodQ, Bool.and_eq_true, Bool.and_eq_true] at this
      exact this.2
    rw [List.map_cons, List.flatten_cons,
      semAllW_append len i _ _ ?_, semAllW_flatten_splice len i rest
        (fun y hy => hand y (by simp [hy])) hg2,
      semAllW_spliceChildren len i c (hand c (by simp))]
    · conv_rhs => rw [semAllW]
    · rw [semAllW_flatten_splice len i rest (fun y hy => hand y (by simp [hy])) hg2]
      exact semAllW_lt len i rest ((leavesOkList_iff len rest).mpr hgood)

theorem semAnyW_flatten_splice (len i : Nat) :
    ∀ red : List (Query Queryable),
      (∀ c ∈ red, c.isOrChainB = true) →
      semAnyW len i ((red.map spliceChildren).flatten) = semAnyW len i red
  | [], _ => rfl
  | c :: rest, hor => by
    rw [List.map_cons, List.flatten_cons, semAnyW_append len i,
      semAnyW_flatten_splice len i rest (fun y hy => hor y (by simp [hy])),
      semAnyW_spliceChildren len i c (hor c (by simp))]
    conv_rhs => rw [semAnyW]

theorem goodList_leaves (len : Nat) (cs : List (Query Queryable))
    (h : goodList len cs = true) : leavesOkList len cs = true := by
  rw [goodList, Bool.and_eq_true, Bool.and_eq_true] at h
  exact h.2

theorem goodQ_leaves (len : Nat) (q : Query Queryable)
    (h : goodQ len q = true) : leavesOk len q = true := by
  rw [goodQ, Bool.and_eq_true, Bool.and_eq_true] at h
  exact h.2

mutual

/-- `remove_single_chains` does not change the denoted set of a well-formed
inverse-free AST. -/
theorem semW_rsc (len i : Nat) (le : Query Queryable → Query Queryable → Bool) :
    ∀ q : Query Queryable, goodQ len q = true →
      semW len i (removeSingleChains le q) = semW len i q
  | .andChain cs j, h => by
    rw [goodQ_andChain] at h
    have hchain : semAllW len i (dedupConsec ((rscList le cs).mergeSort le)) =
        semAllW len i cs := by
      rw [semAllW_dedupConsec, semAllW_perm len i (List.mergeSort_perm (rscList le cs) le),
        semAllW_rscList len i le cs h.2.2]
    have hg2 : goodList len (dedupConsec ((rscList le cs).mergeSort le)) = true :=
      goodList_dedupConsec len _ (goodList_perm len
        (List.mergeSort_perm (rscList le cs) le).symm
        (goodList_rscList len le cs h.2.2))
    rw [removeSingleChains]
    split
    · next c hc =>
      have hgc : goodQ len c = true := by
        rw [hc, goodList_iff] at hg2
        exact hg2 c (by simp)
      rw [hc] at hchain
      have h3 : semW len i c = semAllW len i [c] := by
        conv_rhs => rw [semAllW, semAllW]
        rw [land_packedMax _ (semW_lt len i c (goodQ_leaves len c hgc))]
      conv_rhs => rw [semW]
      rw [semW_withInverse, h3, hchain]
    · next heq =>
      conv_lhs => rw [semW]
      conv_rhs => rw [semW]
      exact hchain
  | .orChain cs j, h => by
    rw [goodQ_orChain] at h
    have hchain : semAnyW len i (dedupConsec ((rscList le cs).mergeSort le)) =
        semAnyW len i cs := by
      rw [semAnyW_dedupConsec, semAnyW_perm len i (List.mergeSort_perm (rscList le cs) le),
        semAnyW_rscList len i le cs h.2.2]
    rw [removeSingleChains]
    split
    · next c hc =>
      rw [hc] at hchain
      have h3 : semW len i c = semAnyW len i [c] := by
        conv_rhs => rw [semAnyW, semAnyW]
        rw [Nat.or_zero]
      conv_rhs => rw [semW]
      rw [semW_withInverse, h3, hchain]
    · next heq =>
      conv_lhs => rw [semW]
      conv_rhs => rw [semW]
      exact hchain
  | .single t j, _ => by rw [removeSingleChains]

theorem semAllW_rscList (len i : Nat) (le : Query Queryable → Query Queryable → Bool) :
    ∀ cs : List (Query Queryable), goodList len cs = true →
      semAllW len i (rscList le cs) = semAllW len i cs
  | [], _ => rfl
  | c :: rest, h => by
    have hgc : goodQ len c = true := (goodList_iff len _).mp h c (by simp)
    have hg2 : goodList len rest = true := by
      rw [goodList_iff] at h ⊢
      exact fun y hy => h y (by simp [hy])
    rw [rscList]
    conv_lhs => rw [semAllW]
    conv_rhs => rw [semAllW]
    rw [semW_dedupQ, semW_sortQ, semW_rsc len i le c hgc,
      semAllW_rscList len i le rest hg2]

theorem semAnyW_rscList (len i : Nat) (le : Query Queryable → Query Queryable → Bool) :
    ∀ cs : List (Query Queryable), goodList len cs = true →
      semAnyW len i (rscList le cs) = semAnyW len i cs
  | [], _ => rfl
  | c :: rest, h => by
    have hgc : goodQ len c = true := (goodList_iff len _).mp h c (by simp)
    have hg2 : goodList len rest = true := by
      rw [goodList_iff] at h ⊢
      exact fun y hy => h y (by simp [hy])
    rw [rscList]
    conv_lhs => rw [semAnyW]
    conv_rhs => rw [semAnyW]
    rw [semW_dedupQ, semW_sortQ, semW_rsc len i le c hgc,
      semAnyW_rscList len i le rest hg2]

end

mutual

/-- `remove_redundant_chains` does not change the denoted set of a
well-formed inverse-free AST: flattening an and-chain into an and-chain (or
an or-chain into an or-chain) is associativity. -/
theorem semW_rrc (len i : Nat) :
    ∀ q : Query Queryable, goodQ len q = true →
      semW len i (removeRedundantQ q) = semW len i q
  | .andChain cs j, h => by
    rw [goodQ_andChain] at h
    have hg2 : goodList len (removeRedundantList cs) = true :=
      goodList_rrcList len cs h.2.2
    rw [removeRedundantQ]
    conv_lhs => rw [semW]
    conv_rhs => rw [semW]
    have hand : ∀ c ∈ (removeRedundantList cs).filter (fun c => c.isAndChainB),
        c.isAndChainB = true := fun c hc => (List.mem_filter.mp hc).2
    have hgred : goodList len
        ((removeRedundantList cs).filter (fun c => c.isAndChainB)) = true := by
      rw [goodList_iff]
      exact fun c hc => (goodList_iff len _).mp hg2 c (List.mem_of_mem_filter hc)
    have hbound : semAllW len i
        ((((removeRedundantList cs).filter (fun c => c.isAndChainB)).map
          spliceChildren).flatten) < 2 ^ 64 := by
      rw [semAllW_flatten_splice len i _ hand hgred]
      exact semAllW_lt len i _ (goodList_leaves len _ hgred)
    rw [semAllW_append len i _ _ hbound, semAllW_flatten_splice len i _ hand hgred,
      ← semAllW_split_and len i (removeRedundantList cs),
      semAllW_rrcList len i cs h.2.2]
  | .orChain cs j, h => by
    rw [goodQ_orChain] at h
    rw [removeRedundantQ]
    conv_lhs => rw [semW]
    conv_rhs => rw [semW]
    have hor : ∀ c ∈ (removeRedundantList cs).filter (fun c => c.isOrChainB),
        c.isOrChainB = true := fun c hc => (List.mem_filter.mp hc).2
    rw [semAnyW_append len i, semAnyW_flatten_splice len i _ hor,
      ← semAnyW_split_or len i (removeRedundantList cs),
      semAnyW_rrcList len i cs h.2.2]
  | .single t j, _ => by rw [removeRedundantQ]

theorem semAllW_rrcList (len i : Nat) :
    ∀ cs : List (Query Queryable), goodList len cs = true →
      semAllW len i (removeRedundantList cs) = semAllW len i cs
  | [], _ => rfl
  | c :: rest, h => by
    have hgc : goodQ len c = true := (goodList_iff len _).mp h c (by simp)
    have hg2 : goodList len rest = true := by
      rw [goodList_iff] at h ⊢
      exact fun y hy => h y (by simp [hy])
    rw [removeRedundantList]
    conv_lhs => rw [semAllW]
    conv_rhs => rw [semAllW]
    rw [semW_rrc len i c hgc, semAllW_rrcList len i rest hg2]

theorem semAnyW_rrcList (len i : Nat) :
    ∀ cs : List (Query Queryable), goodList len cs = true →
      semAnyW len i (removeRedundantList cs) = semAnyW len i cs
  | [], _ => rfl
  | c :: rest, h => by
    have hgc : goodQ len c = true := (goodList_iff len _).mp h c (by simp)
    have hg2 : goodList len rest = true := by
      rw [goodList_iff] at h ⊢
      exact fun y hy => h y (by simp [hy])
    rw [removeRedundantList]
    conv_lhs => rw [semAnyW]
    conv_rhs => rw [semAnyW]
    rw [semW_rrc len i c hgc, semAnyW_rrcList len i rest hg2]

end

theorem length_queryableOr (q : Queryable) (checks : List Nat) (inverse : Bool) :
    (q.or checks inverse).length = checks.length := by
  cases q with
  | checks mask =>
    rw [Queryable.or]
    cases inverse
    · simp only [Bool.false_eq_true, if_false, length_bitChecks]
    · simp only [if_true]
      rw [List.length_append, List.length_map, List.length_zipWith, List.length_drop]
      omega
  | ids l =>
    rw [Queryable.or]
    cases inverse
    · simp only [Bool.false_eq_true, if_false, length_foldl_applyId]
    · simp only [if_true]
      rw [List.length_zipWith, length_applyIds]
      omega

mutual

theorem length_innerRun :
    ∀ (q : Query Queryable) (x : List Nat) (inv : Bool),
      (innerRun q x inv).length = x.length
  | .andChain items j, x, inv => by
    rw [innerRun]
    exact length_innerRunAnd items x inv
  | .orChain items si, x, inv => by
    rw [innerRun]
    cases si
    · simp only [Bool.false_eq_true, if_false, andChecks, length_bitChecks]
    · simp only [if_true, andNotChecks, length_bitChecks]
  | .single t j, x, inv => length_queryableAnd t x inv

theorem length_innerRunAnd :
    ∀ (items : List (Query Queryable)) (x : List Nat) (inv : Bool),
      (innerRunAnd items x inv).length = x.length
  | [], x, inv => rfl
  | item :: rest, x, inv => by
    rw [innerRunAnd, length_innerRunAnd rest _ inv, length_innerRun item x _]

end

theorem length_innerRunOr :
    ∀ (items : List (Query Queryable)) (acc : List Nat) (len : Nat),
      (innerRunOr items acc len).length = acc.length
  | [], acc, len => rfl
  | item :: rest, acc, len => by
    cases item with
    | single t si =>
      rw [innerRunOr, length_innerRunOr rest _ len, length_queryableOr]
    | andChain cs j =>
      rw [innerRunOr]
      · rw [length_innerRunOr rest _ len, orChecks, length_bitChecks]
      · intro t si h
        cases h
    | orChain cs j =>
      rw [innerRunOr]
      · rw [length_innerRunOr rest _ len, orChecks, length_bitChecks]
      · intro t si h
        cases h

theorem wordAt_foldl_or (l : List Nat) :
    ∀ (x : List Nat) (i : Nat),
      wordAt (l.foldl (applyId (fun w b => w ||| b)) x) i =
        wordAt x i |||
          wordAt (l.foldl (applyId (fun w b => w ||| b)) (List.replicate x.length 0)) i := by
  induction l with
  | nil =>
    intro x i
    simp only [List.foldl_nil, wordAt_replicate]
    rw [ite_self, Nat.or_zero]
  | cons id rest ih =>
    intro x i
    rw [List.foldl_cons, List.foldl_cons, ih (applyId (fun w b => w ||| b) x id) i,
      ih (applyId (fun w b => w ||| b) (List.replicate x.length 0) id) i,
      length_applyId, length_applyId, List.length_replicate, wordAt_applyId, wordAt_applyId]
    rw [List.length_replicate, wordAt_replicate]
    by_cases hc : id / 64 < x.length ∧ i = id / 64
    · rw [if_pos hc, if_pos hc, if_pos (show id / 64 < x.length by omega)]
      rw [Nat.zero_or, hc.2, Nat.lor_assoc]
    · rw [if_neg hc, if_neg hc, wordAt_replicate]
      rw [ite_self, Nat.zero_or]

theorem wordAt_queryableAnd_false (t : Queryable) (x : List Nat) (len i : Nat)
    (hlen : x.length = len) (hwf : leafOk len t = true) (hi : i < len) :
    wordAt (t.and x false) i = wordAt x i &&& leafWord t len i := by
  cases t with
  | checks ws =>
    rw [leafOk, Bool.and_eq_true, decide_eq_true_eq] at hwf
    rw [Queryable.and]
    simp only [Bool.false_eq_true, if_false]
    rw [wordAt_bitChecks, if_pos (by omega), if_pos (by omega), leafWord]
  | ids l =>
    rw [Queryable.and, leafWord, wordAt_zipWith, hlen,
      if_pos ⟨by omega, by rw [length_applyIds]; omega⟩]

theorem wordAt_queryableOr_false (t : Queryable) (acc : List Nat) (len i : Nat)
    (hlen : acc.length = len) (hwf : leafOk len t = true) (hi : i < len) :
    wordAt (t.or acc false) i = wordAt acc i ||| leafWord t len i := by
  cases t with
  | checks ws =>
    rw [leafOk, Bool.and_eq_true, decide_eq_true_eq] at hwf
    rw [Queryable.or]
    simp only [Bool.false_eq_true, if_false]
    rw [wordAt_bitChecks, if_pos (by omega), if_pos (by omega), leafWord]
  | ids l =>
    rw [Queryable.or]
    simp only [Bool.false_eq_true, if_false]
    rw [wordAt_foldl_or, leafWord, applyIds]
    simp only [Bool.false_eq_true, if_false, hlen]

mutual

/-- Running an inverse-free, well-formed AST intersects the working bitmap
with the AST's denoted set, word by word. -/
theorem innerRun_semW (len : Nat) :
    ∀ (q : Query Queryable) (x : List Nat), x.length = len →
      invFree q = true → leavesOk len q = true →
      (∀ j, wordAt x j < 2 ^ 64) → ∀ i, i < len →
      wordAt (innerRun q x false) i = wordAt x i &&& semW len i q
  | .andChain cs j, x, hlen, hinv, hlv, hx, i, hi => by
    rw [invFree] at hinv
    simp only [Bool.and_eq_true, Bool.not_eq_true'] at hinv
    rw [innerRun]
    conv_rhs => rw [semW]
    exact innerRunAnd_semW len cs x hlen hinv.2 (by rw [leavesOk] at hlv; exact hlv)
      hx i hi
  | .orChain cs j, x, hlen, hinv, hlv, hx, i, hi => by
    rw [invFree] at hinv
    simp only [Bool.and_eq_true, Bool.not_eq_true'] at hinv
    have hlv2 : leavesOkList len cs = true := by rw [leavesOk] at hlv; exact hlv
    subst hlen
    rcases hinv with ⟨hj, hinv2⟩
    subst hj
    rw [innerRun]
    simp only [Bool.false_eq_true, if_false]
    have hor := innerRunOr_semW x.length cs (List.replicate x.length 0) (by simp)
      hinv2 hlv2 (fun j2 => by
        rw [wordAt_replicate]
        split <;> exact Nat.two_pow_pos 64) i hi
    have hc2 : wordAt (innerRunOr cs (List.replicate x.length 0) x.length) i =
        semAnyW x.length i cs := by
      rw [hor, wordAt_replicate, if_pos hi, Nat.zero_or]
    rw [andChecks, wordAt_bitChecks, if_pos (by omega),
      if_pos (by rw [length_innerRunOr, List.length_replicate]; omega), hc2]
    conv_rhs => rw [semW]
  | .single t j, x, hlen, hinv, hlv, hx, i, hi => by
    rw [innerRun]
    conv_rhs => rw [semW]
    exact wordAt_queryableAnd_false t x len i hlen
      (by rw [leavesOk] at hlv; exact hlv) hi

theorem innerRunAnd_semW (len : Nat) :
    ∀ (items : List (Query Queryable)) (x : List Nat), x.length = len →
      invFreeList items = true → leavesOkList len items = true →
      (∀ j, wordAt x j < 2 ^ 64) → ∀ i, i < len →
      wordAt (innerRunAnd items x false) i = wordAt x i &&& semAllW len i items
  | [], x, hlen, _, _, hx, i, hi => by
    rw [innerRunAnd]
    conv_rhs => rw [semAllW]
    rw [land_packedMax _ (hx i)]
  | item :: rest, x, hlen, hinv, hlv, hx, i, hi => by
    rw [invFreeList, Bool.and_eq_true] at hinv
    rw [leavesOkList, Bool.and_eq_true] at hlv
    rw [innerRunAnd, Bool.xor_false, invFree_inverse item hinv.1]
    have hlen2 : (innerRun item x false).length = len := by
      rw [length_innerRun]; exact hlen
    have hx2 : ∀ j, wordAt (innerRun item x false) j < 2 ^ 64 := by
      intro j2
      by_cases hj2 : j2 < len
      · rw [innerRun_semW len item x hlen hinv.1 hlv.1 hx j2 hj2]
        exact Nat.lt_of_le_of_lt Nat.and_le_left (hx j2)
      · rw [wordAt_of_le _ _ (by omega)]
        exact Nat.two_pow_pos 64
    rw [innerRunAnd_semW len rest (innerRun item x false) hlen2 hinv.2 hlv.2 hx2 i hi,
      innerRun_semW len item x hlen hinv.1 hlv.1 hx i hi]
    conv_rhs => rw [semAllW]
    rw [Nat.land_assoc]

theorem innerRunOr_semW (len : Nat) :
    ∀ (items : List (Query Queryable)) (acc : List Nat), acc.length = len →
      invFreeList items = true → leavesOkList len items = true →
      (∀ j, wordAt acc j < 2 ^ 64) → ∀ i, i < len →
      wordAt (innerRunOr items acc len) i = wordAt acc i ||| semAnyW len i items
  | [], acc, hlen, _, _, hacc, i, hi => by
    rw [innerRunOr]
    conv_rhs => rw [semAnyW]
    rw [Nat.or_zero]
  | item :: rest, acc, hlen, hinv, hlv, hacc, i, hi => by
    rw [invFreeList, Bool.and_eq_true] at hinv
    rw [leavesOkList, Bool.and_eq_true] at hlv
    cases item with
    | single t si =>
      have hsi : si = false := by
        have := hinv.1
        rw [invFree] at this
        simpa using this
      subst hsi
      have hleaf : leafOk len t = true := by
        have := hlv.1
        rw [leavesOk] at this
        exact this
      rw [innerRunOr]
      have hlen2 : (t.or acc false).length = len := by
        rw [length_queryableOr]; exact hlen
      have hacc2 : ∀ j, wordAt (t.or acc false) j < 2 ^ 64 := by
        intro j2
        by_cases hj2 : j2 < len
        · rw [wordAt_queryableOr_false t acc len j2 hlen hleaf hj2]
          exact lor_lt_two_pow _ _ _ (hacc j2) (leafWord_lt t len j2 hleaf)
        · rw [wordAt_of_le _ _ (by omega)]
          exact Nat.two_pow_pos 64
      rw [innerRunOr_semW len rest (t.or acc false) hlen2 hinv.2 hlv.2 hacc2 i hi,
        wordAt_queryableOr_false t acc len i hlen hleaf hi]
      conv_rhs => rw [semAnyW, semW]
      rw [Nat.lor_assoc]
    | andChain cs2 j2 =>
      have hj2 : j2 = false := by
        have := hinv.1
        rw [invFree] at this
        simp only [Bool.and_eq_true, Bool.not_eq_true'] at this
        exact this.1
      subst hj2
      rw [innerRunOr]
      · have hrep : (List.replicate len packedMax).length = len := by simp
        have hrepb : ∀ j, wordAt (List.replicate len packedMax) j < 2 ^ 64 := by
          intro j3
          rw [wordAt_replicate]
          split
          · exact packedMax_lt
          · exact Nat.two_pow_pos 64
        have hc3 : wordAt (innerRun (Query.andChain cs2 false)
            (List.replicate len packedMax) ((Query.andChain cs2 false).inverse)) i =
            semW len i (Query.andChain cs2 false) := by
          rw [show (Query.andChain cs2 false).inverse = false from rfl,
            innerRun_semW len (Query.andChain cs2 false) (List.replicate len packedMax)
              hrep hinv.1 hlv.1 hrepb i hi,
            wordAt_replicate, if_pos hi,
            packedMax_land _ (semW_lt len i _ (by
              have := hlv.1
              rw [leavesOk] at this
              rw [leavesOk]
              exact this))]
        have hlen2 : (orChecks acc (innerRun (Query.andChain cs2 false)
            (List.replicate len packedMax) ((Query.andChain cs2 false).inverse))).length =
            len := by
          rw [orChecks, length_bitChecks]; exact hlen
        have hacc2 : ∀ j, wordAt (orChecks acc (innerRun (Query.andChain cs2 false)
            (List.replicate len packedMax)
            ((Query.andChain cs2 false).inverse))) j < 2 ^ 64 := by
          intro j3
          by_cases hj3 : j3 < len
          · rw [orChecks, wordAt_bitChecks, if_pos (by omega)]
            split
            · refine lor_lt_two_pow _ _ _ (hacc j3) ?_
              by_cases hj4 : j3 < len
              · rw [show (Query.andChain cs2 false).inverse = false from rfl,
                  innerRun_semW len (Query.andChain cs2 false)
                    (List.replicate len packedMax) hrep hinv.1 hlv.1 hrepb j3 hj4]
                exact Nat.lt_of_le_of_lt Nat.and_le_left (hrepb j3)
              · rw [wordAt_of_le _ _ (by rw [length_innerRun, List.length_replicate]; omega)]
                exact Nat.two_pow_pos 64
            · exact hacc j3
          · rw [wordAt_of_le _ _ (by omega)]
            exact Nat.two_pow_pos 64
        rw [innerRunOr_semW len rest _ hlen2 hinv.2 hlv.2 hacc2 i hi, orChecks,
          wordAt_bitChecks, if_pos (by omega),
          if_pos (by rw [length_innerRun, List.length_replicate]; omega), hc3]
        conv_rhs => rw [semAnyW]
        rw [Nat.lor_assoc]
      · intro t si h
        cases h
    | orChain cs2 j2 =>
      have hj2 : j2 = false := by
        have := hinv.1
        rw [invFree] at this
        simp only [Bool.and_eq_true, Bool.not_eq_true'] at this
        exact this.1
      subst hj2
      rw [innerRunOr]
      · have hrep : (List.replicate len packedMax).length = len := by simp
        have hrepb : ∀ j, wordAt (List.replicate len packedMax) j < 2 ^ 64 := by
          intro j3
          rw [wordAt_replicate]
          split
          · exact packedMax_lt
          · exact Nat.two_pow_pos 64
        have hc3 : wordAt (innerRun (Query.orChain cs2 false)
            (List.replicate len packedMax) ((Query.orChain cs2 false).inverse)) i =
            semW len i (Query.orChain cs2 false) := by
          rw [show (Query.orChain cs2 false).inverse = false from rfl,
            innerRun_semW len (Query.orChain cs2 false) (List.replicate len packedMax)
              hrep hinv.1 hlv.1 hrepb i hi,
            wordAt_replicate, if_pos hi,
            packedMax_land _ (semW_lt len i _ (by
              have := hlv.1
              rw [leavesOk] at this
              rw [leavesOk]
              exact this))]
        have hlen2 : (orChecks acc (innerRun (Query.orChain cs2 false)
            (List.replicate len packedMax) ((Query.orChain cs2 false).inverse))).length =
            len := by
          rw [orChecks, length_bitChecks]; exact hlen
        have hacc2 : ∀ j, wordAt (orChecks acc (innerRun (Query.orChain cs2 false)
            (List.replicate len packedMax)
            ((Query.orChain cs2 false).inverse))) j < 2 ^ 64 := by
          intro j3
          by_cases hj3 : j3 < len
          · rw [orChecks, wordAt_bitChecks, if_pos (by omega)]
            split
            · refine lor_lt_two_pow _ _ _ (hacc j3) ?_
              by_cases hj4 : j3 < len
              · rw [show (Query.orChain cs2 false).inverse = false from rfl,
                  innerRun_semW len (Query.orChain cs2 false)
                    (List.replicate len packedMax) hrep hinv.1 hlv.1 hrepb j3 hj4]
                exact Nat.lt_of_le_of_lt Nat.and_le_left (hrepb j3)
              · rw [wordAt_of_le _ _ (by rw [length_innerRun, List.length_replicate]; omega)]
                exact Nat.two_pow_pos 64
            · exact hacc j3
          · rw [wordAt_of_le _ _ (by omega)]
            exact Nat.two_pow_pos 64
        rw [innerRunOr_semW len rest _ hlen2 hinv.2 hlv.2 hacc2 i hi, orChecks,
          wordAt_bitChecks, if_pos (by omega),
          if_pos (by rw [length_innerRun, List.length_replicate]; omega), hc3]
        conv_rhs => rw [semAnyW]
        rw [Nat.lor_assoc]
      · intro t si h
        cases h

end

theorem land_absorb_right (a s : Nat) : (a &&& s) &&& a = a &&& s := by
  rw [Nat.land_assoc, Nat.land_comm s a, ← Nat.land_assoc, Nat.and_self]

theorem run_length (X : Query Queryable) (base : List Nat) :
    (X.run base).length = base.length := by
  cases X with
  | single t si => rw [Query.run]; exact length_queryableAnd t base si
  | andChain cs j =>
    rw [Query.run]
    · rw [andChecks, length_bitChecks, length_innerRun]
    · intro t si h
      cases h
  | orChain cs j =>
    rw [Query.run]
    · rw [andChecks, length_bitChecks, length_innerRun]
    · intro t si h
      cases h

theorem run_semW (X : Query Queryable) (base : List Nat)
    (hg : goodQ base.length X = true)
    (hbase : ∀ j, wordAt base j < 2 ^ 64) :
    ∀ i, i < base.length →
      wordAt (X.run base) i = wordAt base i &&& semW base.length i X := by
  intro i hi
  have hinv : invFree X = true := by
    rw [goodQ, Bool.and_eq_true, Bool.and_eq_true] at hg
    exact hg.1.1
  have hlv : leavesOk base.length X = true := goodQ_leaves _ _ hg
  cases X with
  | single t si =>
    have hsi : si = false := by
      have := invFree_inverse _ hinv
      simpa using this
    subst hsi
    rw [Query.run]
    conv_rhs => rw [semW]
    exact wordAt_queryableAnd_false t base base.length i rfl
      (by rw [leavesOk] at hlv; exact hlv) hi
  | andChain cs j =>
    rw [Query.run]
    · rw [invFree_inverse _ hinv, andChecks, wordAt_bitChecks,
        if_pos (by rw [length_innerRun]; omega), if_pos (by omega),
        innerRun_semW base.length (Query.andChain cs j) base rfl hinv hlv hbase i hi,
        land_absorb_right]
    · intro t si h
      cases h
  | orChain cs j =>
    rw [Query.run]
    · rw [invFree_inverse _ hinv, andChecks, wordAt_bitChecks,
        if_pos (by rw [length_innerRun]; omega), if_pos (by omega),
        innerRun_semW base.length (Query.orChain cs j) base rfl hinv hlv hbase i hi,
        land_absorb_right]
    · intro t si h
      cases h

/-- C2 amended: `simplify` preserves the evaluation result for every AST in
which no node is negated, no chain is empty, and every bitmap leaf spans the
alive-set (whose words are `u64`-bounded); the pipeline's passes are then
permutation, idempotence and associativity of union/intersection.  (The
counterexample shows the empty-chain restriction is necessary; negated
chains additionally break the or-in-or flattening of
`remove_redundant_chains`.) -/
theorem c2_simplify_amended (le : Query Queryable → Query Queryable → Bool)
    (X : Query Queryable) (base : List Nat)
    (hinv : invFree X = true) (hne : noEmptyChains X = true)
    (hwf : leavesOk base.length X = true)
    (hbase : ∀ w ∈ base, w < 2 ^ 64) :
    Query.run (simplifyQ le X) base = Query.run X base := by
  have hg : goodQ base.length X = true := by
    rw [goodQ, Bool.and_eq_true, Bool.and_eq_true]
    exact ⟨⟨hinv, hne⟩, hwf⟩
  have hbase2 : ∀ j, wordAt base j < 2 ^ 64 := fun j => wordAt_lt_of_all base j hbase
  have hg1 : goodQ base.length (removeSingleChains le X) = true :=
    good_rsc base.length le X hg
  have hg2 : goodQ base.length (removeRedundantQ (removeSingleChains le X)) = true :=
    good_rrc base.length _ hg1
  have hne2 : noEmptyChains (removeRedundantQ (removeSingleChains le X)) = true := by
    rw [goodQ, Bool.and_eq_true, Bool.and_eq_true] at hg2
    exact hg2.1.2
  have hid : removeEmptyQ (removeRedundantQ (removeSingleChains le X)) =
      removeRedundantQ (removeSingleChains le X) := removeEmptyQ_id _ hne2
  have hgS : goodQ base.length (simplifyQ le X) = true := by
    rw [simplifyQ, hid]
    exact good_dedupQ _ _ (good_sortQ _ le _ hg2)
  have hsem : ∀ i, semW base.length i (simplifyQ le X) = semW base.length i X := by
    intro i
    rw [simplifyQ, hid, semW_dedupQ, semW_sortQ, semW_rrc base.length i _ hg1,
      semW_rsc base.length i le X hg]
  refine eq_of_wordAt_eq _ _ (by rw [run_length, run_length]) (fun i => ?_)
  by_cases hi : i < base.length
  · rw [run_semW _ base hgS hbase2 i hi, run_semW X base hg hbase2 i hi, hsem i]
  · rw [wordAt_of_le _ _ (by rw [run_length]; omega),
      wordAt_of_le _ _ (by rw [run_length]; omega)]

/-- A well-formed inverse-free AST over a one-word alive-set. -/
def c2W : Query Queryable :=
  Query.andChain [Query.single (Queryable.ids [1]) false,
    Query.orChain [Query.single (Queryable.checks [2]) false,
      Query.single (Queryable.ids [0]) false] false] false

theorem c2_simplify_amended_witness :
    Query.run (simplifyQ (leQuery cmpQueryable) c2W) [7] = Query.run c2W [7] :=
  c2_simplify_amended (leQuery cmpQueryable) c2W [7] (by decide) (by decide)
    (by decide) (by decide)

/-! ### TextIndex (claim C10) -/

/-- `Ord` comparison `a <= b` on byte arrays (gram sort order). -/
def leNatList (a b : List Nat) : Bool :=
  match cmpNatList a b with
  | Ordering.gt => false
  | _ => true

/-- `TextQuery` with its `String` payload as a byte list (`str::len`,
`contains` etc. operate on bytes). -/
inductive TextQueryB : Type where
  | startsWith (text : List Nat)
  | contains (text : List Nat)
  | endsWith (text : List Nat)
  deriving Repr, DecidableEq

/-- `TextQuery::text`. -/
def TextQueryB.text : TextQueryB → List Nat
  | .startsWith t => t
  | .contains t => t
  | .endsWith t => t

/-- `str::contains` at the byte level: some suffix starts with the needle. -/
def listContainsB (hay needle : List Nat) : Bool :=
  (List.range (hay.length + 1)).any (fun i => needle.isPrefixOf (hay.drop i))

/-- `NgramIndex::grams`: all length-`n` windows, sorted and deduped. -/
def gramsN (n : Nat) (text : List Nat) : List (List Nat) :=
  dedupConsec
    (((List.range (text.length + 1 - n)).map (fun i => (text.drop i).take n)).mergeSort
      leNatList)

/-- An `NgramIndex` as an association list from gram to its bucket of
`(string, id)` pairs (a model of the `HashMap`). -/
def NgramMap : Type := List (List Nat × List (List Nat × Nat))

/-- `NgramIndex::query`: the smallest bucket among the text's grams. -/
def ngramQuery (strings : NgramMap) (n : Nat) (text : List Nat) :
    Option (List (List Nat × Nat)) :=
  (gramsN n text).foldl
    (fun smallest g =>
      match strings.lookup g with
      | some b =>
        match smallest with
        | some s => if b.length < s.length then some b else some s
        | none => some b
      | none => smallest)
    none

/-- `TextIndex`, restricted to the two gram maps `get` reads. -/
structure TextIndexM : Type where
  n1 : NgramMap
  n2 : NgramMap

/-- The bucket-selection `match text.len()` at the top of `TextIndex::get`. -/
def selectBucket (ti : TextIndexM) (text : List Nat) :
    Option (List (List Nat × Nat)) :=
  match text.length with
  | 0 => none
  | 1 => ngramQuery ti.n1 1 text
  | _ => ngramQuery ti.n2 2 text

/-- The chunked (non-sliding) 2-gram split of `get`'s intersection branch:
`while let (Some(b0), Some(b1)) = (bytes.next(), bytes.next())`. -/
def pairGrams : List Nat → List (List Nat)
  | b0 :: b1 :: rest => [b0, b1] :: pairGrams rest
  | _ => []

/-- The `retain` cursor loop intersecting two id-sorted buckets. -/
def retainLoop :
    List (List Nat × Nat) → List (List Nat × Nat) → List (List Nat × Nat)
  | [], _ => []
  | (s, id) :: rest, bs =>
    match bs.dropWhile (fun p => decide (p.2 < id)) with
    | (_, idb) :: bs3 =>
      if idb = id then (s, id) :: retainLoop rest bs3
      else retainLoop rest (bs.dropWhile (fun p => decide (p.2 < id)))
    | [] => retainLoop rest []

/-- The `text.len() >= 4` narrowing of `get`: intersect the buckets of the
chunked 2-grams; `none` models the early `return Vec::new()` when a gram has
no bucket. -/
def narrowResult (ti : TextIndexM) (text : List Nat)
    (smallest : List (List Nat × Nat)) : Option (List (List Nat × Nat)) :=
  if 4 ≤ text.length then
    let grams := dedupConsec ((pairGrams text).mergeSort leNatList)
    if 1 < grams.length then
      let indexes := grams.filterMap (fun g => ti.n2.lookup g)
      if grams.length ≠ indexes.length then none
      else
        match indexes.mergeSort (fun a b => decide (a.length ≤ b.length)) with
        | [] => some smallest
        | first :: rest2 =>
          let strings := rest2.foldl retainLoop first
          if strings.length < smallest.length then some strings else some smallest
    else some smallest
  else some smallest

/-- Is the query a `Contains`? -/
def TextQueryB.isContains : TextQueryB → Bool
  | .contains _ => true
  | _ => false

/-- `TextIndex::get`. -/
def textIndexGet (ti : TextIndexM) (query : TextQueryB) : List (List Nat) :=
  let text := query.text
  match selectBucket ti text with
  | none => []
  | some smallest =>
    let matches1 : List (List Nat) :=
      if text.length ≤ 2 ∧ query.isContains = true then smallest.map Prod.fst
      else []
    match narrowResult ti text smallest with
    | none => []
    | some smallest2 =>
      matches1 ++
        (match query with
          | .startsWith t => (smallest2.filter (fun p => t.isPrefixOf p.1)).map Prod.fst
          | .contains t => (smallest2.filter (fun p => listContainsB p.1 t)).map Prod.fst
          | .endsWith t => (smallest2.filter (fun p => t.isSuffixOf p.1)).map Prod.fst)

/-- For a text exactly one gram long, `NgramIndex::query` is the bucket
lookup of the text itself. -/
theorem ngramQuery_self (strings : NgramMap) (n : Nat) (text : List Nat)
    (hn : text.length = n) (h0 : 0 < n) :
    ngramQuery strings n text = strings.lookup text := by
  have hg : gramsN n text = [text] := by
    rw [gramsN, hn, show n + 1 - n = 1 from by omega, show List.range 1 = [0] from rfl, List.map_cons,
      List.map_nil, List.drop_zero, ← hn, List.take_length,
      List.mergeSort_of_sorted (List.pairwise_singleton _ _), dedupConsec]
  rw [ngramQuery, hg, List.foldl_cons, List.foldl_nil]
  cases strings.lookup text <;> rfl

/-- C10: for a `Contains` query of byte length 1 or 2 whose selected gram
bucket exists and whose strings all contain the gram (the index invariant),
`TextIndex::get` returns the bucket's strings twice over: once unfiltered
and once from the predicate pass. -/
theorem c10_contains_bucket_doubled (ti : TextIndexM) (text : List Nat)
    (bucket : List (List Nat × Nat))
    (hlen : text.length = 1 ∨ text.length = 2)
    (hb : selectBucket ti text = some bucket)
    (hne : bucket ≠ [])
    (hinv : ∀ p ∈ bucket, listContainsB p.1 text = true) :
    textIndexGet ti (TextQueryB.contains text) =
      bucket.map Prod.fst ++ bucket.map Prod.fst := by
  rw [textIndexGet]
  dsimp only [TextQueryB.text, TextQueryB.isContains]
  rw [hb]
  dsimp only
  have hnr : narrowResult ti text bucket = some bucket := by
    rw [narrowResult, if_neg (by omega)]
  rw [hnr]
  dsimp only
  rw [if_pos ⟨by omega, rfl⟩, List.filter_eq_self.mpr hinv]

def tiW : TextIndexM :=
  { n1 := [([97], [([97, 98], 0), ([99, 97], 1)])]
    n2 := [([97, 98], [([97, 98], 0)])] }

theorem c10_contains_bucket_doubled_witness :
    textIndexGet tiW (TextQueryB.contains [97]) =
      [[97, 98], [99, 97], [97, 98], [99, 97]] := by
  have hb : selectBucket tiW [97] = some [([97, 98], 0), ([99, 97], 1)] := by
    show ngramQuery tiW.n1 1 [97] = _
    rw [ngramQuery_self tiW.n1 1 [97] rfl (by omega)]
    decide
  have h := c10_contains_bucket_doubled tiW [97] [([97, 98], 0), ([99, 97], 1)]
    (Or.inl rfl) hb (by decide) (by decide)
  exact h.trans (by decide)
